import Mathlib

set_option maxRecDepth 100000

/-!
# readvcd: a shallow embedding of `src/traces/src/readvcd.c`

Bytes are natural numbers, C strings are lists of bytes (the end of the list
stands for the terminating NUL), the input file is the list of its bytes.
The C `int64_t` accumulators `hd`, `bl`, `cyc`, `ncyc`, `tim` are integers (a
file would need `2^63` bytes to overflow `hd` or `bl`); the places where the C
code narrows or can wrap (`atoi`, `atoll`, `bin_to_int`, the `uint32_t` casts
of an emitted point, `max_dim += 64`) are written out. Arrays are lists or
functions of the index. Reading `var[i]` past the allocated array is
undefined in C and is a fault of the embedding; allocations other than that
of the change-line buffer are taken to succeed, and the input file to open.

The definitions follow the source in its order: the C library functions the
program calls, `id_hash3`, `find_id`, `bin_to_int`, then `read_vcd` piece by
piece (preamble loop, sort and fold, hash table, state arena, timing signal,
change loop), `save_toggle_data_binary` and the end of `main`. The theorems
come after all definitions.
-/

namespace ReadVcd

/-! ## Constants (readvcd.c 12-15, 37) -/

def LINE_SZ_MAX : Nat := 1024
def TOKEN_MAX : Nat := 16
def ID_SZ_MAX : Nat := 8
def SCOPE_MAX : Nat := 100
def ID_HASH_MAX : Nat := 96 * 96 * 96

/-! ## The C library functions the program calls -/

/-- The bytes of a string literal. -/
def bytes (s : String) : List Nat := s.data.map Char.toNat

/-- C `isspace` in the "C" locale: space, `\t`, `\n`, `\v`, `\f`, `\r`. -/
def isspace (c : Nat) : Bool := c == 32 || (9 ≤ c && c ≤ 13)

/-- The C string stored at the start of a buffer: the bytes before the first NUL. -/
def cstr (s : List Nat) : List Nat := s.takeWhile (fun c => c != 0)

/-- C `strcmp` on byte strings (bytes compare as `unsigned char`, the end of a
list is the NUL terminator); the result is the difference of the first two
bytes that differ. -/
def strcmp : List Nat → List Nat → Int
  | [], [] => 0
  | [], b :: _ => -(b : Int)
  | a :: _, [] => (a : Int)
  | a :: as, b :: bs =>
    if a = b then (if a = 0 then 0 else strcmp as bs) else (a : Int) - (b : Int)

/-- Whether `p` is a prefix of `s`. -/
def is_prefix_of : List Nat → List Nat → Bool
  | [], _ => true
  | _ :: _, [] => false
  | a :: p, b :: s => a == b && is_prefix_of p s

/-- C `strstr(s, t) != NULL`: `t` occurs in `s` (the empty `t` always does). -/
def strstr : List Nat → List Nat → Bool
  | [], t => t.isEmpty
  | c :: s, t => is_prefix_of t (c :: s) || strstr s t

/-- The value of the leading run of decimal digits, with accumulator. -/
def digits_val : List Nat → Nat → Nat
  | [], acc => acc
  | c :: cs, acc => if 48 ≤ c ∧ c ≤ 57 then digits_val cs (10 * acc + (c - 48)) else acc

/-- C `strtoll(s, NULL, 10)` as glibc implements it: leading white space, an
optional sign, decimal digits, the result saturated to the `int64_t` range. -/
def strtoll (s : List Nat) : Int :=
  match s.dropWhile isspace with
  | 45 :: r => max (-(digits_val r 0 : Int)) (-(2 ^ 63 : Int))
  | 43 :: r => min (digits_val r 0 : Int) (2 ^ 63 - 1)
  | r => min (digits_val r 0 : Int) (2 ^ 63 - 1)

/-- C `atoll`. -/
def atoll (s : List Nat) : Int := strtoll s

/-- Conversion to `int` (two's complement, 32 bits). -/
def to_int32 (x : Int) : Int := (x + 2 ^ 31) % 2 ^ 32 - 2 ^ 31

/-- Conversion to `int64_t` (two's complement, 64 bits). -/
def to_int64 (x : Int) : Int := (x + 2 ^ 63) % 2 ^ 64 - 2 ^ 63

/-- C `atoi` as glibc implements it: `(int) strtol(s, NULL, 10)`. -/
def atoi (s : List Nat) : Int := to_int32 (strtoll s)

/-- Decimal digits of a natural number, most significant first (`fuel` bounds
the number of digits). -/
def dec_digits : Nat → Nat → List Nat → List Nat
  | 0, _, acc => acc
  | fuel + 1, n, acc =>
    if n < 10 then (48 + n) :: acc else dec_digits fuel (n / 10) ((48 + n % 10) :: acc)

/-- The text `snprintf(tmp, sizeof(tmp), " %d ", d)` produces for `0 ≤ d < 2^31`
(at most 12 bytes, so the 16-byte `tmp` never truncates it). -/
def fmt_width (d : Nat) : List Nat := 32 :: (dec_digits 20 d [] ++ [32])

/-- One call of `fgets` reading at most `k` bytes: the bytes up to and
including the first newline, and the rest of the file. -/
def fgets_aux : Nat → List Nat → List Nat × List Nat
  | 0, fp => ([], fp)
  | _ + 1, [] => ([], [])
  | k + 1, c :: fp =>
    if c = 10 then ([c], fp) else ((fgets_aux k fp).1.cons c, (fgets_aux k fp).2)

/-- C `fgets(buf, size, fp)`: `none` at end of file, else the buffer filled
(at most `size - 1` bytes) and the rest of the file. -/
def fgets (size : Nat) (fp : List Nat) : Option (List Nat × List Nat) :=
  match fp with
  | [] => none
  | _ :: _ => some (fgets_aux (size - 1) fp)

/-! ## Data (readvcd.c 17-34) -/

/-- The `var_t` record. `id` is the C string held in the 8-byte `id` field
(identifiers of up to 7 bytes, so that the field is NUL-terminated); `s` is
the offset of the state slice in the state arena. -/
structure var_t where
  id : List Nat
  d : Nat
  n : Nat
  o : Nat
  u : Nat
  s : Nat
  deriving DecidableEq, Repr

/-- The `toggle_data_point_t` record; both fields are `uint32_t`. -/
structure toggle_data_point_t where
  count : Nat
  time_step : Nat
  deriving DecidableEq, Repr

/-- How a run can leave the normal path. -/
inductive Fault where
  /-- The `wire_too_long` exit of the preamble. -/
  | wire_too_long
  /-- The `find_id` loop read `var[i]` past the allocated array. -/
  | var_out_of_bounds (i : Nat)
  /-- The allocation of the change-line buffer failed (`max_dim + 64` wrapped). -/
  | alloc_failed
  /-- The tokenizer stored a 17th token at `tok[TOKEN_MAX]`, past the array
  `tok` (readvcd.c 209). -/
  | tok_overrun
  /-- The `strcmp` of the fold loop (readvcd.c 325) ran past the 8 bytes of an
  identifier field that holds no terminator. -/
  | id_overrun
  /-- The scan for the end of the identifier in a change line
  (readvcd.c 441-445) ran past the terminator of the line and out of `chg`. -/
  | chg_overrun
  deriving DecidableEq, Repr

/-! ## `id_hash3` (readvcd.c 40-67) -/

/-- Byte `i` of a C string, NUL past its end. -/
def char_at (s : List Nat) (i : Nat) : Nat := s.getD i 0

/-- The hash of the first three characters of an identifier. A byte of a
`char` string is in range when it is `0x20..0x7F`. -/
def id_hash3 (id : List Nat) : Nat :=
  let a := char_at id 0
  if a < 0x20 ∨ a > 0x7F then (96 * 0 + 0) * 96 + 0
  else
    let b := char_at id 1
    if b < 0x20 ∨ b > 0x7F then (96 * (a - 0x20) + 0) * 96 + 0
    else
      let c := char_at id 2
      if c < 0x20 ∨ c > 0x7F then (96 * (a - 0x20) + (b - 0x20)) * 96 + 0
      else (96 * (a - 0x20) + (b - 0x20)) * 96 + (c - 0x20)

/-! ## `find_id` (readvcd.c 86-102) -/

/-- The result of `find_id`: a pointer to `var[i]`, `NULL`, or the undefined
read of `var[i]` past the allocated array. -/
inductive find_result where
  | found (i : Nat)
  | not_found
  | out_of_bounds (i : Nat)
  deriving DecidableEq, Repr

/-- The `while (i < ID_HASH_MAX)` loop of `find_id`, on the part of the `var`
array from position `i` on; the second component lists the positions of `var`
the loop examined. -/
def find_id_loop (id : List Nat) : List var_t → Nat → find_result × List Nat
  | [], i => if i < ID_HASH_MAX then (.out_of_bounds i, [i]) else (.not_found, [])
  | v :: vs, i =>
    if i < ID_HASH_MAX then
      if strcmp v.id id = 0 then (.found i, [i])
      else if strcmp v.id id > 0 then (.not_found, [i])
      else ((find_id_loop id vs (i + 1)).1, i :: (find_id_loop id vs (i + 1)).2)
    else (.not_found, [])

/-- The function `find_id` together with the positions it examined. -/
def find_id_scan (var : List var_t) (id_hash : Nat → Nat) (id : List Nat) :
    find_result × List Nat :=
  find_id_loop id (var.drop (id_hash (id_hash3 id))) (id_hash (id_hash3 id))

/-- The function `find_id`. -/
def find_id (var : List var_t) (id_hash : Nat → Nat) (id : List Nat) : find_result :=
  (find_id_scan var id_hash id).1

/-! ## `bin_to_int` (readvcd.c 106-118) -/

/-- The loop of `bin_to_int` over the first `d` bytes, `x` in `int64_t`. -/
def bin_to_int_loop : List Nat → Int → Int
  | [], x => x
  | c :: cs, x =>
    if c ≠ 48 ∧ c ≠ 49 then -1 else bin_to_int_loop cs (to_int64 (2 * x + ((c : Int) - 48)))

/-- The function `bin_to_int(s, d)`. -/
def bin_to_int (s : List Nat) (d : Nat) : Int :=
  bin_to_int_loop ((List.range d).map (char_at s)) 0

/-! ## `read_vcd`: the preamble (readvcd.c 194-299) -/

/-- The token that starts at the head of the buffer: the bytes before the next
white space or NUL. -/
def span_token (s : List Nat) : List Nat := s.takeWhile (fun c => c != 0 && !isspace c)

/-- The tokenizing `for` loop (readvcd.c 201-215): `flag` as in the source, `n`
the number of tokens stored so far. The store `tok[n++] = &buf[i]` comes
before the test `n > TOKEN_MAX`, so a 17th token is stored at `tok[16]`, past
the array `char *tok[TOKEN_MAX]`: the result is `none` then. -/
def tokenize_loop : List Nat → Bool → Nat → Option (List (List Nat))
  | [], _, _ => some []
  | c :: cs, flag, n =>
    if c = 0 then some []
    else if isspace c then tokenize_loop cs true n
    else if flag then
      if n ≥ TOKEN_MAX then none
      else (tokenize_loop cs false (n + 1)).map (fun toks => span_token (c :: cs) :: toks)
    else tokenize_loop cs false n

/-- The array `tok` after the tokenizing loop; its length is `n`. `none` when
the loop stores past the array. -/
def tokenize (buf : List Nat) : Option (List (List Nat)) := tokenize_loop buf true 0

/-- The state of the preamble loop: `scope`, the array `len`, the live part
`nam[0..k)` of the qualified-name buffer (so `k` is its length) and the name
records appended to `signame` so far, in file order (one per entry of `offs`). -/
structure pre_state where
  scope : Nat
  len : Nat → Nat
  nam : List Nat
  names : List (List Nat)

/-- The state before the first line. -/
def pre_init : pre_state := ⟨0, fun _ => 0, [], []⟩

/-- The name record written to `signame` for one `$var` line
(readvcd.c 283-294): identifier, `" %d "` of the width, qualified name. -/
def name_record (id : List Nat) (d : Nat) (nam : List Nat) : List Nat :=
  id ++ fmt_width d ++ nam

/-- The branches of the preamble loop for the tokens `tok` of one line
(readvcd.c 217-298): `none` when the line is `$enddefinitions` (the `break`). -/
def preamble_tokens (st : pre_state) (tok : List (List Nat)) : Except Fault (Option pre_state) :=
  let n := tok.length
  let tk := fun i => tok.getD i []
  if n ≥ 1 ∧ strcmp (tk 0) (bytes "$enddefinitions") = 0 then .ok none
  else if n ≥ 3 ∧ strcmp (tk 0) (bytes "$scope") = 0 then
    if st.scope > SCOPE_MAX then .error .wire_too_long
    else if st.nam.length + (tk 2).length + 1 ≥ LINE_SZ_MAX then .error .wire_too_long
    else .ok (some
      { st with
        len := fun i => if i = st.scope then (tk 2).length else st.len i
        nam := st.nam ++ tk 2 ++ [46]
        scope := st.scope + 1 })
  else if n ≥ 1 ∧ strcmp (tk 0) (bytes "$upscope") = 0 then
    if st.scope ≥ 1 then
      .ok (some
        { st with
          scope := st.scope - 1
          nam := st.nam.take (st.nam.length - (st.len (st.scope - 1) + 1)) })
    else .ok (some st)
  else if n ≥ 6 ∧ strcmp (tk 0) (bytes "$var") = 0 then
    let d := (atoi (tk 2)).toNat
    if st.nam.length + (tk 4).length ≥ LINE_SZ_MAX then .error .wire_too_long
    else if n ≥ ID_SZ_MAX - 1 then
      if st.nam.length + (tk 4).length + (tk 5).length ≥ LINE_SZ_MAX then .error .wire_too_long
      else .ok (some
        { st with names := st.names ++ [name_record (tk 3) d (st.nam ++ tk 4 ++ tk 5)] })
    else .ok (some { st with names := st.names ++ [name_record (tk 3) d (st.nam ++ tk 4)] })
  else .ok (some st)

/-- The body of the preamble loop for one buffer (readvcd.c 198-298):
`none` when the line is `$enddefinitions` (the `break`). -/
def preamble_line (st : pre_state) (buf : List Nat) : Except Fault (Option pre_state) :=
  match tokenize buf with
  | none => .error .tok_overrun
  | some tok => preamble_tokens st tok

/-- The preamble loop `while (fgets(buf, sizeof(buf), fp) == buf)`; `fuel`
bounds the number of lines. Returns the final state and the unread rest of
the file. -/
def read_preamble : Nat → pre_state → List Nat → Except Fault (pre_state × List Nat)
  | 0, st, fp => .ok (st, fp)
  | fuel + 1, st, fp =>
    match fgets LINE_SZ_MAX fp with
    | none => .ok (st, fp)
    | some (buf, rest) =>
      match preamble_line st buf with
      | .error e => .error e
      | .ok none => .ok (st, rest)
      | .ok (some st1) => read_preamble fuel st1 rest

/-! ## `read_vcd`: sorting and folding the name records (readvcd.c 301-340) -/

/-- The comparator `offs_cmp`: `strcmp` of the two name records. -/
def offs_cmp (a b : List Nat) : Int := strcmp a b

/-- The order `qsort` sorts by: `offs_cmp(a, b) <= 0`. -/
def offs_le (a b : List Nat) : Prop := offs_cmp a b ≤ 0

instance : DecidableRel offs_le := fun a b => inferInstanceAs (Decidable (offs_cmp a b ≤ 0))

/-- The call `qsort(offs, offs_n, sizeof(size_t), offs_cmp)`: the records in
ascending `offs_cmp` order (records that compare equal are equal C strings,
so the sorted sequence of records does not depend on the sorting algorithm). -/
def qsort_offs (names : List (List Nat)) : List (List Nat) :=
  List.insertionSort offs_le names

/-- The loop `for (l = 0; l < ID_SZ_MAX; l++)` (readvcd.c 312-315): the length
of the identifier at the head of a name record. -/
def record_id_len (s : List Nat) : Nat :=
  ((s.take ID_SZ_MAX).takeWhile (fun c => c != 32 && c != 0)).length

/-- The identifier copied to `tmp` (readvcd.c 316-317). -/
def record_id (s : List Nat) : List Nat := s.take (record_id_len s)

/-- The width read back from a name record (readvcd.c 318-320). -/
def record_width (s : List Nat) : Nat := (atoi (s.drop (record_id_len s))).toNat

/-- What the fold loop maintains: the `var_n` entries of `var` filled so far,
`st_sz` and `max_dim`; `overrun` tells whether a `strcmp` of the loop has
run past an identifier field. -/
structure fold_state where
  var : List var_t
  st_sz : Nat
  max_dim : Nat
  overrun : Bool

/-- Whether `strcmp(var[var_n-1].id, tmp)` (readvcd.c 325) leaves the field
`char id[ID_SZ_MAX]`: the field holds 8 bytes without a terminator and `tmp`
agrees with all of them, so the comparison goes on into the field `d` and
into `tmp[8]`, which `memset(tmp + l, 0, 8 - l)` has not written. -/
def id_field_overrun (last_id tmp : List Nat) : Bool :=
  decide (last_id.length ≥ ID_SZ_MAX) && decide (last_id.take ID_SZ_MAX = tmp.take ID_SZ_MAX)

/-- One iteration of the fold loop (readvcd.c 310-340) for the record `s` at
position `i` of the sorted `offs`. -/
def fold_step (fs : fold_state) (i : Nat) (s : List Nat) : fold_state :=
  let tmp := record_id s
  let d := record_width s
  let max_dim := if d > fs.max_dim then d else fs.max_dim
  match fs.var.getLast? with
  | none =>
    { var := fs.var ++ [⟨tmp, d, 1, i, 0, 0⟩], st_sz := fs.st_sz + d, max_dim := max_dim,
      overrun := fs.overrun }
  | some last =>
    if strcmp last.id tmp ≠ 0 then
      { var := fs.var ++ [⟨tmp, d, 1, i, 0, 0⟩], st_sz := fs.st_sz + d, max_dim := max_dim,
        overrun := fs.overrun }
    else
      { var := fs.var.dropLast ++ [{ last with n := last.n + 1 }],
        st_sz := fs.st_sz, max_dim := max_dim,
        overrun := fs.overrun || id_field_overrun last.id tmp }

/-- The fold loop over the sorted records from position `i` on. -/
def fold_loop : List (List Nat) → Nat → fold_state → fold_state
  | [], _, fs => fs
  | s :: rest, i, fs => fold_loop rest (i + 1) (fold_step fs i s)

/-! ## `read_vcd`: the hash table (readvcd.c 342-362) -/

/-- One iteration of the loop that fills `id_hash` (readvcd.c 349-359), for
`var[i]`; the state is `(y, j, id_hash)`. -/
def hash_step (i : Nat) (v : var_t) (st : Nat × Nat × (Nat → Nat)) : Nat × Nat × (Nat → Nat) :=
  let x := id_hash3 v.id
  let y := st.1
  let j := st.2.1
  let id_hash := st.2.2
  if x > y then
    (x, i, fun h => if h = x then i else if y ≤ h ∧ h < x then j else id_hash h)
  else (x, i, id_hash)

/-- The loop `for (i = 0; i < var_n; i++)` over `var` from position `i` on. -/
def hash_loop : List var_t → Nat → Nat × Nat × (Nat → Nat) → Nat × Nat × (Nat → Nat)
  | [], _, st => st
  | v :: vs, i, st => hash_loop vs (i + 1) (hash_step i v st)

/-- The final loop `while (y < ID_HASH_MAX) id_hash[y++] = j` (readvcd.c
360-362) on the state `(y, j, id_hash)` the `for` loop leaves. -/
def hash_finish (st : Nat × Nat × (Nat → Nat)) : Nat → Nat :=
  fun h => if st.1 ≤ h ∧ h < ID_HASH_MAX then st.2.1 else st.2.2 h

/-- The table `id_hash` as built by readvcd.c 344-362 from the `var_n` entries
of `var`: `calloc`, the `for` loop, and the final `while` loop. -/
def build_id_hash (var : List var_t) : Nat → Nat :=
  hash_finish (hash_loop var 0 (0, 0, fun _ => 0))

/-! ## `read_vcd`: the state arena and the timing signal (readvcd.c 368-397) -/

/-- The loop that gives every variable its state pointer (readvcd.c 374-378). -/
def assign_state : List var_t → Nat → List var_t
  | [], _ => []
  | v :: vs, s => { v with s := s } :: assign_state vs (s + v.d)

/-- The function `get_signame`: the part of the first name record of `v`
after its last white-space byte. -/
def get_signame (names : List (List Nat)) (v : var_t) : List Nat :=
  (((names.getD v.o []).reverse).takeWhile (fun c => !isspace c)).reverse

/-- The loop that looks for the timing signal (readvcd.c 387-394), over `var`
from position `i` on: the first variable whose name contains `timing`. -/
def match_timing (names : List (List Nat)) (timing : List Nat) : List var_t → Nat → Option Nat
  | [], _ => none
  | v :: vs, i =>
    if strstr (get_signame names v) timing then some i else match_timing names timing vs (i + 1)

/-- A zero-filled `var_t`, as `calloc` leaves it. -/
def var_zero : var_t := ⟨[], 0, 0, 0, 0, 0⟩

/-- Everything `read_vcd` has built when the change loop starts. `var` is the
whole allocated array (`offs_n` entries, those from `var_n` on zero-filled),
`names` the sorted name records. -/
structure tables where
  names : List (List Nat)
  var : List var_t
  var_n : Nat
  id_hash : Nat → Nat
  st_sz : Nat
  max_dim : Nat
  cyc_v : Option Nat
  id_overrun : Bool

/-- The code between the preamble loop and the change loop
(readvcd.c 301-397), from the name records in file order. -/
def build_tables (names : List (List Nat)) (timing : List Nat) : tables :=
  let sorted := qsort_offs names
  let fs := fold_loop sorted 0 ⟨[], 0, 0, false⟩
  let var := assign_state fs.var 0
  { names := sorted
    var := var ++ List.replicate (names.length - var.length) var_zero
    var_n := var.length
    id_hash := build_id_hash var
    st_sz := fs.st_sz
    max_dim := fs.max_dim
    cyc_v := match_timing sorted timing var 0
    id_overrun := fs.overrun }

/-! ## `read_vcd`: the change loop (readvcd.c 399-518) -/

/-- The variables of `read_vcd` that the change loop updates: the `var` array
(for the `u` fields), the state arena, `tim`, `cyc`, `ncyc`, `hd`, `bl`, `sigd`
and the points stored in `toggle_buffer`. -/
structure vcd_state where
  var : List var_t
  state : List Nat
  tim : Int
  cyc : Int
  ncyc : Int
  hd : Int
  bl : Int
  sigd : Bool
  toggle_buffer : List toggle_data_point_t
  deriving DecidableEq, Repr

/-- What the change loop reads but never writes: `id_hash`, `cyc_v`, and the
arguments `thresh` and `dump_tim` (`none` for `NULL`, else the array up to its
negative terminator). -/
structure run_env where
  id_hash : Nat → Nat
  cyc_v : Option Nat
  thresh : Int
  dump_tim : Option (List Int)

/-- Conversion to `uint32_t`. -/
def to_uint32 (x : Int) : Nat := (x % 2 ^ 32).toNat

/-- The loop `while (dump_tim[i] >= 0 && !sigd) sigd = (dump_tim[i++] == cyc)`. -/
def dump_scan : List Int → Int → Bool
  | [], _ => false
  | t :: ts, cyc => if t ≥ 0 then (if t = cyc then true else dump_scan ts cyc) else false

/-- The code at the label `new_time` (readvcd.c 483-517). -/
def new_time (env : run_env) (st : vcd_state) : vcd_state :=
  if st.ncyc > st.cyc then
    let st1 :=
      if st.cyc ≥ 0 ∧ st.hd ≥ env.thresh then
        { st with
          toggle_buffer := st.toggle_buffer ++ [⟨to_uint32 st.hd, to_uint32 st.cyc⟩]
          hd := 0
          bl := 0 }
      else st
    let st2 := { st1 with cyc := st.ncyc }
    match env.dump_tim with
    | none => st2
    | some dt => { st2 with sigd := dump_scan dt st2.cyc }
  else st

/-- The loop of readvcd.c 461-466 over the bits of a record, from offset `o`
of the arena: the arena after the writes and the count `sd`. -/
def hamming_loop : List Nat → Nat → List Nat → Int → List Nat × Int
  | [], _, state, sd => (state, sd)
  | b :: bits, o, state, sd =>
    hamming_loop bits (o + 1) (state.set o b) (if char_at state o ≠ b then sd + 1 else sd)

/-- The call `memcpy(v->s, s, d)` at offset `o` of the arena. -/
def memcpy : List Nat → Nat → List Nat → List Nat
  | [], _, state => state
  | b :: bits, o, state => memcpy bits (o + 1) (state.set o b)

/-- The statement `v->u++` for `v = &var[i]`. -/
def bump_u (var : List var_t) (i : Nat) : List var_t :=
  var.modify (fun v => { v with u := v.u + 1 }) i

/-- The state update of an accepted record (readvcd.c 459-476) for
`v = &var[i]` and the `d` bytes `bits` of bit data. -/
def state_update (i : Nat) (bits : List Nat) (st : vcd_state) : vcd_state :=
  let v := st.var.getD i var_zero
  if v.u > 0 then
    let r := hamming_loop bits v.s st.state 0
    { st with
      state := r.1
      bl := st.bl + bits.length
      hd := st.hd + r.2
      var := bump_u st.var i }
  else
    { st with
      state := memcpy bits v.s st.state
      var := bump_u st.var i }

/-- The update of `ncyc` from the cycle counter signal (readvcd.c 478-481). -/
def cycle_signal (env : run_env) (i : Nat) (bits : List Nat) (st : vcd_state) : vcd_state :=
  if env.cyc_v = some i then { st with ncyc := bin_to_int bits bits.length } else st

/-- How the change loop classifies the line in `chg`. -/
inductive line_kind where
  /-- `chg[0] == 0 || chg[0] == '\n'`. -/
  | blank
  /-- A `#` line, with the value of `atoll(&chg[1])`. -/
  | time_marker (t : Int)
  /-- The first byte is none of `0 1 b B` (the `ERROR  format` branch). -/
  | format_error
  /-- The lookup `find_id(r)` returned `NULL`. -/
  | id_not_found (id : List Nat)
  /-- The record has `d != v->d` for `v = &var[i]`. -/
  | wrong_dimension (i : Nat)
  /-- The record goes on to the state update of `var[i]` with these bits. -/
  | value_change (i : Nat) (bits : List Nat)
  /-- The lookup `find_id(r)` read past the `var` array. -/
  | undefined_read (i : Nat)
  deriving DecidableEq, Repr

/-- The identifier the loop of readvcd.c 441-445 cuts out at `r`: the C string
at `r` after a NUL is written over the first white-space byte among `r[0..7)`,
or over `r[7]`. The loop does not stop at the terminator of the line; this is
its result as long as it stays inside `chg` (`scan_overrun` tells when it may
not, and `run_changes` stops there). -/
def change_id (r : List Nat) : List Nat :=
  ((r.take (ID_SZ_MAX - 1)).takeWhile (fun c => !isspace c)).takeWhile (fun c => c != 0)

/-- The run of `'0'` and `'1'` at the head of the bit data. -/
def bit_run (s : List Nat) : List Nat := s.takeWhile (fun c => c == 48 || c == 49)

/-- The part of the classification common to scalar and vector records
(readvcd.c 441-457): `bits` are the `d` bytes at `s`, `r` is the buffer from
the identifier on. -/
def classify_record (var : List var_t) (id_hash : Nat → Nat) (bits r : List Nat) : line_kind :=
  match find_id var id_hash (change_id r) with
  | .out_of_bounds i => .undefined_read i
  | .not_found => .id_not_found (change_id r)
  | .found i =>
    if bits.length ≠ (var.getD i var_zero).d then .wrong_dimension i
    else .value_change i bits

/-- The classification of one line (readvcd.c 406-457); `buf` is what `fgets`
stored, `chg` the C string in it. -/
def classify (var : List var_t) (id_hash : Nat → Nat) (buf : List Nat) : line_kind :=
  let chg := cstr buf
  let c0 := char_at chg 0
  if c0 = 0 ∨ c0 = 10 then .blank
  else if c0 = 35 then .time_marker (atoll (chg.drop 1))
  else if c0 = 48 ∨ c0 = 49 then classify_record var id_hash [c0] (chg.drop 1)
  else if c0 = 98 ∨ c0 = 66 then
    classify_record var id_hash (bit_run (chg.drop 1))
      (((chg.drop 1).drop (bit_run (chg.drop 1)).length).dropWhile (fun c => c == 32))
  else .format_error

/-- The offset in `chg` of the pointer `r` when the line reaches the scan for
the end of the identifier (readvcd.c 419-439); `none` for the lines that
`continue` or `goto new_time` before it. -/
def scan_start (chg : List Nat) : Option Nat :=
  let c0 := char_at chg 0
  if c0 = 0 ∨ c0 = 10 then none
  else if c0 = 35 then none
  else if c0 = 48 ∨ c0 = 49 then some 1
  else if c0 = 98 ∨ c0 = 66 then
    some (1 + (bit_run (chg.drop 1)).length +
      (((chg.drop 1).drop (bit_run (chg.drop 1)).length).takeWhile (fun c => c == 32)).length)
  else none

/-- Whether the scan `for (i = 0; i < ID_SZ_MAX - 1; i++) if (isspace(r[i]))
break; r[i] = 0;` (readvcd.c 441-445) can leave the buffer `chg` of `size`
bytes on the line `buf` that `fgets` stored. The scan tests for white space
only: when the string at `r` has fewer than `ID_SZ_MAX - 1` bytes and no
white space, it goes on past the terminator, through bytes that this line did
not write, up to `r[ID_SZ_MAX - 1]`, which lies outside the buffer when
`r + ID_SZ_MAX - 1` does. A line that fills the buffer has its terminator in
the last byte, so the very next byte is outside. -/
def scan_overrun (size : Nat) (buf : List Nat) : Bool :=
  match scan_start (cstr buf) with
  | none => false
  | some o =>
    decide (((cstr buf).drop o).length < ID_SZ_MAX - 1) &&
      ((cstr buf).drop o).all (fun c => !isspace c) &&
      decide (size ≤ o + (ID_SZ_MAX - 1))

/-- The body of the change loop for one line (readvcd.c 406-517). -/
def change_line (env : run_env) (st : vcd_state) (buf : List Nat) : Except Fault vcd_state :=
  match classify st.var env.id_hash buf with
  | .blank => .ok st
  | .time_marker t =>
    .ok (new_time env { st with tim := t, ncyc := if env.cyc_v = none then t else st.ncyc })
  | .format_error => .ok st
  | .id_not_found _ => .ok st
  | .wrong_dimension _ => .ok st
  | .undefined_read i => .error (.var_out_of_bounds i)
  | .value_change i bits => .ok (new_time env (cycle_signal env i bits (state_update i bits st)))

/-- The change loop over the lines `fgets(chg, max_dim, fp)` delivers, in order. -/
def read_changes (env : run_env) : vcd_state → List (List Nat) → Except Fault vcd_state
  | st, [] => .ok st
  | st, buf :: rest =>
    match change_line env st buf with
    | .error e => .error e
    | .ok st1 => read_changes env st1 rest

/-- The buffers successive calls `fgets(chg, size, fp)` deliver until end of
file; `fuel` bounds their number. -/
def fgets_all (size : Nat) : Nat → List Nat → List (List Nat)
  | 0, _ => []
  | fuel + 1, fp =>
    match fgets size fp with
    | none => []
    | some (buf, rest) => buf :: fgets_all size fuel rest

/-- The state at the start of the change loop (readvcd.c 149-155, 368-378,
399-402). -/
def init_state (t : tables) : vcd_state :=
  { var := t.var
    state := List.replicate t.st_sz 120
    tim := 0
    cyc := -1
    ncyc := 0
    hd := 0
    bl := 0
    sigd := false
    toggle_buffer := [] }

/-- The lines of the change loop up to the first one on which the scan for
the identifier can leave the buffer of `size` bytes. -/
def lines_before_overrun (size : Nat) (lines : List (List Nat)) : List (List Nat) :=
  lines.takeWhile (fun buf => !scan_overrun size buf)

/-- The part of `read_vcd` after the tables are built (readvcd.c 380-535):
the allocation of `chg`, the change loop on the unread rest of the file, and
the points returned. The run is a fault when the fold loop has compared past
an identifier field, and from the first line on which the scan for the
identifier can leave `chg`. -/
def run_changes (t : tables) (thresh : Int) (dump_tim : Option (List Int)) (rest : List Nat) :
    Except Fault (List toggle_data_point_t) :=
  if t.id_overrun then .error .id_overrun
  else if to_int32 (t.max_dim + 64) < 0 then .error .alloc_failed
  else
    match read_changes ⟨t.id_hash, t.cyc_v, thresh, dump_tim⟩ (init_state t)
        (lines_before_overrun (t.max_dim + 64)
          (fgets_all (t.max_dim + 64) rest.length rest)) with
    | .error e => .error e
    | .ok st =>
      if (lines_before_overrun (t.max_dim + 64)
            (fgets_all (t.max_dim + 64) rest.length rest)).length
          < (fgets_all (t.max_dim + 64) rest.length rest).length then
        .error .chg_overrun
      else .ok st.toggle_buffer

/-- The function `read_vcd` on the bytes `fp` of the file `fn`: the points it
returns in `*toggle_data` (it returns `fail = 0` whenever it returns). -/
def read_vcd (fp : List Nat) (timing : List Nat) (thresh : Int) (dump_tim : Option (List Int)) :
    Except Fault (List toggle_data_point_t) :=
  match read_preamble fp.length pre_init fp with
  | .error e => .error e
  | .ok (pre, rest) => run_changes (build_tables pre.names timing) thresh dump_tim rest

/-! ## `save_toggle_data_binary` and `main` (readvcd.c 545-639) -/

/-- The four bytes of a `uint32_t` in the host's byte order. -/
def u32_bytes (big_endian : Bool) (x : Nat) : List Nat :=
  if big_endian then [x / 16777216 % 256, x / 65536 % 256, x / 256 % 256, x % 256]
  else [x % 256, x / 256 % 256, x / 65536 % 256, x / 16777216 % 256]

/-- The write loop of `save_toggle_data_binary` (readvcd.c 564-576) from point
`i` on; `write_ok i` tells whether the `fwrite` of point `i` returns 1, `out`
is what the stream `file` has accepted so far (buffered, not yet in the
file). Returns the result and the bytes the stream has accepted. -/
def save_loop (big_endian : Bool) (write_ok : Nat → Bool) :
    List toggle_data_point_t → Nat → List Nat → Int × List Nat
  | [], _, out => (0, out)
  | p :: ps, i, out =>
    if write_ok i then save_loop big_endian write_ok ps (i + 1) (out ++ u32_bytes big_endian p.count)
    else (-1, out)

/-- The function `save_toggle_data_binary`: its result and the content of the
output file after `fclose` (`none` when `fopen` failed and the file was not
touched). `flushed` is the number of bytes of the stream that reach the file
(all of them when every flush succeeds); the result of `fclose`, which
reports a failed flush, is dropped (readvcd.c 573, 579), so `flushed` does not
show in the result. -/
def save_toggle_data_binary (big_endian fopen_ok : Bool) (write_ok : Nat → Bool)
    (flushed : Nat) (toggle_data : List toggle_data_point_t) : Int × Option (List Nat) :=
  if fopen_ok then
    ((save_loop big_endian write_ok toggle_data 0 []).1,
      some ((save_loop big_endian write_ok toggle_data 0 []).2.take flushed))
  else (-1, none)

/-- The end of `main` (readvcd.c 623-638) once `read_vcd` has returned
`fail = 0` and the points `toggle_data`: the value `main` returns and the
content of the output file (`none` when it was not opened). -/
def main_save (big_endian fopen_ok : Bool) (write_ok : Nat → Bool) (flushed : Nat)
    (toggle_data : List toggle_data_point_t) : Int × Option (List Nat) :=
  if toggle_data.length > 0 then
    (0 + (save_toggle_data_binary big_endian fopen_ok write_ok flushed toggle_data).1,
      (save_toggle_data_binary big_endian fopen_ok write_ok flushed toggle_data).2)
  else (0, none)

/-! ## Notions of the specification and the inputs of its scenarios -/

/-- Hamming distance as the specification's glossary defines it: the number
of positions at which two bit strings of equal length differ. -/
def hamming_distance (a b : List Nat) : Nat :=
  (List.zipWith (fun x y => if x ≠ y then 1 else 0) a b).sum

/-- The state slice of a variable: `v->d` bytes of the arena from `v->s` on. -/
def state_slice (state : List Nat) (v : var_t) : List Nat := (state.drop v.s).take v.d

/-- Every state slice of the `var` array lies inside the state arena. -/
def slices_in_arena (var : List var_t) (state : List Nat) : Prop :=
  ∀ v ∈ var, v.s + v.d ≤ state.length

/-- Every line of `lines`, processed in order from `st`, is an accepted
value-change record that does not raise the candidate cycle `ncyc` above the
current cycle `cyc`. -/
def accepted_no_advance (env : run_env) : vcd_state → List (List Nat) → Bool
  | _, [] => true
  | st, buf :: rest =>
    match classify st.var env.id_hash buf with
    | .value_change i bits =>
      decide ((cycle_signal env i bits (state_update i bits st)).ncyc ≤ st.cyc) &&
        accepted_no_advance env (new_time env (cycle_signal env i bits (state_update i bits st))) rest
    | _ => false

/-- The environment of the change loop for the tables `t`. -/
def env_of (t : tables) (thresh : Int) (dump_tim : Option (List Int)) : run_env :=
  ⟨t.id_hash, t.cyc_v, thresh, dump_tim⟩

/-- An identifier of 1 to 3 characters in the range `0x21..0x7E`. -/
def id_ok3 (id : List Nat) : Prop :=
  1 ≤ id.length ∧ id.length ≤ 3 ∧ ∀ c ∈ id, 0x21 ≤ c ∧ c ≤ 0x7E

instance (id : List Nat) : Decidable (id_ok3 id) := by
  unfold id_ok3
  infer_instance

/-- One `$var` declaration of a preamble as the preamble loop records it:
the identifier `tok[3]`, the width `d` and the qualified name. -/
structure var_decl where
  id : List Nat
  d : Nat
  nam : List Nat
  deriving DecidableEq

/-- The name record of a declaration. -/
def var_decl.record (x : var_decl) : List Nat := name_record x.id x.d x.nam

/-- Two states of the change loop that agree except for `sigd`. -/
def same_but_sigd (a b : vcd_state) : Prop :=
  a.var = b.var ∧ a.state = b.state ∧ a.tim = b.tim ∧ a.cyc = b.cyc ∧ a.ncyc = b.ncyc ∧
    a.hd = b.hd ∧ a.bl = b.bl ∧ a.toggle_buffer = b.toggle_buffer

/-- The preamble of the two-signal scenario: scalar `!` (width 1, `top.clk`)
and vector `"` (width 2, `top.bus`). -/
def scenario_preamble : List Nat :=
  bytes "$scope module top $end\n" ++ bytes "$var wire 1 ! clk $end\n" ++
    bytes "$var wire 2 \" bus $end\n" ++ bytes "$upscope $end\n" ++
    bytes "$enddefinitions $end\n"

/-- The body of the two-signal scenario. -/
def scenario_body : List Nat :=
  bytes "#0\n" ++ bytes "0!\n" ++ bytes "b00\"\n" ++ bytes "#5\n" ++ bytes "1!\n" ++
    bytes "b11\"\n" ++ bytes "#10\n" ++ bytes "0!\n" ++ bytes "b10\"\n"

/-- The trace file of the two-signal scenario. -/
def scenario_file : List Nat := scenario_preamble ++ scenario_body

/-- The name records the preamble loop leaves for the scenario's preamble. -/
def scenario_names : List (List Nat) := [bytes "! 1 top.clk", bytes "\" 2 top.bus"]

/-- The lines of the scenario's body up to and including `#10`, as `fgets`
delivers them. -/
def scenario_lines_to_10 : List (List Nat) :=
  [bytes "#0\n", bytes "0!\n", bytes "b00\"\n", bytes "#5\n", bytes "1!\n", bytes "b11\"\n",
    bytes "#10\n"]

/-- The last two lines of the scenario's body. -/
def scenario_lines_after_10 : List (List Nat) := [bytes "0!\n", bytes "b10\"\n"]

/-- The state of the change loop on the scenario after the line `#10`, at
threshold 1. -/
def scenario_state_at_10 : vcd_state :=
  { var := [⟨[33], 1, 1, 0, 2, 0⟩, ⟨[34], 2, 1, 1, 2, 1⟩]
    state := [49, 49, 49]
    tim := 10
    cyc := 10
    ncyc := 10
    hd := 0
    bl := 0
    sigd := false
    toggle_buffer := [⟨3, 5⟩] }

/-- The lines of the scenario's body followed by the line `#15`, as `fgets`
delivers them. -/
def scenario_lines_to_15 : List (List Nat) :=
  scenario_lines_to_10 ++ scenario_lines_after_10 ++ [bytes "#15\n"]

/-- The state of the change loop on the scenario after the line `#15`, at
threshold 1. -/
def scenario_state_at_15 : vcd_state :=
  { var := [⟨[33], 1, 1, 0, 3, 0⟩, ⟨[34], 2, 1, 1, 3, 1⟩]
    state := [48, 49, 48]
    tim := 15
    cyc := 15
    ncyc := 15
    hd := 0
    bl := 0
    sigd := false
    toggle_buffer := [⟨3, 5⟩, ⟨2, 10⟩] }

/-- The two `$var` declarations of the scenario's preamble. -/
def scenario_decls : List var_decl :=
  [⟨bytes "!", 1, bytes "top.clk"⟩, ⟨bytes "\"", 2, bytes "top.bus"⟩]

/-- A timing fragment that occurs in neither name of the scenario. -/
def scenario_timing : List Nat := bytes "cycle"

/-- Four bytes read as a native `uint32_t`. -/
def u32_of_bytes (big_endian : Bool) (b0 b1 b2 b3 : Nat) : Nat :=
  if big_endian then ((b0 * 256 + b1) * 256 + b2) * 256 + b3
  else ((b3 * 256 + b2) * 256 + b1) * 256 + b0

/-- The output file read as a flat array of 4-byte counts: consecutive groups
of four bytes, each decoded as a native `uint32_t`. -/
def decode_counts (big_endian : Bool) : List Nat → List Nat
  | b0 :: b1 :: b2 :: b3 :: rest =>
    u32_of_bytes big_endian b0 b1 b2 b3 :: decode_counts big_endian rest
  | _ => []

/-- A trace on the scenario's preamble whose time markers pass `2^32`. -/
def wrap_file : List Nat :=
  scenario_preamble ++ (bytes "#0\n" ++ bytes "0!\n" ++ bytes "#5\n" ++ bytes "1!\n" ++
    bytes "#4294967296\n" ++ bytes "0!\n" ++ bytes "#4294967297\n")

/-- A trace that declares the identifiers `abcd` and `abce` (both of width 1)
and changes `abcd` at time 5. -/
def long_id_file : List Nat :=
  bytes "$var wire 1 abcd x $end\n" ++ bytes "$var wire 1 abce y $end\n" ++
    bytes "$enddefinitions $end\n" ++
    (bytes "#0\n" ++ bytes "0abcd\n" ++ bytes "#5\n" ++ bytes "1abcd\n" ++ bytes "#10\n")

/-- The name records of `long_id_file`. -/
def long_id_names : List (List Nat) := [bytes "abcd 1 x", bytes "abce 1 y"]

/-- The Variable Table: the `var_n` entries of `var` that the fold filled. -/
def var_table (t : tables) : List var_t := t.var.take t.var_n

/-- An identifier of at most 7 characters in the range `0x21..0x7E`. -/
def id_ok7 (id : List Nat) : Prop :=
  id.length ≤ 7 ∧ ∀ c ∈ id, 0x21 ≤ c ∧ c ≤ 0x7E

instance (id : List Nat) : Decidable (id_ok7 id) := by
  unfold id_ok7
  infer_instance

/-- The entry `v` of `var` stands for the records of the sorted list `pre`
that carry its identifier: `v.o` is the position of the first of them, `v.d`
is the width read from that first record, `v.n` is their number. -/
def var_of_records (pre : List (List Nat)) (v : var_t) : Prop :=
  ∃ s, pre[v.o]? = some s ∧ record_id s = v.id ∧ record_width s = v.d ∧
    (∀ j s1, j < v.o → pre[j]? = some s1 → record_id s1 ≠ v.id) ∧
    v.n = pre.countP (fun s1 => decide (record_id s1 = v.id)) ∧ v.u = 0

/-- What the fold loop has established when it has processed the sorted
records `pre`: the identifiers of `var` are strictly ascending, every
processed record has its identifier in `var`, and every entry of `var`
stands for the processed records of its identifier. -/
def fold_inv (pre : List (List Nat)) (var : List var_t) : Prop :=
  (var.map (fun v => v.id)).Pairwise (fun a b => strcmp a b < 0) ∧
  (∀ s ∈ pre, record_id s ∈ var.map (fun v => v.id)) ∧
  (∀ v ∈ var, var_of_records pre v)

/-- A preamble that declares the identifier `!` twice, first with width 2,
then with width 16. -/
def mismatch_preamble : List Nat :=
  bytes "$scope module top $end\n" ++ bytes "$var wire 2 ! a $end\n" ++
    bytes "$var wire 16 ! b $end\n" ++ bytes "$upscope $end\n" ++
    bytes "$enddefinitions $end\n"

/-- The declarations of `mismatch_preamble`, in file order. -/
def mismatch_decls : List var_decl :=
  [⟨bytes "!", 2, bytes "top.a"⟩, ⟨bytes "!", 16, bytes "top.b"⟩]

/-- The unsigned integer a string of `d` bits denotes, most significant bit
first: the sum of `bit_i * 2^(d-1-i)`. -/
def binary_value (s : List Nat) (d : Nat) : Nat :=
  Finset.sum (Finset.range d) (fun i => (char_at s i - 48) * 2 ^ (d - 1 - i))

/-- A preamble that declares the identifier `abcdefgh`, of 8 characters,
twice. -/
def long8_preamble : List Nat :=
  bytes "$var wire 1 abcdefgh x $end\n" ++ bytes "$var wire 1 abcdefgh y $end\n" ++
    bytes "$enddefinitions $end\n"

/-- A preamble that declares one variable with an identifier of 9 characters. -/
def long9_preamble : List Nat :=
  bytes "$var wire 1 abcdefghi x $end\n" ++ bytes "$enddefinitions $end\n"

/-- The declaration of `long9_preamble`. -/
def long9_decls : List var_decl := [⟨bytes "abcdefghi", 1, bytes "x"⟩]

/-- The part of a `var_t` the change loop never writes: identifier, width and
state offset. -/
def layout_key (v : var_t) : List Nat × Nat × Nat := (v.id, v.d, v.s)

/-- The state slices of different entries do not overlap (an entry of width 0
has an empty slice). -/
def slices_disjoint (var : List var_t) : Prop :=
  ∀ (i j : Nat) (vi vj : var_t), i ≠ j → var[i]? = some vi → var[j]? = some vj →
    vj.d = 0 ∨ vi.s + vi.d ≤ vj.s ∨ vj.s + vj.d ≤ vi.s

/-- The bits of the line when the change loop accepts it as a value-change
record of `var[i]`. -/
def line_bits (var : List var_t) (id_hash : Nat → Nat) (i : Nat) (buf : List Nat) :
    Option (List Nat) :=
  match classify var id_hash buf with
  | .value_change j bits => if j = i then some bits else none
  | _ => none

/-- The bits of the accepted value-change records of `var[i]` among `lines`,
in order. -/
def accepted_bits (var : List var_t) (id_hash : Nat → Nat) (i : Nat)
    (lines : List (List Nat)) : List (List Nat) :=
  lines.filterMap (line_bits var id_hash i)

/-- A line of a preamble, by its tokens. -/
inductive pre_item where
  /-- The line `$scope <kind> <name> $end`. -/
  | scope (kind name : List Nat)
  /-- The line `$upscope $end`. -/
  | upscope
  /-- The line `$var <type> <width> <id> <short> <more ...> $end`, where `more`
  are the tokens between the short name and `$end`. -/
  | var (type width id short : List Nat) (more : List (List Nat))
  /-- Any other line, with the tokens `toks`: a header line such as
  `$timescale 1ns $end`, a line of a block that runs over several lines, a
  blank line (no token). -/
  | other (toks : List (List Nat))

/-- The tokens of a line. -/
def pre_item.tokens : pre_item → List (List Nat)
  | .scope kind name => [bytes "$scope", kind, name, bytes "$end"]
  | .upscope => [bytes "$upscope", bytes "$end"]
  | .var type width id short more =>
    bytes "$var" :: type :: width :: id :: short :: (more ++ [bytes "$end"])
  | .other toks => toks

/-- Tokens written one after the other, separated by one space. -/
def join_tokens : List (List Nat) → List Nat
  | [] => []
  | [t] => t
  | t :: u :: ts => t ++ 32 :: join_tokens (u :: ts)

/-- The text of a preamble: each line's tokens, then a newline. -/
def preamble_text : List pre_item → List Nat
  | [] => []
  | it :: rest => join_tokens it.tokens ++ 10 :: preamble_text rest

/-- The scope prefix: the names of the open scopes, outermost first, each
followed by `.`. -/
def scope_path (open_scopes : List (List Nat)) : List Nat :=
  (open_scopes.map (fun s => s ++ [46])).flatten

/-- The scopes open after a line, from the scopes open before it (outermost
first). -/
def pre_item.next (open_scopes : List (List Nat)) : pre_item → List (List Nat)
  | .scope _ name => open_scopes ++ [name]
  | .upscope => open_scopes.dropLast
  | .var _ _ _ _ _ => open_scopes
  | .other _ => open_scopes

/-- The scopes open after the lines `items`. -/
def scopes_after : List pre_item → List (List Nat) → List (List Nat)
  | [], open_scopes => open_scopes
  | it :: rest, open_scopes => scopes_after rest (it.next open_scopes)

/-- The qualified name of a declaration: the scope prefix, the short name,
and the range token (the first token after the short name) when there is one. -/
def qualified_name (open_scopes : List (List Nat)) (short : List Nat)
    (more : List (List Nat)) : List Nat :=
  scope_path open_scopes ++ short ++ more.headD []

/-- The name records the specification expects for the lines `items`. -/
def expected_names : List pre_item → List (List Nat) → List (List Nat)
  | [], _ => []
  | .var _ width id short more :: rest, open_scopes =>
    name_record id (atoi width).toNat (qualified_name open_scopes short more)
      :: expected_names rest open_scopes
  | it :: rest, open_scopes => expected_names rest (it.next open_scopes)

/-- A token: not empty, no NUL and no white space in it. -/
def clean_token (t : List Nat) : Bool :=
  !t.isEmpty && t.all (fun c => c != 0 && !isspace c)

/-- Whether a line with the tokens `toks` is none of `$enddefinitions`, a
`$scope` line with a name, `$upscope`, or a `$var` line with a short name. -/
def no_keyword (toks : List (List Nat)) : Bool :=
  !(decide (toks.length ≥ 1) && decide (strcmp (toks.headD []) (bytes "$enddefinitions") = 0)) &&
    !(decide (toks.length ≥ 3) && decide (strcmp (toks.headD []) (bytes "$scope") = 0)) &&
    !(decide (toks.length ≥ 1) && decide (strcmp (toks.headD []) (bytes "$upscope") = 0)) &&
    !(decide (toks.length ≥ 6) && decide (strcmp (toks.headD []) (bytes "$var") = 0))

/-- The limits of the reader on one line, given the scopes open before it: at
most `SCOPE_MAX` open scopes and a qualified name shorter than the buffer;
for a line given as `other`, that it is none of the four kinds of line the
loop acts on. -/
def pre_item.limits (open_scopes : List (List Nat)) : pre_item → Bool
  | .scope _ name =>
    decide (open_scopes.length < SCOPE_MAX) &&
      decide ((scope_path open_scopes).length + name.length + 1 < LINE_SZ_MAX)
  | .upscope => true
  | .var _ _ _ short more =>
    decide ((scope_path open_scopes).length + short.length + (more.headD []).length
      < LINE_SZ_MAX)
  | .other toks => no_keyword toks

/-- The preamble stays within the limits of the reader: clean tokens, at most
`TOKEN_MAX` of them on a line, lines that fit the line buffer, and the limits
of each line. -/
def within_limits : List pre_item → List (List Nat) → Bool
  | [], _ => true
  | it :: rest, open_scopes =>
    it.tokens.all clean_token && decide (it.tokens.length ≤ TOKEN_MAX) &&
      decide ((join_tokens it.tokens).length + 1 < LINE_SZ_MAX) && it.limits open_scopes &&
      within_limits rest (it.next open_scopes)

/-- A run of white space inside a line: space, tab, vertical tab, form feed
or carriage return, but no newline. -/
def blank_run (s : List Nat) : Bool := s.all (fun c => isspace c && c != 10)

/-- The white space of a line around its tokens: `lead` before the first
token, `seps` between consecutive tokens (one space where the list gives
none) and `trail` between the last token and the newline. -/
structure line_layout where
  lead : List Nat
  seps : List (List Nat)
  trail : List Nat

/-- The white space of a layout is white space, and each separator has at
least one byte. -/
def line_layout.ok (lay : line_layout) : Bool :=
  blank_run lay.lead && lay.seps.all (fun s => !s.isEmpty && blank_run s) &&
    blank_run lay.trail

/-- Tokens written one after the other with the separators `seps` between
them. -/
def weave : List (List Nat) → List (List Nat) → List Nat
  | [], _ => []
  | [t], _ => t
  | t :: u :: ts, seps => t ++ seps.headD [32] ++ weave (u :: ts) seps.tail

/-- The text of a line with the tokens `toks` in the layout `lay`, newline
included. -/
def line_text (lay : line_layout) (toks : List (List Nat)) : List Nat :=
  lay.lead ++ weave toks lay.seps ++ lay.trail ++ [10]

/-- The text of a preamble whose lines carry their layout. -/
def laid_text : List (line_layout × pre_item) → List Nat
  | [] => []
  | l :: rest => line_text l.1 l.2.tokens ++ laid_text rest

/-- A line fits the reader: white space where the layout says, clean tokens,
at most `TOKEN_MAX` of them, and a text that fits the line buffer. -/
def line_fits (lay : line_layout) (toks : List (List Nat)) : Bool :=
  lay.ok && toks.all clean_token && decide (toks.length ≤ TOKEN_MAX) &&
    decide ((line_text lay toks).length < LINE_SZ_MAX)

/-- The laid-out preamble stays within the limits of the reader: each line
fits, and the limits of each line hold for the scopes open before it. -/
def laid_limits : List (line_layout × pre_item) → List (List Nat) → Bool
  | [], _ => true
  | l :: rest, open_scopes =>
    line_fits l.1 l.2.tokens && l.2.limits open_scopes &&
      laid_limits rest (l.2.next open_scopes)

/-- The layout with no white space but one space between tokens. -/
def plain_layout : line_layout := ⟨[], [], []⟩

/-- The scenario's preamble, by its lines. -/
def scenario_items : List pre_item :=
  [.scope (bytes "module") (bytes "top"),
    .var (bytes "wire") (bytes "1") (bytes "!") (bytes "clk") [],
    .var (bytes "wire") (bytes "2") (bytes "\"") (bytes "bus") [],
    .upscope]

/-- The state of the preamble loop agrees with the open scopes: `scope` is
their number, `nam[0..k)` their scope prefix, `len` their lengths. -/
def pre_inv (st : pre_state) (open_scopes : List (List Nat)) : Prop :=
  st.scope = open_scopes.length ∧ st.nam = scope_path open_scopes ∧
    ∀ i, i < open_scopes.length → st.len i = (open_scopes.getD i []).length

/-- The position of the array `len` that the line in `buf` writes
(`len[scope] = l`, readvcd.c 231), if it writes one: the line takes the
`$scope` branch and leaves through neither `wire_too_long` test. -/
def scope_store (st : pre_state) (buf : List Nat) : Option Nat :=
  match tokenize buf with
  | none => none
  | some tok =>
    let n := tok.length
    let tk := fun i => tok.getD i []
    if n ≥ 1 ∧ strcmp (tk 0) (bytes "$enddefinitions") = 0 then none
    else if n ≥ 3 ∧ strcmp (tk 0) (bytes "$scope") = 0 then
      if st.scope > SCOPE_MAX then none
      else if st.nam.length + (tk 2).length + 1 ≥ LINE_SZ_MAX then none
      else some st.scope
    else none

/-- A preamble of `depth` nested `$scope module s $end` lines. -/
def nested_scopes (depth : Nat) : List pre_item :=
  List.replicate depth (.scope (bytes "module") (bytes "s"))

/-- A vector record with a bit run of 64 bits, wider than both variables of
the scenario: with the `b` it fills the 66 bytes of `chg`. -/
def long_vector_line : List Nat := bytes "b" ++ List.replicate 64 48 ++ bytes " \"\n"

/-! ## The aggregator step `new_time` -/

/-- C1. Threshold boundary: in a state with `cyc >= 0`, a step of `new_time`
with `ncyc > cyc` appends the point of `(cyc, hd)` to the output exactly when
`hd >= thresh` and otherwise appends nothing; so a cycle with `hd = thresh` is
emitted and one with `hd = thresh - 1` is not. The point holds `hd` and `cyc`
as `uint32_t`, which are `hd` and `cyc` themselves below `2^32`. -/
theorem new_time_threshold_boundary (env : run_env) (st : vcd_state)
    (hcyc : st.cyc ≥ 0) (hadv : st.ncyc > st.cyc) :
    ((new_time env st).toggle_buffer
        = st.toggle_buffer ++ [⟨to_uint32 st.hd, to_uint32 st.cyc⟩] ↔ st.hd ≥ env.thresh) ∧
    ((new_time env st).toggle_buffer = st.toggle_buffer ↔ st.hd < env.thresh) ∧
    (st.hd = env.thresh → (new_time env st).toggle_buffer
        = st.toggle_buffer ++ [⟨to_uint32 st.hd, to_uint32 st.cyc⟩]) ∧
    (st.hd = env.thresh - 1 → (new_time env st).toggle_buffer = st.toggle_buffer) ∧
    (0 ≤ st.hd → st.hd < 2 ^ 32 → ((to_uint32 st.hd : Nat) : Int) = st.hd) ∧
    (st.cyc < 2 ^ 32 → ((to_uint32 st.cyc : Nat) : Int) = st.cyc) := by
  have hbuf : (new_time env st).toggle_buffer
      = if st.hd ≥ env.thresh then st.toggle_buffer ++ [⟨to_uint32 st.hd, to_uint32 st.cyc⟩]
        else st.toggle_buffer := by
    unfold new_time
    rw [if_pos hadv]
    by_cases hh : st.hd ≥ env.thresh
    · rw [if_pos ⟨hcyc, hh⟩, if_pos hh]
      cases env.dump_tim <;> rfl
    · rw [if_neg (fun h => hh h.2), if_neg hh]
      cases env.dump_tim <;> rfl
  have hu : ∀ x : Int, 0 ≤ x → x < 2 ^ 32 → ((to_uint32 x : Nat) : Int) = x := by
    intro x h0 h1
    unfold to_uint32
    rw [Int.emod_eq_of_lt h0 h1, Int.toNat_of_nonneg h0]
  refine ⟨?_, ?_, ?_, ?_, fun h0 h1 => hu _ h0 h1, fun h1 => hu _ hcyc h1⟩
  · rw [hbuf]
    by_cases hh : st.hd ≥ env.thresh
    · simp [hh]
    · simp [hh]
  · rw [hbuf]
    by_cases hh : st.hd ≥ env.thresh
    · simp [hh]
    · simp only [if_neg hh, true_iff]
      exact not_le.mp hh
  · intro h
    rw [hbuf, if_pos (le_of_eq h.symm)]
  · intro h
    rw [hbuf, if_neg (by omega)]

/-- Witness of C1: the step from cycle 5 to cycle 10 with distance 4 at
threshold 4 emits the point (5, 4). -/
theorem new_time_threshold_boundary_witness :
    ((5 : Int) ≥ 0 ∧ (10 : Int) > 5) ∧
    ((new_time ⟨fun _ => 0, none, 4, none⟩ ⟨[], [], 10, 5, 10, 4, 0, false, []⟩).toggle_buffer
        = [] ++ [⟨to_uint32 4, to_uint32 5⟩] ↔ (4 : Int) ≥ 4) :=
  ⟨by decide, (new_time_threshold_boundary ⟨fun _ => 0, none, 4, none⟩
    ⟨[], [], 10, 5, 10, 4, 0, false, []⟩ (by decide) (by decide)).1⟩

/-- C2 (the code at the failing input). With threshold 4, the step of
`new_time` from cycle 5 to cycle 10 with `hd = 3` leaves `hd = 3`: the reset
`hd = 0` sits inside the emission branch. On the scenario's trace followed by
`#15`, `read_vcd` therefore reports 5 toggles for cycle 10, in which the
signals changed 2 bits; the other 3 were accumulated in cycle 5. -/
theorem new_time_keeps_hd_below_threshold :
    (new_time ⟨fun _ => 0, none, 4, none⟩ ⟨[], [], 10, 5, 10, 3, 3, false, []⟩).hd = 3 ∧
    (new_time ⟨fun _ => 0, none, 4, none⟩ ⟨[], [], 10, 5, 10, 3, 3, false, []⟩).cyc = 10 ∧
    read_vcd (scenario_file ++ bytes "#15\n") scenario_timing 4 none = .ok [⟨5, 10⟩] ∧
    read_vcd (scenario_file ++ bytes "#15\n") scenario_timing 1 none = .ok [⟨3, 5⟩, ⟨2, 10⟩] := by
  refine ⟨by decide, by decide, ?_, ?_⟩ <;> rfl

/-- The preamble loop on the scenario's file leaves the scenario's two name
records and the body unread. -/
theorem scenario_read_preamble :
    (read_preamble scenario_file.length pre_init scenario_file).map
      (fun p => (p.1.names, p.2)) = .ok (scenario_names, scenario_body) := by
  rfl

/-- On the scenario's file `read_vcd` is the change loop on the scenario's
body with the tables of the scenario's name records. -/
theorem read_vcd_scenario (timing : List Nat) (thresh : Int) (dump_tim : Option (List Int)) :
    read_vcd scenario_file timing thresh dump_tim
      = run_changes (build_tables scenario_names timing) thresh dump_tim scenario_body := by
  rfl

/-- With no timing signal matched, the tables do not depend on the fragment. -/
theorem build_tables_no_timing (names : List (List Nat)) (timing : List Nat)
    (h : (build_tables names timing).cyc_v = none) :
    build_tables names timing = { build_tables names [] with cyc_v := none } := by
  unfold build_tables at h ⊢
  simp only at h ⊢
  rw [h]

/-! ## The report cycles do not change the output -/

theorem new_time_same_but_sigd (env : run_env) (dt : Option (List Int)) (a b : vcd_state)
    (h : same_but_sigd a b) :
    same_but_sigd (new_time env a) (new_time { env with dump_tim := dt } b) := by
  obtain ⟨h1, h2, h3, h4, h5, h6, h7, h8⟩ := h
  unfold new_time
  rw [h4, h5, h6, h8]
  by_cases hadv : b.ncyc > b.cyc
  · rw [if_pos hadv, if_pos hadv]
    by_cases hemit : b.cyc ≥ 0 ∧ b.hd ≥ env.thresh
    · rw [if_pos hemit, if_pos hemit]
      cases env.dump_tim <;> cases dt <;>
        (refine ⟨?_, ?_, ?_, ?_, ?_, ?_, ?_, ?_⟩ <;> first | rfl | assumption)
    · rw [if_neg hemit, if_neg hemit]
      cases env.dump_tim <;> cases dt <;>
        (refine ⟨?_, ?_, ?_, ?_, ?_, ?_, ?_, ?_⟩ <;> first | rfl | assumption)
  · rw [if_neg hadv, if_neg hadv]
    refine ⟨?_, ?_, ?_, ?_, ?_, ?_, ?_, ?_⟩ <;> first | rfl | assumption

theorem state_update_same_but_sigd (i : Nat) (bits : List Nat) (a b : vcd_state)
    (h : same_but_sigd a b) :
    same_but_sigd (state_update i bits a) (state_update i bits b) := by
  obtain ⟨h1, h2, h3, h4, h5, h6, h7, h8⟩ := h
  unfold state_update
  simp only [h1, h2, h6, h7]
  split <;> (refine ⟨?_, ?_, ?_, ?_, ?_, ?_, ?_, ?_⟩ <;> first | rfl | assumption)

theorem cycle_signal_same_but_sigd (env : run_env) (dt : Option (List Int)) (i : Nat)
    (bits : List Nat) (a b : vcd_state) (h : same_but_sigd a b) :
    same_but_sigd (cycle_signal env i bits a) (cycle_signal { env with dump_tim := dt } i bits b) := by
  obtain ⟨h1, h2, h3, h4, h5, h6, h7, h8⟩ := h
  unfold cycle_signal
  simp only
  split <;> (refine ⟨?_, ?_, ?_, ?_, ?_, ?_, ?_, ?_⟩ <;> first | rfl | assumption)

theorem change_line_same_but_sigd (env : run_env) (dt : Option (List Int)) (a b : vcd_state)
    (buf : List Nat) (h : same_but_sigd a b) :
    (∃ e, change_line env a buf = .error e ∧
        change_line { env with dump_tim := dt } b buf = .error e) ∨
    (∃ a1 b1, change_line env a buf = .ok a1 ∧
        change_line { env with dump_tim := dt } b buf = .ok b1 ∧ same_but_sigd a1 b1) := by
  unfold change_line
  simp only [← h.1]
  cases classify a.var env.id_hash buf with
  | blank => exact Or.inr ⟨a, b, rfl, rfl, h⟩
  | time_marker t =>
    refine Or.inr ⟨_, _, rfl, rfl, new_time_same_but_sigd env dt _ _ ?_⟩
    obtain ⟨h1, h2, h3, h4, h5, h6, h7, h8⟩ := h
    refine ⟨?_, ?_, ?_, ?_, ?_, ?_, ?_, ?_⟩ <;> first | rfl | assumption | (simp only [h5])
  | format_error => exact Or.inr ⟨a, b, rfl, rfl, h⟩
  | id_not_found id => exact Or.inr ⟨a, b, rfl, rfl, h⟩
  | wrong_dimension i => exact Or.inr ⟨a, b, rfl, rfl, h⟩
  | undefined_read i => exact Or.inl ⟨_, rfl, rfl⟩
  | value_change i bits =>
    exact Or.inr ⟨_, _, rfl, rfl, new_time_same_but_sigd env dt _ _
      (cycle_signal_same_but_sigd env dt i bits _ _ (state_update_same_but_sigd i bits a b h))⟩

theorem read_changes_same_but_sigd (env : run_env) (dt : Option (List Int))
    (lines : List (List Nat)) (a b : vcd_state) (h : same_but_sigd a b) :
    (∃ e, read_changes env a lines = .error e ∧
        read_changes { env with dump_tim := dt } b lines = .error e) ∨
    (∃ a1 b1, read_changes env a lines = .ok a1 ∧
        read_changes { env with dump_tim := dt } b lines = .ok b1 ∧ same_but_sigd a1 b1) := by
  induction lines generalizing a b with
  | nil => exact Or.inr ⟨a, b, rfl, rfl, h⟩
  | cons buf rest ih =>
    simp only [read_changes]
    rcases change_line_same_but_sigd env dt a b buf h with ⟨e, h1, h2⟩ | ⟨a1, b1, h1, h2, h3⟩
    · rw [h1, h2]
      exact Or.inl ⟨e, rfl, rfl⟩
    · rw [h1, h2]
      exact ih a1 b1 h3

/-- The report cycles `dump_tim` only drive the diagnostic flag `sigd`: the
points `read_vcd` returns do not depend on them. -/
theorem run_changes_dump_tim (t : tables) (thresh : Int) (dump_tim : Option (List Int))
    (rest : List Nat) : run_changes t thresh dump_tim rest = run_changes t thresh none rest := by
  unfold run_changes
  split
  · rfl
  · split
    · rfl
    · rcases read_changes_same_but_sigd ⟨t.id_hash, t.cyc_v, thresh, dump_tim⟩ none
        (lines_before_overrun (t.max_dim + 64) (fgets_all (t.max_dim + 64) rest.length rest))
        (init_state t) (init_state t)
        ⟨rfl, rfl, rfl, rfl, rfl, rfl, rfl, rfl⟩ with ⟨e, h1, h2⟩ | ⟨a1, b1, h1, h2, h3⟩
      · rw [h1, h2]
      · rw [h1, h2]
        show (if _ then _ else Except.ok a1.toggle_buffer)
          = (if _ then _ else Except.ok b1.toggle_buffer)
        rw [h3.2.2.2.2.2.2.2]

/-! ## The two-signal scenario -/

/-- C3 as stated fails: at threshold 1 in raw-time mode the scenario does not
yield the two points (5, 3) and (10, 2). -/
theorem scenario_threshold_1_not_two_points :
    (build_tables scenario_names scenario_timing).cyc_v = none ∧
    read_vcd scenario_file scenario_timing 1 none ≠ .ok [⟨3, 5⟩, ⟨2, 10⟩] := by
  refine ⟨by decide, fun hc => ?_⟩
  rw [show read_vcd scenario_file scenario_timing 1 none = .ok [⟨3, 5⟩] from rfl] at hc
  cases hc

/-- C3 (amended). For the scenario's file, in raw-time fallback mode (the
timing fragment matches no declared signal), at threshold 1 and with any
report cycles, `read_vcd` emits exactly one point, (cycle 5, count 3): the
changes after `#10` belong to the trailing cycle, which no later advance
finalizes. -/
theorem scenario_threshold_1 (timing : List Nat) (dump_tim : Option (List Int))
    (h : (build_tables scenario_names timing).cyc_v = none) :
    read_vcd scenario_file timing 1 dump_tim = .ok [⟨3, 5⟩] := by
  rw [read_vcd_scenario, run_changes_dump_tim, build_tables_no_timing _ _ h]
  rfl

/-- Witness of C3 (amended): the fragment `cycle`. -/
theorem scenario_threshold_1_witness :
    (build_tables scenario_names scenario_timing).cyc_v = none ∧
    read_vcd scenario_file scenario_timing 1 none = .ok [⟨3, 5⟩] :=
  ⟨by decide, scenario_threshold_1 scenario_timing none (by decide)⟩

/-- C4. For the scenario's file, in raw-time fallback mode, at threshold 4 and
with any report cycles, `read_vcd` emits no point; `main` then does not call
the encoder, and the encoder itself writes no byte for the empty sequence. -/
theorem scenario_threshold_4 (timing : List Nat) (dump_tim : Option (List Int))
    (h : (build_tables scenario_names timing).cyc_v = none) :
    read_vcd scenario_file timing 4 dump_tim = .ok [] ∧
    (∀ (big_endian fopen_ok : Bool) (write_ok : Nat → Bool) (flushed : Nat),
      main_save big_endian fopen_ok write_ok flushed [] = (0, none) ∧
      (save_toggle_data_binary big_endian true write_ok flushed []).2 = some []) := by
  constructor
  · rw [read_vcd_scenario, run_changes_dump_tim, build_tables_no_timing _ _ h]
    rfl
  · intro be fo wo fl
    exact ⟨rfl, by simp [save_toggle_data_binary, save_loop]⟩

/-- Witness of C4: the fragment `cycle`. -/
theorem scenario_threshold_4_witness :
    (build_tables scenario_names scenario_timing).cyc_v = none ∧
    read_vcd scenario_file scenario_timing 4 none = .ok [] :=
  ⟨by decide, (scenario_threshold_4 scenario_timing none (by decide)).1⟩

/-! ## The change loop: emission only on an advance -/

theorem read_changes_append (env : run_env) (a b : List (List Nat)) (st : vcd_state) :
    read_changes env st (a ++ b)
      = match read_changes env st a with
        | .error e => .error e
        | .ok st1 => read_changes env st1 b := by
  induction a generalizing st with
  | nil => rfl
  | cons buf rest ih =>
    simp only [List.cons_append, read_changes]
    cases h : change_line env st buf with
    | error e => rfl
    | ok st1 => exact ih st1

theorem new_time_of_le (env : run_env) (st : vcd_state) (h : st.ncyc ≤ st.cyc) :
    new_time env st = st := by
  unfold new_time
  rw [if_neg (not_lt.mpr h)]

theorem state_update_of_pos (i : Nat) (bits : List Nat) (st : vcd_state)
    (h : (st.var.getD i var_zero).u > 0) :
    state_update i bits st =
      { st with
        state := (hamming_loop bits (st.var.getD i var_zero).s st.state 0).1
        bl := st.bl + bits.length
        hd := st.hd + (hamming_loop bits (st.var.getD i var_zero).s st.state 0).2
        var := bump_u st.var i } := by
  unfold state_update
  exact if_pos h

theorem state_update_of_zero (i : Nat) (bits : List Nat) (st : vcd_state)
    (h : ¬ (st.var.getD i var_zero).u > 0) :
    state_update i bits st =
      { st with
        state := memcpy bits (st.var.getD i var_zero).s st.state
        var := bump_u st.var i } := by
  unfold state_update
  exact if_neg h

theorem state_update_cyc (i : Nat) (bits : List Nat) (st : vcd_state) :
    (state_update i bits st).cyc = st.cyc ∧
    (state_update i bits st).toggle_buffer = st.toggle_buffer ∧
    (state_update i bits st).ncyc = st.ncyc := by
  by_cases h : (st.var.getD i var_zero).u > 0
  · rw [state_update_of_pos i bits st h]
    exact ⟨rfl, rfl, rfl⟩
  · rw [state_update_of_zero i bits st h]
    exact ⟨rfl, rfl, rfl⟩

theorem cycle_signal_cyc (env : run_env) (i : Nat) (bits : List Nat) (st : vcd_state) :
    (cycle_signal env i bits st).cyc = st.cyc ∧
    (cycle_signal env i bits st).toggle_buffer = st.toggle_buffer := by
  unfold cycle_signal
  split <;> exact ⟨rfl, rfl⟩

theorem to_uint32_le (x : Int) (h : 0 ≤ x) : ((to_uint32 x : Nat) : Int) ≤ x := by
  unfold to_uint32
  omega

theorem new_time_points_before (env : run_env) (st : vcd_state)
    (h : ∀ p ∈ st.toggle_buffer, (p.time_step : Int) < st.cyc) :
    ∀ p ∈ (new_time env st).toggle_buffer, (p.time_step : Int) < (new_time env st).cyc := by
  unfold new_time
  by_cases hadv : st.ncyc > st.cyc
  · rw [if_pos hadv]
    by_cases hemit : st.cyc ≥ 0 ∧ st.hd ≥ env.thresh
    · rw [if_pos hemit]
      have hpt := to_uint32_le st.cyc hemit.1
      cases env.dump_tim <;>
      · intro p hp
        simp only [List.mem_append, List.mem_singleton] at hp
        rcases hp with hp | hp
        · have := h p hp
          show (p.time_step : Int) < st.ncyc
          omega
        · subst hp
          show ((to_uint32 st.cyc : Nat) : Int) < st.ncyc
          omega
    · rw [if_neg hemit]
      cases env.dump_tim <;>
      · intro p hp
        have := h p hp
        show (p.time_step : Int) < st.ncyc
        omega
  · rw [if_neg hadv]
    exact h

theorem change_line_points_before (env : run_env) (st st1 : vcd_state) (buf : List Nat)
    (hstep : change_line env st buf = .ok st1)
    (h : ∀ p ∈ st.toggle_buffer, (p.time_step : Int) < st.cyc) :
    ∀ p ∈ st1.toggle_buffer, (p.time_step : Int) < st1.cyc := by
  unfold change_line at hstep
  split at hstep
  · cases hstep; exact h
  · cases hstep; exact new_time_points_before env _ h
  · cases hstep; exact h
  · cases hstep; exact h
  · cases hstep; exact h
  · cases hstep
  · rename_i i bits _
    cases hstep
    apply new_time_points_before
    rw [(cycle_signal_cyc env i bits _).1, (cycle_signal_cyc env i bits _).2,
      (state_update_cyc i bits st).1, (state_update_cyc i bits st).2.1]
    exact h

theorem read_changes_points_before (env : run_env) (lines : List (List Nat))
    (st st1 : vcd_state) (hrun : read_changes env st lines = .ok st1)
    (h : ∀ p ∈ st.toggle_buffer, (p.time_step : Int) < st.cyc) :
    ∀ p ∈ st1.toggle_buffer, (p.time_step : Int) < st1.cyc := by
  induction lines generalizing st with
  | nil =>
    cases hrun
    exact h
  | cons buf rest ih =>
    simp only [read_changes] at hrun
    cases hl : change_line env st buf with
    | error e => rw [hl] at hrun; cases hrun
    | ok s =>
      rw [hl] at hrun
      exact ih s hrun (change_line_points_before env st s buf hl h)

theorem read_changes_no_advance (env : run_env) (extra : List (List Nat)) (st : vcd_state)
    (h : accepted_no_advance env st extra = true) :
    ∃ st2, read_changes env st extra = .ok st2 ∧
      st2.toggle_buffer = st.toggle_buffer ∧ st2.cyc = st.cyc := by
  induction extra generalizing st with
  | nil => exact ⟨st, rfl, rfl, rfl⟩
  | cons buf rest ih =>
    simp only [accepted_no_advance] at h
    split at h
    · rename_i i bits hk
      simp only [Bool.and_eq_true, decide_eq_true_eq] at h
      have hle : (cycle_signal env i bits (state_update i bits st)).ncyc
          ≤ (cycle_signal env i bits (state_update i bits st)).cyc := by
        rw [(cycle_signal_cyc env i bits _).1, (state_update_cyc i bits st).1]
        exact h.1
      rw [new_time_of_le env _ hle] at h
      obtain ⟨st2, hrun, hbuf, hcyc⟩ := ih _ h.2
      refine ⟨st2, ?_, ?_, ?_⟩
      · simp only [read_changes, change_line, hk]
        rw [new_time_of_le env _ hle]
        exact hrun
      · rw [hbuf, (cycle_signal_cyc env i bits _).2, (state_update_cyc i bits st).2.1]
      · rw [hcyc, (cycle_signal_cyc env i bits _).1, (state_update_cyc i bits st).1]
    · cases h

/-- C5. Trailing cycle is dropped: when the change loop, started in the
initial state, has processed `lines`, appending accepted value-change records
that do not raise the candidate cycle above the current cycle leaves the
emitted sequence (and the current cycle) unchanged; and every emitted point
has a cycle index below the final current cycle, so none is equal to it. -/
theorem trailing_cycle_dropped (env : run_env) (t : tables) (lines extra : List (List Nat))
    (st1 : vcd_state) (hrun : read_changes env (init_state t) lines = .ok st1)
    (hextra : accepted_no_advance env st1 extra = true) :
    (∃ st2, read_changes env (init_state t) (lines ++ extra) = .ok st2 ∧
      st2.toggle_buffer = st1.toggle_buffer ∧ st2.cyc = st1.cyc) ∧
    (∀ p ∈ st1.toggle_buffer, (p.time_step : Int) < st1.cyc) ∧
    (∀ p ∈ st1.toggle_buffer, (p.time_step : Int) ≠ st1.cyc) := by
  have hinv := read_changes_points_before env lines (init_state t) st1 hrun
    (by intro p hp; cases hp)
  refine ⟨?_, hinv, fun p hp => ne_of_lt (hinv p hp)⟩
  obtain ⟨st2, h2, hb, hc⟩ := read_changes_no_advance env extra st1 hextra
  exact ⟨st2, by rw [read_changes_append, hrun]; exact h2, hb, hc⟩

/-- Witness of C5: the scenario at threshold 1, the lines up to `#10` followed
by the two records of the trailing cycle. -/
theorem trailing_cycle_dropped_witness :
    (read_changes (env_of (build_tables scenario_names scenario_timing) 1 none)
        (init_state (build_tables scenario_names scenario_timing)) scenario_lines_to_10
        = .ok scenario_state_at_10 ∧
      accepted_no_advance (env_of (build_tables scenario_names scenario_timing) 1 none)
        scenario_state_at_10 scenario_lines_after_10 = true) ∧
    (∃ st2, read_changes (env_of (build_tables scenario_names scenario_timing) 1 none)
        (init_state (build_tables scenario_names scenario_timing))
        (scenario_lines_to_10 ++ scenario_lines_after_10) = .ok st2 ∧
      st2.toggle_buffer = scenario_state_at_10.toggle_buffer ∧
      st2.cyc = scenario_state_at_10.cyc) :=
  ⟨⟨rfl, by decide⟩,
    (trailing_cycle_dropped (env_of (build_tables scenario_names scenario_timing) 1 none)
      (build_tables scenario_names scenario_timing) scenario_lines_to_10
      scenario_lines_after_10 scenario_state_at_10 rfl (by decide)).1⟩

/-! ## Rejected lines -/

theorem set_append_cons (pre : List Nat) (a b : Nat) (l : List Nat) :
    (pre ++ a :: l).set pre.length b = pre ++ b :: l := by
  induction pre with
  | nil => rfl
  | cons x xs ih => simp [ih]

theorem char_at_append_cons (pre : List Nat) (a : Nat) (l : List Nat) :
    char_at (pre ++ a :: l) pre.length = a := by
  induction pre with
  | nil => rfl
  | cons x xs ih => simpa [char_at] using ih

theorem hamming_distance_cons (a b : Nat) (as bs : List Nat) :
    hamming_distance (a :: as) (b :: bs)
      = (if a ≠ b then 1 else 0) + hamming_distance as bs := by
  simp [hamming_distance]

theorem hamming_loop_spec (bits old pre post : List Nat) (sd : Int)
    (hlen : old.length = bits.length) :
    hamming_loop bits pre.length (pre ++ old ++ post) sd
      = (pre ++ bits ++ post, sd + hamming_distance old bits) := by
  induction bits generalizing old pre sd with
  | nil =>
    cases old with
    | nil => simp [hamming_loop, hamming_distance]
    | cons a as => simp at hlen
  | cons b bs ih =>
    cases old with
    | nil => simp at hlen
    | cons a as =>
      have hlen1 : as.length = bs.length := by simpa using hlen
      have hset : (pre ++ (a :: as) ++ post).set pre.length b = (pre ++ [b]) ++ as ++ post := by
        simp
      have hget : char_at (pre ++ (a :: as) ++ post) pre.length = a := by
        simpa using char_at_append_cons pre a (as ++ post)
      have hlenp : pre.length + 1 = (pre ++ [b]).length := by simp
      rw [hamming_loop, hset, hget, hlenp, ih as (pre ++ [b]) _ hlen1, hamming_distance_cons]
      by_cases hab : a ≠ b
      · simp only [if_pos hab, List.append_assoc, List.singleton_append, Prod.mk.injEq, true_and]
        push_cast
        ring
      · simp only [if_neg hab, List.append_assoc, List.singleton_append, Prod.mk.injEq, true_and]
        push_cast
        ring

theorem memcpy_spec (bits old pre post : List Nat) (hlen : old.length = bits.length) :
    memcpy bits pre.length (pre ++ old ++ post) = pre ++ bits ++ post := by
  induction bits generalizing old pre with
  | nil =>
    cases old with
    | nil => simp [memcpy]
    | cons a as => simp at hlen
  | cons b bs ih =>
    cases old with
    | nil => simp at hlen
    | cons a as =>
      have hlen1 : as.length = bs.length := by simpa using hlen
      have hset : (pre ++ (a :: as) ++ post).set pre.length b = (pre ++ [b]) ++ as ++ post := by
        simp
      have hlenp : pre.length + 1 = (pre ++ [b]).length := by simp
      rw [memcpy, hset, hlenp, ih as (pre ++ [b]) hlen1]
      simp

/-- An arena splits at a slice that lies inside it. -/
theorem arena_split (state : List Nat) (o d : Nat) (h : o + d ≤ state.length) :
    state = state.take o ++ (state.drop o).take d ++ state.drop (o + d) ∧
    (state.take o).length = o ∧ ((state.drop o).take d).length = d := by
  refine ⟨?_, ?_, ?_⟩
  · rw [List.append_assoc, ← List.drop_drop, List.take_append_drop, List.take_append_drop]
  · simp; omega
  · simp; omega

theorem slice_of_split (pre mid post : List Nat) (v : var_t)
    (hs : v.s = pre.length) (hd : v.d = mid.length) :
    state_slice (pre ++ mid ++ post) v = mid := by
  unfold state_slice
  rw [hs, hd, List.append_assoc, List.drop_left, List.take_left]

theorem find_id_loop_found (id : List Nat) (vs : List var_t) (k i : Nat)
    (h : (find_id_loop id vs k).1 = .found i) :
    k ≤ i ∧ ∃ v, vs[i - k]? = some v ∧ strcmp v.id id = 0 := by
  induction vs generalizing k with
  | nil =>
    unfold find_id_loop at h
    split at h <;> cases h
  | cons v vs ih =>
    unfold find_id_loop at h
    split at h
    · split at h
      · rename_i heq
        cases h
        exact ⟨le_refl _, v, by simp, heq⟩
      · split at h
        · cases h
        · obtain ⟨hle, w, hw, hcmp⟩ := ih (k + 1) h
          refine ⟨by omega, w, ?_, hcmp⟩
          have : i - k = (i - (k + 1)) + 1 := by omega
          rw [this, List.getElem?_cons_succ]
          exact hw
    · cases h

theorem find_id_found (var : List var_t) (id_hash : Nat → Nat) (id : List Nat) (i : Nat)
    (h : find_id var id_hash id = .found i) :
    ∃ v, var[i]? = some v ∧ strcmp v.id id = 0 := by
  unfold find_id find_id_scan at h
  obtain ⟨hle, v, hv, hcmp⟩ := find_id_loop_found id _ _ i h
  refine ⟨v, ?_, hcmp⟩
  rw [List.getElem?_drop] at hv
  have : id_hash (id_hash3 id) + (i - id_hash (id_hash3 id)) = i := by omega
  rw [this] at hv
  exact hv

theorem classify_record_value_change (var : List var_t) (id_hash : Nat → Nat)
    (bits0 r : List Nat) (i : Nat) (bits : List Nat)
    (h : classify_record var id_hash bits0 r = .value_change i bits) :
    bits0 = bits ∧ find_id var id_hash (change_id r) = .found i ∧
      bits.length = (var.getD i var_zero).d := by
  unfold classify_record at h
  split at h
  · cases h
  · cases h
  · rename_i j hfound
    split at h
    · cases h
    · rename_i hd
      cases h
      exact ⟨rfl, hfound, not_not.mp hd⟩

/-- An accepted record names an entry of `var` and has its width. -/
theorem classify_value_change (var : List var_t) (id_hash : Nat → Nat) (buf : List Nat)
    (i : Nat) (bits : List Nat) (h : classify var id_hash buf = .value_change i bits) :
    i < var.length ∧ bits.length = (var.getD i var_zero).d := by
  have key : ∀ bits0 r, classify_record var id_hash bits0 r = .value_change i bits →
      i < var.length ∧ bits.length = (var.getD i var_zero).d := by
    intro bits0 r hr
    obtain ⟨-, hfound, hd⟩ := classify_record_value_change _ _ _ _ _ _ hr
    obtain ⟨v, hv, -⟩ := find_id_found _ _ _ _ hfound
    refine ⟨?_, hd⟩
    by_contra hlt
    rw [List.getElem?_eq_none (not_lt.mp hlt)] at hv
    cases hv
  unfold classify at h
  simp only at h
  split at h
  · cases h
  · split at h
    · cases h
    · split at h
      · exact key _ _ h
      · split at h
        · exact key _ _ h
        · cases h

theorem bump_u_getD (var : List var_t) (i : Nat) (h : i < var.length) :
    (bump_u var i).getD i var_zero
      = { var.getD i var_zero with u := (var.getD i var_zero).u + 1 } := by
  unfold bump_u
  simp [List.getD_eq_getElem?_getD, List.getElem?_eq_getElem h]

theorem getD_mem (var : List var_t) (i : Nat) (h : i < var.length) :
    var.getD i var_zero ∈ var := by
  rw [List.getD_eq_getElem _ _ h]
  exact List.getElem_mem h

/-- The state update of an accepted record on a variable with `u > 0`, in a
state whose slices lie inside the arena. -/
theorem state_update_accumulates (env : run_env) (st : vcd_state) (buf : List Nat)
    (i : Nat) (bits : List Nat)
    (hacc : classify st.var env.id_hash buf = .value_change i bits)
    (hu : (st.var.getD i var_zero).u > 0)
    (harena : slices_in_arena st.var st.state) :
    (state_update i bits st).hd
      = st.hd + hamming_distance (state_slice st.state (st.var.getD i var_zero)) bits ∧
    st.hd ≤ (state_update i bits st).hd ∧
    state_slice (state_update i bits st).state ((state_update i bits st).var.getD i var_zero)
      = bits := by
  obtain ⟨hi, hd⟩ := classify_value_change _ _ _ _ _ hacc
  have hin := harena _ (getD_mem st.var i hi)
  obtain ⟨hsplit, hpre, hmid⟩ := arena_split st.state _ _ hin
  have hloop := hamming_loop_spec bits ((st.state.drop (st.var.getD i var_zero).s).take
    (st.var.getD i var_zero).d) (st.state.take (st.var.getD i var_zero).s)
    (st.state.drop ((st.var.getD i var_zero).s + (st.var.getD i var_zero).d)) 0
    (by rw [hmid, hd])
  rw [← hsplit, hpre] at hloop
  rw [state_update_of_pos i bits st hu]
  simp only [hloop, bump_u_getD st.var i hi]
  refine ⟨?_, ?_, ?_⟩
  · simp [state_slice]
  · simp only [zero_add]
    exact le_add_of_nonneg_right (Int.natCast_nonneg _)
  · exact slice_of_split _ _ _ _ hpre.symm hd.symm

/-- The state update of an accepted record on a variable with `u = 0`, in a
state whose slices lie inside the arena. -/
theorem state_update_first (env : run_env) (st : vcd_state) (buf : List Nat)
    (i : Nat) (bits : List Nat)
    (hacc : classify st.var env.id_hash buf = .value_change i bits)
    (hu : (st.var.getD i var_zero).u = 0)
    (harena : slices_in_arena st.var st.state) :
    (state_update i bits st).hd = st.hd ∧
    state_slice (state_update i bits st).state ((state_update i bits st).var.getD i var_zero)
      = bits ∧
    ((state_update i bits st).var.getD i var_zero).u = 1 := by
  obtain ⟨hi, hd⟩ := classify_value_change _ _ _ _ _ hacc
  have hin := harena _ (getD_mem st.var i hi)
  obtain ⟨hsplit, hpre, hmid⟩ := arena_split st.state _ _ hin
  have hcpy := memcpy_spec bits ((st.state.drop (st.var.getD i var_zero).s).take
    (st.var.getD i var_zero).d) (st.state.take (st.var.getD i var_zero).s)
    (st.state.drop ((st.var.getD i var_zero).s + (st.var.getD i var_zero).d))
    (by rw [hmid, hd])
  rw [← hsplit, hpre] at hcpy
  rw [state_update_of_zero i bits st (by omega)]
  simp only [hcpy, bump_u_getD st.var i hi]
  refine ⟨trivial, ?_, ?_⟩
  · exact slice_of_split _ _ _ _ hpre.symm hd.symm
  · show (st.var.getD i var_zero).u + 1 = 1
    rw [hu]

/-! ## `find_id` on an identifier that is not declared -/

/-- C7 (the code at the failing input). In the scenario's table (`var_n = 2`,
identifiers `!` and `"`, an array of 2 entries) the lookup of the undeclared
identifier `#` examines position 1 and then position 2 = `var_n`, past the
array: the loop of `find_id` is bounded by `ID_HASH_MAX`, not by `var_n`. The
record `1#` in the body makes `read_vcd` perform that read. -/
theorem find_id_reads_past_table :
    (build_tables scenario_names scenario_timing).var_n = 2 ∧
    (build_tables scenario_names scenario_timing).var.length = 2 ∧
    find_id_scan (build_tables scenario_names scenario_timing).var
      (build_tables scenario_names scenario_timing).id_hash (bytes "#")
      = (.out_of_bounds 2, [1, 2]) ∧
    read_vcd (scenario_preamble ++ bytes "1#\n") scenario_timing 1 none
      = .error (.var_out_of_bounds 2) := by
  refine ⟨by decide, by decide, by decide, ?_⟩
  rfl

/-! ## Looking up a declared identifier -/

theorem strcmp_neg (a b : List Nat) : strcmp b a = -strcmp a b := by
  induction a generalizing b with
  | nil =>
    cases b with
    | nil => simp [strcmp]
    | cons y bs => simp [strcmp]
  | cons x as ih =>
    cases b with
    | nil => simp [strcmp]
    | cons y bs =>
      simp only [strcmp]
      by_cases hxy : x = y
      · subst hxy
        by_cases h0 : x = 0
        · simp [h0]
        · simp [h0, ih bs]
      · have hyx : ¬ y = x := fun h => hxy h.symm
        simp only [if_neg hxy, if_neg hyx]
        ring

theorem strcmp_self (a : List Nat) : strcmp a a = 0 := by
  induction a with
  | nil => rfl
  | cons x as ih => simp [strcmp, ih]

theorem strcmp_trans (a b c : List Nat) (hab : strcmp a b ≤ 0) (hbc : strcmp b c ≤ 0) :
    strcmp a c ≤ 0 := by
  induction a generalizing b c with
  | nil =>
    cases c with
    | nil => simp [strcmp]
    | cons z cs => simp [strcmp]
  | cons x as ih =>
    cases b with
    | nil =>
      simp only [strcmp] at hab
      have hx : x = 0 := by omega
      subst hx
      cases c with
      | nil => simp [strcmp]
      | cons z cs =>
        simp only [strcmp]
        split_ifs <;> omega
    | cons y bs =>
      cases c with
      | nil =>
        simp only [strcmp] at hab hbc ⊢
        have hy : y = 0 := by omega
        subst hy
        split_ifs at hab <;> omega
      | cons z cs =>
        simp only [strcmp] at hab hbc ⊢
        by_cases hxy : x = y
        · subst hxy
          by_cases hxz : x = z
          · subst hxz
            by_cases h0 : x = 0
            · simp [h0]
            · simp only [if_pos rfl, if_neg h0] at hab hbc ⊢
              exact ih bs cs hab hbc
          · simp only [if_neg hxz] at hbc ⊢
            exact hbc
        · simp only [if_neg hxy] at hab
          by_cases hyz : y = z
          · subst hyz
            simp only [if_neg hxy]
            exact hab
          · simp only [if_neg hyz] at hbc
            have hxz : ¬ x = z := by omega
            simp only [if_neg hxz]
            omega

theorem qsort_offs_sorted (names : List (List Nat)) :
    (qsort_offs names).Pairwise offs_le := by
  haveI : IsTotal (List Nat) offs_le :=
    ⟨fun a b => by
      unfold offs_le offs_cmp
      rw [strcmp_neg a b]
      omega⟩
  haveI : IsTrans (List Nat) offs_le :=
    ⟨fun a b c hab hbc => strcmp_trans a b c hab hbc⟩
  exact List.sorted_insertionSort offs_le names

theorem qsort_offs_perm (names : List (List Nat)) : (qsort_offs names).Perm names :=
  List.perm_insertionSort offs_le names

theorem id_ok3_cases (id : List Nat) (h : id_ok3 id) :
    (∃ x, id = [x] ∧ 33 ≤ x ∧ x ≤ 126) ∨
    (∃ x y, id = [x, y] ∧ (33 ≤ x ∧ x ≤ 126) ∧ (33 ≤ y ∧ y ≤ 126)) ∨
    (∃ x y z, id = [x, y, z] ∧ (33 ≤ x ∧ x ≤ 126) ∧ (33 ≤ y ∧ y ≤ 126) ∧ (33 ≤ z ∧ z ≤ 126)) := by
  obtain ⟨h1, h3, hc⟩ := h
  match id, h1, h3, hc with
  | [x], _, _, hc => exact Or.inl ⟨x, rfl, by simpa using hc x⟩
  | [x, y], _, _, hc =>
    exact Or.inr (Or.inl ⟨x, y, rfl, by simpa using hc x (by simp), by simpa using hc y (by simp)⟩)
  | [x, y, z], _, _, hc =>
    exact Or.inr (Or.inr ⟨x, y, z, rfl, by simpa using hc x (by simp),
      by simpa using hc y (by simp), by simpa using hc z (by simp)⟩)
  | [], h1, _, _ => simp at h1
  | _ :: _ :: _ :: _ :: _, _, h3, _ => simp at h3

theorem id_hash3_one (x : Nat) (h : id_ok3 [x]) :
    id_hash3 [x] = (96 * (x - 32) + 0) * 96 + 0 := by
  have hx := h.2.2 x (by simp)
  unfold id_hash3
  simp only [char_at, List.getD_cons_zero, List.getD_cons_succ, List.getD_nil]
  rw [if_neg (by omega), if_pos (by omega)]

theorem id_hash3_two (x y : Nat) (h : id_ok3 [x, y]) :
    id_hash3 [x, y] = (96 * (x - 32) + (y - 32)) * 96 + 0 := by
  have hx := h.2.2 x (by simp)
  have hy := h.2.2 y (by simp)
  unfold id_hash3
  simp only [char_at, List.getD_cons_zero, List.getD_cons_succ, List.getD_nil]
  rw [if_neg (by omega), if_neg (by omega), if_pos (by omega)]

theorem id_hash3_three (x y z : Nat) (h : id_ok3 [x, y, z]) :
    id_hash3 [x, y, z] = (96 * (x - 32) + (y - 32)) * 96 + (z - 32) := by
  have hx := h.2.2 x (by simp)
  have hy := h.2.2 y (by simp)
  have hz := h.2.2 z (by simp)
  unfold id_hash3
  simp only [char_at, List.getD_cons_zero, List.getD_cons_succ, List.getD_nil]
  rw [if_neg (by omega), if_neg (by omega), if_neg (by omega)]

/-- On identifiers of 1 to 3 characters the hash follows the `strcmp` order. -/
theorem id_hash3_mono (a b : List Nat) (ha : id_ok3 a) (hb : id_ok3 b)
    (h : strcmp a b ≤ 0) : id_hash3 a ≤ id_hash3 b := by
  rcases id_ok3_cases a ha with ⟨x, rfl, hx⟩ | ⟨x, y, rfl, hx⟩ | ⟨x, y, z, rfl, hx⟩ <;>
  rcases id_ok3_cases b hb with ⟨p, rfl, hp⟩ | ⟨p, q, rfl, hp⟩ | ⟨p, q, r, rfl, hp⟩ <;>
  simp only [strcmp] at h <;>
  simp only [id_hash3_one, id_hash3_two, id_hash3_three, ha, hb] <;>
  split_ifs at h <;> omega

/-- On identifiers of 1 to 3 characters the hash is injective. -/
theorem id_hash3_inj (a b : List Nat) (ha : id_ok3 a) (hb : id_ok3 b)
    (h : id_hash3 a = id_hash3 b) : a = b := by
  rcases id_ok3_cases a ha with ⟨x, rfl, hx⟩ | ⟨x, y, rfl, hx⟩ | ⟨x, y, z, rfl, hx⟩ <;>
  rcases id_ok3_cases b hb with ⟨p, rfl, hp⟩ | ⟨p, q, rfl, hp⟩ | ⟨p, q, r, rfl, hp⟩ <;>
  simp only [id_hash3_one, id_hash3_two, id_hash3_three, ha, hb] at h <;>
  simp only [List.cons.injEq, and_true, List.cons_ne_nil, List.nil_eq, and_false,
    reduceCtorEq] <;>
  omega

theorem id_hash3_pos (a : List Nat) (ha : id_ok3 a) : 0 < id_hash3 a := by
  rcases id_ok3_cases a ha with ⟨x, rfl, hx⟩ | ⟨x, y, rfl, hx⟩ | ⟨x, y, z, rfl, hx⟩ <;>
  simp only [id_hash3_one, id_hash3_two, id_hash3_three, ha] <;>
  omega

theorem id_hash3_lt (id : List Nat) : id_hash3 id < ID_HASH_MAX := by
  unfold id_hash3 ID_HASH_MAX
  simp only
  split_ifs <;> omega

theorem name_record_eq (id : List Nat) (d : Nat) (nam : List Nat) :
    name_record id d nam = id ++ 32 :: (dec_digits 20 d [] ++ [32] ++ nam) := by
  simp [name_record, fmt_width]

/-- The fold loop reads back the identifier of a name record. -/
theorem record_id_name_record (id : List Nat) (d : Nat) (nam : List Nat) (h : id_ok3 id) :
    record_id (name_record id d nam) = id := by
  rw [name_record_eq]
  generalize dec_digits 20 d [] ++ [32] ++ nam = rest
  have key : ∀ c, 33 ≤ c ∧ c ≤ 126 → (c != 32 && c != 0) = true := by
    intro c hc
    have h1 : c ≠ 32 := by omega
    have h2 : c ≠ 0 := by omega
    simp [h1, h2]
  rcases id_ok3_cases id h with ⟨x, rfl, hx⟩ | ⟨x, y, rfl, hx, hy⟩ | ⟨x, y, z, rfl, hx, hy, hz⟩
  · simp [record_id, record_id_len, ID_SZ_MAX, List.takeWhile_cons, key x hx]
  · simp [record_id, record_id_len, ID_SZ_MAX, List.takeWhile_cons, key x hx, key y hy]
  · simp [record_id, record_id_len, ID_SZ_MAX, List.takeWhile_cons, key x hx, key y hy, key z hz]

/-- The order of two name records decides the order of their identifiers,
when no identifier byte is a space or below. -/
theorem strcmp_record_id (a b ta tb : List Nat) (ha : ∀ c ∈ a, 32 < c) (hb : ∀ c ∈ b, 32 < c)
    (h : strcmp (a ++ 32 :: ta) (b ++ 32 :: tb) ≤ 0) : strcmp a b ≤ 0 := by
  induction a generalizing b with
  | nil =>
    cases b with
    | nil => simp [strcmp]
    | cons y bs => simp [strcmp]
  | cons x as ih =>
    have hx := ha x (by simp)
    cases b with
    | nil =>
      simp only [List.cons_append, List.nil_append, strcmp] at h
      rw [if_neg (by omega)] at h
      omega
    | cons y bs =>
      have hy := hb y (by simp)
      simp only [List.cons_append, strcmp] at h ⊢
      by_cases hxy : x = y
      · subst hxy
        rw [if_pos rfl, if_neg (by omega)] at h
        rw [if_pos rfl, if_neg (by omega)]
        exact ih bs (fun c hc => ha c (by simp [hc])) (fun c hc => hb c (by simp [hc])) h
      · rw [if_neg hxy] at h
        rw [if_neg hxy]
        exact h

theorem strcmp_eq_zero_ok (a b : List Nat) (ha : id_ok3 a) (hb : id_ok3 b)
    (h : strcmp a b = 0) : a = b := by
  apply id_hash3_inj a b ha hb
  have h1 := id_hash3_mono a b ha hb (by omega)
  have h2 := id_hash3_mono b a hb ha (by rw [strcmp_neg a b]; omega)
  omega

/-- The identifiers of the `var` entries a fold state holds. -/
theorem fold_step_ids (fs : fold_state) (i : Nat) (s : List Nat) :
    (fold_step fs i s).var.map (fun v => v.id)
      = match fs.var.getLast? with
        | none => fs.var.map (fun v => v.id) ++ [record_id s]
        | some last =>
          if strcmp last.id (record_id s) ≠ 0 then fs.var.map (fun v => v.id) ++ [record_id s]
          else fs.var.map (fun v => v.id) := by
  unfold fold_step
  cases hl : fs.var.getLast? with
  | none => simp
  | some last =>
    simp only
    by_cases hne : strcmp last.id (record_id s) ≠ 0
    · simp [hne]
    · rw [if_neg hne, if_neg hne]
      have := List.dropLast_append_getLast? last (by rw [hl]; exact rfl)
      conv_rhs => rw [← this]
      simp

theorem fold_loop_ids (rest : List (List Nat)) (i : Nat) (fs : fold_state)
    (hok : ∀ a ∈ fs.var.map (fun v => v.id), id_ok3 a)
    (hrest : ∀ s ∈ rest, id_ok3 (record_id s))
    (hpw : (fs.var.map (fun v => v.id)).Pairwise (fun a b => id_hash3 a < id_hash3 b))
    (hsorted : rest.Pairwise (fun s1 s2 => id_hash3 (record_id s1) ≤ id_hash3 (record_id s2)))
    (hlink : ∀ a ∈ fs.var.map (fun v => v.id), ∀ s ∈ rest, id_hash3 a ≤ id_hash3 (record_id s)) :
    (∀ a ∈ (fold_loop rest i fs).var.map (fun v => v.id), id_ok3 a) ∧
    ((fold_loop rest i fs).var.map (fun v => v.id)).Pairwise
      (fun a b => id_hash3 a < id_hash3 b) ∧
    (∀ a ∈ fs.var.map (fun v => v.id), a ∈ (fold_loop rest i fs).var.map (fun v => v.id)) ∧
    (∀ s ∈ rest, record_id s ∈ (fold_loop rest i fs).var.map (fun v => v.id)) := by
  induction rest generalizing i fs with
  | nil =>
    refine ⟨hok, hpw, fun a ha => ha, ?_⟩
    intro s hs
    cases hs
  | cons s rest ih =>
    have hs_ok : id_ok3 (record_id s) := hrest s (by simp)
    have hrest' : ∀ s' ∈ rest, id_ok3 (record_id s') := fun s' h' => hrest s' (by simp [h'])
    rw [List.pairwise_cons] at hsorted
    -- the push case
    have push : ∀ (hlt : ∀ a ∈ fs.var.map (fun v => v.id), id_hash3 a < id_hash3 (record_id s))
        (hids : (fold_step fs i s).var.map (fun v => v.id)
          = fs.var.map (fun v => v.id) ++ [record_id s]),
        (∀ a ∈ (fold_loop (s :: rest) i fs).var.map (fun v => v.id), id_ok3 a) ∧
        ((fold_loop (s :: rest) i fs).var.map (fun v => v.id)).Pairwise
          (fun a b => id_hash3 a < id_hash3 b) ∧
        (∀ a ∈ fs.var.map (fun v => v.id),
          a ∈ (fold_loop (s :: rest) i fs).var.map (fun v => v.id)) ∧
        (∀ s' ∈ s :: rest, record_id s' ∈ (fold_loop (s :: rest) i fs).var.map (fun v => v.id)) := by
      intro hlt hids
      have := ih (i + 1) (fold_step fs i s)
        (by
          rw [hids]
          intro a ha
          rcases List.mem_append.mp ha with ha | ha
          · exact hok a ha
          · rw [List.mem_singleton.mp ha]; exact hs_ok)
        hrest'
        (by
          rw [hids, List.pairwise_append]
          refine ⟨hpw, List.pairwise_singleton _ _, ?_⟩
          intro a ha b hb
          rw [List.mem_singleton.mp hb]
          exact hlt a ha)
        hsorted.2
        (by
          rw [hids]
          intro a ha s' hs'
          rcases List.mem_append.mp ha with ha | ha
          · exact hlink a ha s' (by simp [hs'])
          · rw [List.mem_singleton.mp ha]; exact hsorted.1 s' hs')
      obtain ⟨h1, h2, h3, h4⟩ := this
      refine ⟨h1, h2, ?_, ?_⟩
      · intro a ha
        exact h3 a (by rw [hids]; exact List.mem_append_left _ ha)
      · intro s' hs'
        rcases List.mem_cons.mp hs' with hs' | hs'
        · rw [hs']
          exact h3 _ (by rw [hids]; simp)
        · exact h4 s' hs'
    have hstep := fold_step_ids fs i s
    cases hl : fs.var.getLast? with
    | none =>
      rw [hl] at hstep
      have hnil : fs.var = [] := List.getLast?_eq_none_iff.mp hl
      exact push (by rw [hnil]; intro a ha; cases ha) hstep
    | some last =>
      rw [hl] at hstep
      obtain ⟨ys, hys⟩ := List.getLast?_eq_some_iff.mp hl
      have hlast_mem : last.id ∈ fs.var.map (fun v => v.id) := by
        rw [hys]; simp
      by_cases hne : strcmp last.id (record_id s) ≠ 0
      · simp only [if_pos hne] at hstep
        refine push ?_ hstep
        intro a ha
        have hle_last : id_hash3 last.id ≤ id_hash3 (record_id s) :=
          hlink _ hlast_mem s (by simp)
        have hne_hash : id_hash3 last.id ≠ id_hash3 (record_id s) := by
          intro heq
          apply hne
          rw [id_hash3_inj _ _ (hok _ hlast_mem) hs_ok heq]
          exact strcmp_self _
        rw [hys, List.map_append, List.pairwise_append] at hpw
        rw [hys, List.map_append] at ha
        rcases List.mem_append.mp ha with ha | ha
        · have := hpw.2.2 a ha last.id (by simp)
          omega
        · simp only [List.map_cons, List.map_nil, List.mem_singleton] at ha
          rw [ha]
          omega
      · simp only [if_neg hne] at hstep
        have heq : last.id = record_id s :=
          strcmp_eq_zero_ok _ _ (hok _ hlast_mem) hs_ok (not_not.mp hne)
        have := ih (i + 1) (fold_step fs i s)
          (by rw [hstep]; exact hok) hrest' (by rw [hstep]; exact hpw) hsorted.2
          (by
            rw [hstep]
            intro a ha s' hs'
            exact hlink a ha s' (by simp [hs']))
        obtain ⟨h1, h2, h3, h4⟩ := this
        refine ⟨h1, h2, ?_, ?_⟩
        · intro a ha
          exact h3 a (by rw [hstep]; exact ha)
        · intro s' hs'
          rcases List.mem_cons.mp hs' with hs' | hs'
          · rw [hs', ← heq]
            exact h3 _ (by rw [hstep]; exact hlast_mem)
          · exact h4 s' hs'

theorem assign_state_ids (vs : List var_t) (s : Nat) :
    (assign_state vs s).map (fun v => v.id) = vs.map (fun v => v.id) := by
  induction vs generalizing s with
  | nil => rfl
  | cons v vs ih => simp [assign_state, ih]

/-- What the loops that fill `id_hash` achieve when the hashes of the
remaining variables are strictly ascending and above `y`: the finished table
maps the hash of each remaining variable to its position, maps `y` to `j`,
and keeps the entries below `y`. -/
theorem hash_loop_spec (vs : List var_t) (i y j : Nat) (H : Nat → Nat)
    (hy : y < ID_HASH_MAX)
    (hpw : (vs.map (fun v => v.id)).Pairwise (fun a b => id_hash3 a < id_hash3 b))
    (habove : ∀ a ∈ vs.map (fun v => v.id), y < id_hash3 a) :
    hash_finish (hash_loop vs i (y, j, H)) y = j ∧
    (∀ h < y, hash_finish (hash_loop vs i (y, j, H)) h = H h) ∧
    ∀ k v, vs[k]? = some v → hash_finish (hash_loop vs i (y, j, H)) (id_hash3 v.id) = i + k := by
  induction vs generalizing i y j H with
  | nil =>
    simp only [hash_loop, hash_finish]
    refine ⟨by simp [hy], ?_, ?_⟩
    · intro h hlt
      rw [if_neg (by omega)]
    · intro k v hk
      simp at hk
  | cons v vs ih =>
    have hx : y < id_hash3 v.id := habove v.id (by simp)
    have hxmax : id_hash3 v.id < ID_HASH_MAX := id_hash3_lt v.id
    simp only [List.map_cons, List.pairwise_cons] at hpw
    have hstep : hash_step i v (y, j, H)
        = (id_hash3 v.id, i,
            fun h => if h = id_hash3 v.id then i else if y ≤ h ∧ h < id_hash3 v.id then j else H h) := by
      simp only [hash_step]
      rw [if_pos hx]
    obtain ⟨h1, h2, h3⟩ := ih (i + 1) (id_hash3 v.id) i
      (fun h => if h = id_hash3 v.id then i else if y ≤ h ∧ h < id_hash3 v.id then j else H h)
      hxmax hpw.2 hpw.1
    simp only [hash_loop, hstep]
    refine ⟨?_, ?_, ?_⟩
    · rw [h2 y hx, if_neg (by omega), if_pos ⟨le_refl _, hx⟩]
    · intro h hlt
      rw [h2 h (by omega), if_neg (by omega), if_neg (by omega)]
    · intro k w hk
      cases k with
      | zero =>
        simp only [List.getElem?_cons_zero, Option.some.injEq] at hk
        subst hk
        exact h1
      | succ k =>
        simp only [List.getElem?_cons_succ] at hk
        rw [h3 k w hk]
        omega

/-- In a strictly ascending list of numbers the entry at position `k` is at
least `k`. -/
theorem le_of_pairwise_lt (l : List Nat) (hpw : l.Pairwise (fun a b => a < b)) (lo : Nat)
    (hlo : ∀ a ∈ l, lo ≤ a) (k x : Nat) (hk : l[k]? = some x) : lo + k ≤ x := by
  induction l generalizing lo k with
  | nil => simp at hk
  | cons a l ih =>
    rw [List.pairwise_cons] at hpw
    cases k with
    | zero =>
      simp only [List.getElem?_cons_zero, Option.some.injEq] at hk
      subst hk
      exact hlo _ (by simp)
    | succ k =>
      simp only [List.getElem?_cons_succ] at hk
      have := ih hpw.2 (a + 1) (fun b hb => hpw.1 b hb) k hk
      have := hlo a (by simp)
      omega

theorem find_id_at (var : List var_t) (id_hash : Nat → Nat) (id : List Nat) (k : Nat) (v : var_t)
    (hk : id_hash (id_hash3 id) = k) (hv : var[k]? = some v) (hid : v.id = id)
    (hmax : k < ID_HASH_MAX) : find_id var id_hash id = .found k := by
  unfold find_id find_id_scan
  rw [hk]
  obtain ⟨hlt, hget⟩ := List.getElem?_eq_some_iff.mp hv
  rw [List.drop_eq_getElem_cons hlt, hget]
  unfold find_id_loop
  rw [if_pos hmax, hid, if_pos (strcmp_self id)]

/-- C6. Lookup finds every declared signal: for a preamble whose `$var`
declarations all have identifiers of 1 to 3 characters in `0x21..0x7E`, in
the tables built from its name records `find_id` returns, for the identifier
of every declaration, the entry of `var` (one of the `var_n` variables) that
holds this identifier; the entry depends on the identifier only, so all alias
declarations of an identifier resolve to the same variable. -/
theorem find_id_declared (decls : List var_decl) (timing : List Nat)
    (hid : ∀ x ∈ decls, id_ok3 x.id) (x : var_decl) (hx : x ∈ decls) :
    ∃ i v, find_id (build_tables (decls.map var_decl.record) timing).var
        (build_tables (decls.map var_decl.record) timing).id_hash x.id = .found i ∧
      i < (build_tables (decls.map var_decl.record) timing).var_n ∧
      (build_tables (decls.map var_decl.record) timing).var[i]? = some v ∧ v.id = x.id ∧
      ∀ y ∈ decls, y.id = x.id →
        find_id (build_tables (decls.map var_decl.record) timing).var
          (build_tables (decls.map var_decl.record) timing).id_hash y.id = .found i := by
  -- the sorted records
  have hmem : ∀ s ∈ qsort_offs (decls.map var_decl.record), ∃ y ∈ decls, s = y.record := by
    intro s hs
    have := (qsort_offs_perm (decls.map var_decl.record)).mem_iff.mp hs
    obtain ⟨y, hy, rfl⟩ := List.mem_map.mp this
    exact ⟨y, hy, rfl⟩
  have hrid : ∀ y ∈ decls, record_id y.record = y.id := fun y hy =>
    record_id_name_record y.id y.d y.nam (hid y hy)
  have hrest : ∀ s ∈ qsort_offs (decls.map var_decl.record), id_ok3 (record_id s) := by
    intro s hs
    obtain ⟨y, hy, rfl⟩ := hmem s hs
    rw [hrid y hy]
    exact hid y hy
  have hsorted : (qsort_offs (decls.map var_decl.record)).Pairwise
      (fun s1 s2 => id_hash3 (record_id s1) ≤ id_hash3 (record_id s2)) := by
    refine List.Pairwise.imp_of_mem ?_ (qsort_offs_sorted _)
    intro s1 s2 h1 h2 hle
    obtain ⟨y1, hy1, rfl⟩ := hmem s1 h1
    obtain ⟨y2, hy2, rfl⟩ := hmem s2 h2
    rw [hrid y1 hy1, hrid y2 hy2]
    apply id_hash3_mono _ _ (hid y1 hy1) (hid y2 hy2)
    unfold offs_le offs_cmp var_decl.record at hle
    rw [name_record_eq, name_record_eq] at hle
    exact strcmp_record_id _ _ _ _ (fun c hc => by have := (hid y1 hy1).2.2 c hc; omega)
      (fun c hc => by have := (hid y2 hy2).2.2 c hc; omega) hle
  obtain ⟨hok, hpw, -, hall⟩ := fold_loop_ids (qsort_offs (decls.map var_decl.record)) 0 ⟨[], 0, 0, false⟩
    (by intro a ha; cases ha) hrest (by simp) hsorted (by intro a ha; cases ha)
  -- the variables
  generalize hfs : fold_loop (qsort_offs (decls.map var_decl.record)) 0 ⟨[], 0, 0, false⟩ = fs at hok hpw hall
  have hxin : x.id ∈ (assign_state fs.var 0).map (fun v => v.id) := by
    rw [assign_state_ids, ← hrid x hx]
    apply hall
    exact (qsort_offs_perm _).mem_iff.mpr (List.mem_map.mpr ⟨x, hx, rfl⟩)
  rw [← assign_state_ids fs.var 0] at hpw hok
  obtain ⟨k, hklt, hk⟩ := List.getElem_of_mem hxin
  have hklt' : k < (assign_state fs.var 0).length := by simpa using hklt
  have hvk : (assign_state fs.var 0)[k]? = some ((assign_state fs.var 0)[k]) :=
    List.getElem?_eq_getElem hklt'
  have hvid : ((assign_state fs.var 0)[k]).id = x.id := by
    simpa using hk
  have hpos : ∀ a ∈ (assign_state fs.var 0).map (fun v => v.id), 0 < id_hash3 a :=
    fun a ha => id_hash3_pos a (hok a ha)
  have hhash := (hash_loop_spec (assign_state fs.var 0) 0 0 0 (fun _ => 0) (by decide) hpw
    hpos).2.2 k _ hvk
  rw [hvid, Nat.zero_add] at hhash
  have hkmax : k < ID_HASH_MAX := by
    have hpw' : ((assign_state fs.var 0).map (fun v => id_hash3 v.id)).Pairwise
        (fun a b => a < b) := by
      rw [List.pairwise_map] at hpw ⊢
      exact hpw
    have := le_of_pairwise_lt _ hpw' 0 (fun a _ => Nat.zero_le a) k (id_hash3 x.id)
      (by rw [List.getElem?_map, hvk, Option.map_some', hvid])
    have := id_hash3_lt x.id
    omega
  have hvar : (build_tables (decls.map var_decl.record) timing).var[k]?
      = some ((assign_state fs.var 0)[k]) := by
    simp only [build_tables, hfs]
    rw [List.getElem?_append_left hklt']
    exact hvk
  have hfind : find_id (build_tables (decls.map var_decl.record) timing).var
      (build_tables (decls.map var_decl.record) timing).id_hash x.id = .found k := by
    apply find_id_at _ _ _ k _ ?_ hvar hvid hkmax
    simp only [build_tables, hfs]
    exact hhash
  refine ⟨k, (assign_state fs.var 0)[k], hfind, ?_, hvar, hvid, ?_⟩
  · simp only [build_tables, hfs]
    exact hklt'
  · intro y _ hy
    rw [hy]
    exact hfind

/-- Witness of C6: the scenario's declarations and the identifier `"`. -/
theorem find_id_declared_witness :
    ((∀ x ∈ scenario_decls, id_ok3 x.id) ∧
      (⟨bytes "\"", 2, bytes "top.bus"⟩ : var_decl) ∈ scenario_decls) ∧
    ∃ i v, find_id (build_tables (scenario_decls.map var_decl.record) scenario_timing).var
        (build_tables (scenario_decls.map var_decl.record) scenario_timing).id_hash
        (bytes "\"") = .found i ∧
      i < (build_tables (scenario_decls.map var_decl.record) scenario_timing).var_n ∧
      (build_tables (scenario_decls.map var_decl.record) scenario_timing).var[i]? = some v ∧
      v.id = bytes "\"" ∧
      ∀ y ∈ scenario_decls, y.id = bytes "\"" →
        find_id (build_tables (scenario_decls.map var_decl.record) scenario_timing).var
          (build_tables (scenario_decls.map var_decl.record) scenario_timing).id_hash y.id
          = .found i :=
  ⟨⟨by decide, by decide⟩,
    find_id_declared scenario_decls scenario_timing (by decide)
      ⟨bytes "\"", 2, bytes "top.bus"⟩ (by decide)⟩

/-! ## The name records of a preamble are the records of its declarations -/

theorem preamble_line_names (st st1 : pre_state) (buf : List Nat)
    (h : preamble_line st buf = .ok (some st1)) :
    st1.names = st.names ∨
      ∃ x : var_decl, x.id = ((tokenize buf).getD []).getD 3 [] ∧
        st1.names = st.names ++ [x.record] := by
  unfold preamble_line at h
  cases htok : tokenize buf with
  | none => rw [htok] at h; cases h
  | some tok =>
    rw [htok] at h
    simp only [preamble_tokens] at h
    rw [Option.getD_some]
    split_ifs at h <;> first
      | (cases h; exact Or.inl rfl)
      | (cases h; exact Or.inr ⟨⟨_, _, _⟩, rfl, rfl⟩)
      | cases h

theorem read_preamble_names (fuel : Nat) (st st1 : pre_state) (fp rest : List Nat)
    (h : read_preamble fuel st fp = .ok (st1, rest)) :
    ∃ decls : List var_decl, st1.names = st.names ++ decls.map var_decl.record := by
  induction fuel generalizing st fp with
  | zero =>
    simp only [read_preamble] at h
    cases h
    exact ⟨[], by simp⟩
  | succ fuel ih =>
    simp only [read_preamble] at h
    split at h
    · cases h
      exact ⟨[], by simp⟩
    · split at h
      · cases h
      · cases h
        exact ⟨[], by simp⟩
      · rename_i st2 hline
        obtain ⟨decls, hd⟩ := ih st2 _ h
        rcases preamble_line_names _ _ _ hline with h2 | ⟨x, -, h2⟩
        · exact ⟨decls, by rw [hd, h2]⟩
        · exact ⟨x :: decls, by rw [hd, h2]; simp⟩

/-- The tables `read_vcd` builds are the tables of the declarations of the
preamble. -/
theorem read_vcd_tables (fp : List Nat) (pre : pre_state) (rest : List Nat)
    (h : read_preamble fp.length pre_init fp = .ok (pre, rest)) :
    ∃ decls : List var_decl, pre.names = decls.map var_decl.record := by
  obtain ⟨decls, hd⟩ := read_preamble_names _ _ _ _ _ h
  exact ⟨decls, by simpa [pre_init] using hd⟩

/-! ## The state slices stay inside the arena -/

theorem assign_state_bound (vs : List var_t) (s : Nat) :
    ∀ v ∈ assign_state vs s, v.s + v.d ≤ s + (vs.map (fun v => v.d)).sum := by
  induction vs generalizing s with
  | nil =>
    intro v hv
    cases hv
  | cons w vs ih =>
    intro v hv
    simp only [assign_state, List.mem_cons] at hv
    simp only [List.map_cons, List.sum_cons]
    rcases hv with hv | hv
    · subst hv
      show s + w.d ≤ s + (w.d + _)
      omega
    · have := ih (s + w.d) v hv
      omega

theorem fold_step_st_sz (fs : fold_state) (i : Nat) (s : List Nat)
    (h : fs.st_sz = (fs.var.map (fun v => v.d)).sum) :
    (fold_step fs i s).st_sz = ((fold_step fs i s).var.map (fun v => v.d)).sum := by
  unfold fold_step
  cases hl : fs.var.getLast? with
  | none => simp [h]
  | some last =>
    simp only
    by_cases hne : strcmp last.id (record_id s) ≠ 0
    · simp [hne, h]
    · rw [if_neg hne]
      have := List.dropLast_append_getLast? last (by rw [hl]; exact rfl)
      simp only [h]
      conv_lhs => rw [← this]
      simp

theorem fold_loop_st_sz (rest : List (List Nat)) (i : Nat) (fs : fold_state)
    (h : fs.st_sz = (fs.var.map (fun v => v.d)).sum) :
    (fold_loop rest i fs).st_sz = ((fold_loop rest i fs).var.map (fun v => v.d)).sum := by
  induction rest generalizing i fs with
  | nil => exact h
  | cons s rest ih => exact ih (i + 1) (fold_step fs i s) (fold_step_st_sz fs i s h)

/-- At the start of the change loop every state slice lies inside the arena. -/
theorem slices_in_arena_init (names : List (List Nat)) (timing : List Nat) :
    slices_in_arena (init_state (build_tables names timing)).var
      (init_state (build_tables names timing)).state := by
  intro v hv
  simp only [init_state, build_tables, List.mem_append, List.length_replicate] at hv ⊢
  rcases hv with hv | hv
  · have := assign_state_bound _ 0 v hv
    rw [← fold_loop_st_sz _ 0 ⟨[], 0, 0, false⟩ rfl] at this
    omega
  · rw [(List.mem_replicate.mp hv).2]
    exact Nat.zero_le _

theorem hamming_loop_length (bits : List Nat) (o : Nat) (state : List Nat) (sd : Int) :
    (hamming_loop bits o state sd).1.length = state.length := by
  induction bits generalizing o state sd with
  | nil => rfl
  | cons b bits ih => rw [hamming_loop, ih, List.length_set]

theorem memcpy_length (bits : List Nat) (o : Nat) (state : List Nat) :
    (memcpy bits o state).length = state.length := by
  induction bits generalizing o state with
  | nil => rfl
  | cons b bits ih => rw [memcpy, ih, List.length_set]

theorem bump_u_mem (var : List var_t) (i : Nat) (v : var_t) (hv : v ∈ bump_u var i) :
    ∃ w ∈ var, v.s = w.s ∧ v.d = w.d := by
  unfold bump_u at hv
  induction var generalizing i with
  | nil => simp at hv
  | cons a var ih =>
    cases i with
    | zero =>
      simp only [List.modify_zero_cons, List.mem_cons] at hv
      rcases hv with hv | hv
      · exact ⟨a, by simp, by rw [hv], by rw [hv]⟩
      · exact ⟨v, by simp [hv], rfl, rfl⟩
    | succ i =>
      simp only [List.modify_succ_cons, List.mem_cons] at hv
      rcases hv with hv | hv
      · exact ⟨a, by simp, by rw [hv], by rw [hv]⟩
      · obtain ⟨w, hw, h1, h2⟩ := ih i hv
        exact ⟨w, by simp [hw], h1, h2⟩

theorem state_update_slices (i : Nat) (bits : List Nat) (st : vcd_state)
    (h : slices_in_arena st.var st.state) :
    slices_in_arena (state_update i bits st).var (state_update i bits st).state := by
  intro v hv
  by_cases hu : (st.var.getD i var_zero).u > 0
  · rw [state_update_of_pos i bits st hu] at hv ⊢
    obtain ⟨w, hw, h1, h2⟩ := bump_u_mem _ _ _ hv
    have := h w hw
    simp only [hamming_loop_length]
    omega
  · rw [state_update_of_zero i bits st hu] at hv ⊢
    obtain ⟨w, hw, h1, h2⟩ := bump_u_mem _ _ _ hv
    have := h w hw
    simp only [memcpy_length]
    omega

theorem new_time_var_state (env : run_env) (st : vcd_state) :
    (new_time env st).var = st.var ∧ (new_time env st).state = st.state := by
  unfold new_time
  split
  · split <;> cases env.dump_tim <;> exact ⟨rfl, rfl⟩
  · exact ⟨rfl, rfl⟩

theorem cycle_signal_var_state (env : run_env) (i : Nat) (bits : List Nat) (st : vcd_state) :
    (cycle_signal env i bits st).var = st.var ∧ (cycle_signal env i bits st).state = st.state := by
  unfold cycle_signal
  split <;> exact ⟨rfl, rfl⟩

theorem change_line_slices (env : run_env) (st st1 : vcd_state) (buf : List Nat)
    (hstep : change_line env st buf = .ok st1) (h : slices_in_arena st.var st.state) :
    slices_in_arena st1.var st1.state := by
  unfold change_line at hstep
  split at hstep
  · cases hstep; exact h
  · cases hstep
    rw [(new_time_var_state env _).1, (new_time_var_state env _).2]
    exact h
  · cases hstep; exact h
  · cases hstep; exact h
  · cases hstep; exact h
  · cases hstep
  · rename_i i bits _
    cases hstep
    rw [(new_time_var_state env _).1, (new_time_var_state env _).2,
      (cycle_signal_var_state env i bits _).1, (cycle_signal_var_state env i bits _).2]
    exact state_update_slices i bits st h

theorem read_changes_slices (env : run_env) (lines : List (List Nat)) (st st1 : vcd_state)
    (hrun : read_changes env st lines = .ok st1) (h : slices_in_arena st.var st.state) :
    slices_in_arena st1.var st1.state := by
  induction lines generalizing st with
  | nil =>
    cases hrun
    exact h
  | cons buf rest ih =>
    simp only [read_changes] at hrun
    cases hl : change_line env st buf with
    | error e => rw [hl] at hrun; cases hrun
    | ok s =>
      rw [hl] at hrun
      exact ih s hrun (change_line_slices env st s buf hl h)

/-- C9. Hamming accumulation: in any state the change loop of `read_vcd`
reaches (tables built from any name records, any lines processed), for an
accepted record on a variable with `u > 0` the state update adds to `hd`
exactly the Hamming distance between the variable's previous state slice and
the record's bits (so `hd` does not decrease), and afterwards the variable's
state slice is the record's bits. -/
theorem hamming_accumulation (names : List (List Nat)) (timing : List Nat) (thresh : Int)
    (dump_tim : Option (List Int)) (lines : List (List Nat)) (st : vcd_state) (buf : List Nat)
    (i : Nat) (bits : List Nat)
    (hrun : read_changes (env_of (build_tables names timing) thresh dump_tim)
      (init_state (build_tables names timing)) lines = .ok st)
    (hacc : classify st.var (build_tables names timing).id_hash buf = .value_change i bits)
    (hu : (st.var.getD i var_zero).u > 0) :
    (state_update i bits st).hd
      = st.hd + hamming_distance (state_slice st.state (st.var.getD i var_zero)) bits ∧
    st.hd ≤ (state_update i bits st).hd ∧
    state_slice (state_update i bits st).state ((state_update i bits st).var.getD i var_zero)
      = bits :=
  state_update_accumulates (env_of (build_tables names timing) thresh dump_tim) st buf i bits
    hacc hu (read_changes_slices _ lines _ st hrun (slices_in_arena_init names timing))

/-- Witness of C9: the scenario after `#10`, the record `0!`. -/
theorem hamming_accumulation_witness :
    (read_changes (env_of (build_tables scenario_names scenario_timing) 1 none)
        (init_state (build_tables scenario_names scenario_timing)) scenario_lines_to_10
        = .ok scenario_state_at_10 ∧
      classify scenario_state_at_10.var (build_tables scenario_names scenario_timing).id_hash
        (bytes "0!\n") = .value_change 0 [48] ∧
      (scenario_state_at_10.var.getD 0 var_zero).u > 0) ∧
    (state_update 0 [48] scenario_state_at_10).hd
      = scenario_state_at_10.hd + hamming_distance
          (state_slice scenario_state_at_10.state (scenario_state_at_10.var.getD 0 var_zero))
          [48] :=
  ⟨⟨rfl, by decide, by decide⟩,
    (hamming_accumulation scenario_names scenario_timing 1 none scenario_lines_to_10
      scenario_state_at_10 (bytes "0!\n") 0 [48] rfl (by decide) (by decide)).1⟩

/-- C10. First update is free: in any state the change loop of `read_vcd`
reaches, for an accepted record on a variable with `u = 0` the state update
leaves `hd` unchanged, makes the variable's state slice the record's bits,
and makes its `u` equal to 1. -/
theorem first_update_free (names : List (List Nat)) (timing : List Nat) (thresh : Int)
    (dump_tim : Option (List Int)) (lines : List (List Nat)) (st : vcd_state) (buf : List Nat)
    (i : Nat) (bits : List Nat)
    (hrun : read_changes (env_of (build_tables names timing) thresh dump_tim)
      (init_state (build_tables names timing)) lines = .ok st)
    (hacc : classify st.var (build_tables names timing).id_hash buf = .value_change i bits)
    (hu : (st.var.getD i var_zero).u = 0) :
    (state_update i bits st).hd = st.hd ∧
    state_slice (state_update i bits st).state ((state_update i bits st).var.getD i var_zero)
      = bits ∧
    ((state_update i bits st).var.getD i var_zero).u = 1 :=
  state_update_first (env_of (build_tables names timing) thresh dump_tim) st buf i bits
    hacc hu (read_changes_slices _ lines _ st hrun (slices_in_arena_init names timing))

/-- Witness of C10: the scenario before its first line, the record `b00"`. -/
theorem first_update_free_witness :
    (read_changes (env_of (build_tables scenario_names scenario_timing) 1 none)
        (init_state (build_tables scenario_names scenario_timing)) []
        = .ok (init_state (build_tables scenario_names scenario_timing)) ∧
      classify (init_state (build_tables scenario_names scenario_timing)).var
        (build_tables scenario_names scenario_timing).id_hash (bytes "b00\"\n")
        = .value_change 1 [48, 48] ∧
      ((init_state (build_tables scenario_names scenario_timing)).var.getD 1 var_zero).u = 0) ∧
    ((state_update 1 [48, 48] (init_state (build_tables scenario_names scenario_timing))).hd
        = (init_state (build_tables scenario_names scenario_timing)).hd ∧
      state_slice
        (state_update 1 [48, 48] (init_state (build_tables scenario_names scenario_timing))).state
        ((state_update 1 [48, 48]
          (init_state (build_tables scenario_names scenario_timing))).var.getD 1 var_zero)
        = [48, 48] ∧
      ((state_update 1 [48, 48]
        (init_state (build_tables scenario_names scenario_timing))).var.getD 1 var_zero).u = 1) :=
  ⟨⟨rfl, by decide, by decide⟩,
    first_update_free scenario_names scenario_timing 1 none []
      (init_state (build_tables scenario_names scenario_timing)) (bytes "b00\"\n") 1 [48, 48]
      rfl (by decide) (by decide)⟩

/-! ## The loops over the file read it to its end -/

theorem fgets_aux_length (k : Nat) (c : Nat) (fp : List Nat) :
    (fgets_aux (k + 1) (c :: fp)).2.length ≤ fp.length := by
  induction k generalizing c fp with
  | zero =>
    simp only [fgets_aux]
    split <;> simp
  | succ k ih =>
    rw [fgets_aux]
    split
    · simp
    · cases fp with
      | nil => simp [fgets_aux]
      | cons d fp =>
        have := ih d fp
        simp only [List.length_cons]
        omega

theorem fgets_aux_append (k : Nat) (fp : List Nat) :
    (fgets_aux k fp).1 ++ (fgets_aux k fp).2 = fp := by
  induction k generalizing fp with
  | zero => simp [fgets_aux]
  | succ k ih =>
    cases fp with
    | nil => simp [fgets_aux]
    | cons c fp =>
      rw [fgets_aux]
      split
      · simp
      · simp [ih fp]

/-- A call of `fgets` with a buffer of at least 2 bytes consumes at least one
byte of a file that is not at its end. -/
theorem fgets_progress (size : Nat) (hsize : 2 ≤ size) (fp buf rest : List Nat)
    (h : fgets size fp = some (buf, rest)) : rest.length < fp.length ∧ buf ++ rest = fp := by
  cases fp with
  | nil => simp [fgets] at h
  | cons c fp =>
    simp only [fgets, Option.some.injEq] at h
    obtain ⟨k, hk⟩ : ∃ k, size - 1 = k + 1 := ⟨size - 2, by omega⟩
    rw [hk] at h
    have h1 := fgets_aux_length k c fp
    have h2 := fgets_aux_append (k + 1) (c :: fp)
    rw [h] at h1 h2
    simp only at h1 h2
    exact ⟨by simp only [List.length_cons]; omega, h2⟩

/-- The lines `fgets` delivers make up the whole file. -/
theorem fgets_all_join (size : Nat) (hsize : 2 ≤ size) (fuel : Nat) (fp : List Nat)
    (h : fp.length ≤ fuel) : (fgets_all size fuel fp).flatten = fp := by
  induction fuel generalizing fp with
  | zero =>
    have hnil : fp = [] := List.length_eq_zero.mp (by omega)
    subst hnil
    simp [fgets_all]
  | succ fuel ih =>
    simp only [fgets_all]
    cases hf : fgets size fp with
    | none =>
      cases fp with
      | nil => simp
      | cons c fp => simp [fgets] at hf
    | some p =>
      obtain ⟨buf, rest⟩ := p
      have hp := fgets_progress size hsize fp buf rest hf
      simp only [List.flatten_cons]
      rw [ih rest (by omega), hp.2]

/-- With fuel for every byte of the file, the preamble loop does not depend
on the fuel: it ends at `$enddefinitions`, at a fatal error or at end of
file, not for lack of fuel. -/
theorem read_preamble_fuel (fuel1 fuel2 : Nat) (st : pre_state) (fp : List Nat)
    (h1 : fp.length ≤ fuel1) (h2 : fp.length ≤ fuel2) :
    read_preamble fuel1 st fp = read_preamble fuel2 st fp := by
  induction fuel1 generalizing fuel2 st fp with
  | zero =>
    have hnil : fp = [] := List.length_eq_zero.mp (by omega)
    subst hnil
    cases fuel2 <;> simp [read_preamble, fgets]
  | succ fuel1 ih =>
    cases fuel2 with
    | zero =>
      have hnil : fp = [] := List.length_eq_zero.mp (by omega)
      subst hnil
      simp [read_preamble, fgets]
    | succ fuel2 =>
      simp only [read_preamble]
      cases hf : fgets LINE_SZ_MAX fp with
      | none => rfl
      | some p =>
        obtain ⟨buf, rest⟩ := p
        have := (fgets_progress LINE_SZ_MAX (by decide) fp buf rest hf).1
        simp only
        cases preamble_line st buf with
        | error e => rfl
        | ok r =>
          cases r with
          | none => rfl
          | some st1 => exact ih fuel2 st1 rest (by omega) (by omega)

/-! ## The encoder -/

theorem decode_u32_bytes (be : Bool) (x : Nat) (rest : List Nat) :
    decode_counts be (u32_bytes be x ++ rest) = (x % 2 ^ 32) :: decode_counts be rest := by
  have h32 : (2 : Nat) ^ 32 = 4294967296 := by norm_num
  cases be
  · simp only [u32_bytes, Bool.false_eq_true, if_false, List.cons_append, List.nil_append,
      decode_counts, u32_of_bytes, List.cons.injEq, and_true, h32]
    exact ⟨by omega, rfl⟩
  · simp only [u32_bytes, if_true, List.cons_append, List.nil_append,
      decode_counts, u32_of_bytes, List.cons.injEq, and_true, h32]
    exact ⟨by omega, rfl⟩

theorem save_loop_ok (be : Bool) (wo : Nat → Bool) (pts : List toggle_data_point_t)
    (i : Nat) (out : List Nat) (h : (save_loop be wo pts i out).1 = 0) :
    (save_loop be wo pts i out).2 = out ++ pts.flatMap (fun p => u32_bytes be p.count) := by
  induction pts generalizing i out with
  | nil => simp [save_loop]
  | cons p ps ih =>
    unfold save_loop at h ⊢
    by_cases hw : wo i = true
    · rw [if_pos hw] at h ⊢
      rw [ih (i + 1) _ h]
      simp
    · rw [if_neg hw] at h
      simp at h

theorem decode_flat (be : Bool) (pts : List toggle_data_point_t)
    (h : ∀ p ∈ pts, p.count < 2 ^ 32) :
    decode_counts be (pts.flatMap (fun p => u32_bytes be p.count))
      = pts.map (fun p => p.count) := by
  induction pts with
  | nil => rfl
  | cons p ps ih =>
    rw [List.flatMap_cons, decode_u32_bytes, ih (fun q hq => h q (by simp [hq])),
      Nat.mod_eq_of_lt (h p (by simp))]
    rfl

theorem u32_bytes_length (be : Bool) (x : Nat) : (u32_bytes be x).length = 4 := by
  cases be <;> rfl

theorem flat_length (be : Bool) (pts : List toggle_data_point_t) :
    (pts.flatMap (fun p => u32_bytes be p.count)).length = 4 * pts.length := by
  induction pts with
  | nil => rfl
  | cons p ps ih =>
    simp only [List.flatMap_cons, List.length_append, u32_bytes_length, List.length_cons, ih]
    omega

/-- When `save_toggle_data_binary` returns 0 and the whole stream reaches the
file (the `4 * n` bytes are flushed), the file is the 4-byte representations
of the counts in sequence order, `4 * n` bytes with nothing before, between
or after them, and it decodes to the counts. -/
theorem save_file_complete (big_endian fopen_ok : Bool) (write_ok : Nat → Bool)
    (flushed : Nat) (toggle_data : List toggle_data_point_t)
    (hcount : ∀ p ∈ toggle_data, p.count < 2 ^ 32)
    (hok : (save_toggle_data_binary big_endian fopen_ok write_ok flushed toggle_data).1 = 0)
    (hflush : 4 * toggle_data.length ≤ flushed) :
    (save_toggle_data_binary big_endian fopen_ok write_ok flushed toggle_data).2
      = some (toggle_data.flatMap (fun p => u32_bytes big_endian p.count)) ∧
    (toggle_data.flatMap (fun p => u32_bytes big_endian p.count)).length
      = 4 * toggle_data.length ∧
    decode_counts big_endian (toggle_data.flatMap (fun p => u32_bytes big_endian p.count))
      = toggle_data.map (fun p => p.count) := by
  refine ⟨?_, flat_length _ _, decode_flat _ _ hcount⟩
  unfold save_toggle_data_binary at hok ⊢
  cases fopen_ok with
  | false => simp at hok
  | true =>
    simp only [if_true] at hok ⊢
    rw [save_loop_ok _ _ _ _ _ hok, List.nil_append,
      List.take_of_length_le (by rw [flat_length]; exact hflush)]

/-- The result and the file of `save_toggle_data_binary` depend on the points
only through their `count` fields. -/
theorem save_ignores_time_step (big_endian fopen_ok : Bool) (write_ok : Nat → Bool)
    (flushed : Nat) (toggle_data other : List toggle_data_point_t)
    (hother : other.map (fun p => p.count) = toggle_data.map (fun p => p.count)) :
    save_toggle_data_binary big_endian fopen_ok write_ok flushed other
      = save_toggle_data_binary big_endian fopen_ok write_ok flushed toggle_data := by
  have key : ∀ (a b : List toggle_data_point_t) (i : Nat) (out : List Nat),
      a.map (fun p => p.count) = b.map (fun p => p.count) →
      save_loop big_endian write_ok a i out = save_loop big_endian write_ok b i out := by
    intro a
    induction a with
    | nil =>
      intro b i out h
      cases b with
      | nil => rfl
      | cons q qs => simp at h
    | cons p ps ih =>
      intro b i out h
      cases b with
      | nil => simp at h
      | cons q qs =>
        simp only [List.map_cons, List.cons.injEq] at h
        unfold save_loop
        rw [h.1, ih qs (i + 1) _ h.2]
  unfold save_toggle_data_binary
  rw [key other toggle_data 0 [] hother]

/-- C11 (the code at the failing input). Two points are saved on a
little-endian host; the file opens and both `fwrite` calls return 1, but only
the first 4 bytes of the stream reach the file (the flush at `fclose` fails
after them). `save_toggle_data_binary` returns 0, and the file, decoded in
4-byte groups, is `[3]`, not the counts `[3, 258]`. -/
theorem encoder_round_trip_lost :
    save_toggle_data_binary false true (fun _ => true) 4 [⟨3, 5⟩, ⟨258, 10⟩]
      = (0, some [3, 0, 0, 0]) ∧
    decode_counts false [3, 0, 0, 0] = [3] ∧
    [(⟨3, 5⟩ : toggle_data_point_t), ⟨258, 10⟩].map (fun p => p.count) = [3, 258] := by
  decide

/-- C12 (the code at the failing input). Two points are saved on a big-endian
host; the file opens and both `fwrite` calls return 1, but no byte of the
stream reaches the file (the flush at `fclose` fails). `save_toggle_data_binary`
returns 0, the value of a successful save, and the file holds 0 bytes, not
`4 * 2`. -/
theorem encoder_success_empty_file :
    save_toggle_data_binary true true (fun _ => true) 0 [⟨3, 5⟩, ⟨258, 10⟩]
      = (0, some []) ∧
    ([] : List Nat).length ≠ 4 * [(⟨3, 5⟩ : toggle_data_point_t), ⟨258, 10⟩].length := by
  decide

/-! ## The order of the emitted points -/

theorem new_time_cyc_le (env : run_env) (st : vcd_state) : st.cyc ≤ (new_time env st).cyc := by
  unfold new_time
  by_cases hadv : st.ncyc > st.cyc
  · rw [if_pos hadv]
    split <;> cases env.dump_tim <;> exact le_of_lt hadv
  · rw [if_neg hadv]

theorem to_uint32_eq (x : Int) (h0 : 0 ≤ x) (h1 : x < 2 ^ 32) : ((to_uint32 x : Nat) : Int) = x := by
  unfold to_uint32
  rw [Int.emod_eq_of_lt h0 h1, Int.toNat_of_nonneg h0]

/-- What the change loop maintains about the order of the points. -/
theorem new_time_ascending (env : run_env) (st : vcd_state)
    (hb : ∀ p ∈ st.toggle_buffer, (p.time_step : Int) < st.cyc)
    (h : st.cyc ≤ 2 ^ 32 → (st.toggle_buffer.map (fun p => p.time_step)).Pairwise (· < ·)) :
    (new_time env st).cyc ≤ 2 ^ 32 →
      ((new_time env st).toggle_buffer.map (fun p => p.time_step)).Pairwise (· < ·) := by
  intro hle
  have hmono := new_time_cyc_le env st
  have hold := h (le_trans hmono hle)
  unfold new_time at hle ⊢
  by_cases hadv : st.ncyc > st.cyc
  · rw [if_pos hadv] at hle ⊢
    by_cases hemit : st.cyc ≥ 0 ∧ st.hd ≥ env.thresh
    · rw [if_pos hemit] at hle ⊢
      have hn : st.ncyc ≤ 2 ^ 32 := by
        revert hle
        cases env.dump_tim <;> exact fun h => h
      have hpt := to_uint32_eq st.cyc hemit.1 (by omega)
      have hgoal : ((st.toggle_buffer ++
          [(⟨to_uint32 st.hd, to_uint32 st.cyc⟩ : toggle_data_point_t)]).map
          (fun p => p.time_step)).Pairwise (· < ·) := by
        rw [List.map_append, List.pairwise_append]
        refine ⟨hold, by simp, ?_⟩
        intro a ha b hb'
        simp only [List.map_cons, List.map_nil, List.mem_singleton] at hb'
        obtain ⟨p, hp, rfl⟩ := List.mem_map.mp ha
        have := hb p hp
        rw [hb']
        omega
      cases env.dump_tim <;> exact hgoal
    · rw [if_neg hemit]
      cases env.dump_tim <;> exact hold
  · rw [if_neg hadv]
    exact hold

theorem change_line_ascending (env : run_env) (st st1 : vcd_state) (buf : List Nat)
    (hstep : change_line env st buf = .ok st1)
    (hb : ∀ p ∈ st.toggle_buffer, (p.time_step : Int) < st.cyc)
    (h : st.cyc ≤ 2 ^ 32 → (st.toggle_buffer.map (fun p => p.time_step)).Pairwise (· < ·)) :
    st1.cyc ≤ 2 ^ 32 → (st1.toggle_buffer.map (fun p => p.time_step)).Pairwise (· < ·) := by
  unfold change_line at hstep
  split at hstep
  · cases hstep; exact h
  · cases hstep; exact new_time_ascending env _ hb h
  · cases hstep; exact h
  · cases hstep; exact h
  · cases hstep; exact h
  · cases hstep
  · rename_i i bits _
    cases hstep
    apply new_time_ascending
    · rw [(cycle_signal_cyc env i bits _).1, (cycle_signal_cyc env i bits _).2,
        (state_update_cyc i bits st).1, (state_update_cyc i bits st).2.1]
      exact hb
    · rw [(cycle_signal_cyc env i bits _).1, (cycle_signal_cyc env i bits _).2,
        (state_update_cyc i bits st).1, (state_update_cyc i bits st).2.1]
      exact h

theorem read_changes_ascending (env : run_env) (lines : List (List Nat)) (st st1 : vcd_state)
    (hrun : read_changes env st lines = .ok st1)
    (hb : ∀ p ∈ st.toggle_buffer, (p.time_step : Int) < st.cyc)
    (h : st.cyc ≤ 2 ^ 32 → (st.toggle_buffer.map (fun p => p.time_step)).Pairwise (· < ·)) :
    st1.cyc ≤ 2 ^ 32 → (st1.toggle_buffer.map (fun p => p.time_step)).Pairwise (· < ·) := by
  induction lines generalizing st with
  | nil =>
    cases hrun
    exact h
  | cons buf rest ih =>
    simp only [read_changes] at hrun
    cases hl : change_line env st buf with
    | error e => rw [hl] at hrun; cases hrun
    | ok s =>
      rw [hl] at hrun
      exact ih s hrun (change_line_points_before env st s buf hl hb)
        (change_line_ascending env st s buf hl hb h)

/-- C13 as stated fails: with time markers 5, `2^32` and `2^32 + 1` the
stored cycle indices of the two emitted points are 5 and 0. -/
theorem time_step_wraps :
    read_vcd wrap_file scenario_timing 1 none = .ok [⟨1, 5⟩, ⟨1, 0⟩] ∧
    ¬ ([(⟨1, 5⟩ : toggle_data_point_t), ⟨1, 0⟩].map (fun p => p.time_step)).Pairwise (· < ·) := by
  refine ⟨rfl, ?_⟩
  decide

/-- C13 (amended). Output order: when the change loop, started in the initial
state, ends with a current cycle of at most `2^32` (every finalized cycle is
below `2^32`), the `time_step` fields of the emitted points are in strictly
ascending order. -/
theorem output_order (env : run_env) (t : tables) (lines : List (List Nat)) (st : vcd_state)
    (hrun : read_changes env (init_state t) lines = .ok st) (hcyc : st.cyc ≤ 2 ^ 32) :
    (st.toggle_buffer.map (fun p => p.time_step)).Pairwise (· < ·) :=
  read_changes_ascending env lines (init_state t) st hrun (by intro p hp; cases hp)
    (fun _ => List.Pairwise.nil) hcyc

/-- Witness of C13 (amended): the scenario followed by `#15`, which emits the
two points of cycles 5 and 10. -/
theorem output_order_witness :
    (read_changes (env_of (build_tables scenario_names scenario_timing) 1 none)
        (init_state (build_tables scenario_names scenario_timing)) scenario_lines_to_15
        = .ok scenario_state_at_15 ∧ scenario_state_at_15.cyc ≤ 2 ^ 32) ∧
    scenario_state_at_15.toggle_buffer = [⟨3, 5⟩, ⟨2, 10⟩] ∧
    (scenario_state_at_15.toggle_buffer.map (fun p => p.time_step)).Pairwise (· < ·) :=
  ⟨⟨rfl, by decide⟩, rfl,
    output_order (env_of (build_tables scenario_names scenario_timing) 1 none)
      (build_tables scenario_names scenario_timing) scenario_lines_to_15 scenario_state_at_15
      rfl (by decide)⟩

/-! ## The threshold and the emitted points -/

/-- C18 (the code at the failing input). On the scenario's trace followed by
`#15`, threshold 1 gives the points (5, 3) and (10, 2), none of which has a
count of 4 or more, yet threshold 4 gives the point (10, 5): the distance 3
of cycle 5, not reset at the boundary, is added to the 2 of cycle 10. -/
theorem threshold_changes_counts :
    read_vcd (scenario_file ++ bytes "#15\n") scenario_timing 1 none = .ok [⟨3, 5⟩, ⟨2, 10⟩] ∧
    [(⟨3, 5⟩ : toggle_data_point_t), ⟨2, 10⟩].filter (fun p => decide (4 ≤ p.count)) = [] ∧
    read_vcd (scenario_file ++ bytes "#15\n") scenario_timing 4 none = .ok [⟨5, 10⟩] := by
  refine ⟨rfl, by decide, rfl⟩

/-! ## Identifiers that share their first three characters -/

/-- C20 (the code at the failing input). With the identifiers `abcd` and
`abce` declared, `var[0]` holds `abcd`, but the bucket of their common hash
holds position 1, so `find_id("abcd")` compares only `var[1]` and returns
`NULL`; the records of `abcd` are rejected and `read_vcd` emits nothing for
the trace in which `abcd` toggles at time 5. -/
theorem find_id_misses_shared_prefix :
    (read_preamble long_id_file.length pre_init long_id_file).map (fun p => p.1.names)
      = .ok long_id_names ∧
    ((build_tables long_id_names scenario_timing).var.map (fun v => v.id))
      = [bytes "abcd", bytes "abce"] ∧
    find_id_scan (build_tables long_id_names scenario_timing).var
      (build_tables long_id_names scenario_timing).id_hash (bytes "abcd") = (.not_found, [1]) ∧
    find_id (build_tables long_id_names scenario_timing).var
      (build_tables long_id_names scenario_timing).id_hash (bytes "abce") = .found 1 ∧
    read_vcd long_id_file scenario_timing 1 none = .ok [] := by
  refine ⟨rfl, by decide, by decide, by decide, rfl⟩

/-! ## The layout of the state arena -/

theorem var_table_build (names : List (List Nat)) (timing : List Nat) :
    var_table (build_tables names timing)
      = assign_state (fold_loop (qsort_offs names) 0 ⟨[], 0, 0, false⟩).var 0 := by
  simp only [var_table, build_tables]
  exact List.take_left' rfl

theorem assign_state_widths (vs : List var_t) (s : Nat) :
    (assign_state vs s).map (fun v => v.d) = vs.map (fun v => v.d) := by
  induction vs generalizing s with
  | nil => rfl
  | cons v vs ih => simp [assign_state, ih]

theorem assign_state_offset (vs : List var_t) (s0 i : Nat) (v : var_t)
    (h : (assign_state vs s0)[i]? = some v) :
    v.s = s0 + (((assign_state vs s0).take i).map (fun v => v.d)).sum := by
  induction vs generalizing s0 i with
  | nil => simp [assign_state] at h
  | cons w vs ih =>
    cases i with
    | zero =>
      simp only [assign_state, List.getElem?_cons_zero, Option.some.injEq] at h
      subst h
      simp
    | succ i =>
      simp only [assign_state, List.getElem?_cons_succ] at h
      have := ih (s0 + w.d) i h
      simp only [assign_state, List.take_succ_cons, List.map_cons, List.sum_cons]
      omega

theorem sum_take_le (l : List Nat) (i j x : Nat) (hij : i < j) (hx : l[i]? = some x) :
    (l.take i).sum + x ≤ (l.take j).sum := by
  induction l generalizing i j with
  | nil => simp at hx
  | cons a l ih =>
    cases j with
    | zero => omega
    | succ j =>
      cases i with
      | zero =>
        simp only [List.getElem?_cons_zero, Option.some.injEq] at hx
        subst hx
        simp
      | succ i =>
        simp only [List.getElem?_cons_succ] at hx
        have := ih i j (by omega) hx
        simp only [List.take_succ_cons, List.sum_cons]
        omega

theorem slices_flatten (vs : List var_t) (s0 n : Nat)
    (h : s0 + (vs.map (fun v => v.d)).sum ≤ n) :
    ((assign_state vs s0).map (state_slice (List.replicate n 120))).flatten
      = List.replicate (vs.map (fun v => v.d)).sum 120 := by
  induction vs generalizing s0 with
  | nil => rfl
  | cons w vs ih =>
    simp only [List.map_cons, List.sum_cons] at h
    simp only [assign_state, List.map_cons, List.flatten_cons, List.sum_cons]
    rw [ih (s0 + w.d) (by omega)]
    simp only [state_slice, List.drop_replicate, List.take_replicate]
    rw [Nat.min_eq_left (by omega), List.append_replicate_replicate]

/-- C17. State Arena layout: for the tables built from any name records, the
arena has as many bytes as the sum of the table's widths, all `'x'` at the
start of the change loop; the state slice of variable `i` starts at the sum
of the widths of the variables before it (and has its width as length); so
slices of different variables do not overlap, and the slices in table order,
put end to end, are the whole arena. -/
theorem arena_layout (names : List (List Nat)) (timing : List Nat) :
    (init_state (build_tables names timing)).state
      = List.replicate ((var_table (build_tables names timing)).map (fun v => v.d)).sum 120 ∧
    (∀ i v, (var_table (build_tables names timing))[i]? = some v →
      v.s = (((var_table (build_tables names timing)).take i).map (fun v => v.d)).sum ∧
      (state_slice (init_state (build_tables names timing)).state v).length = v.d) ∧
    (∀ (i j : Nat) (vi vj : var_t), i < j → (var_table (build_tables names timing))[i]? = some vi →
      (var_table (build_tables names timing))[j]? = some vj → vi.s + vi.d ≤ vj.s) ∧
    ((var_table (build_tables names timing)).map
        (state_slice (init_state (build_tables names timing)).state)).flatten
      = (init_state (build_tables names timing)).state := by
  have hsz : (build_tables names timing).st_sz
      = ((var_table (build_tables names timing)).map (fun v => v.d)).sum := by
    rw [var_table_build, assign_state_widths]
    exact fold_loop_st_sz _ 0 ⟨[], 0, 0, false⟩ rfl
  have hstate : (init_state (build_tables names timing)).state
      = List.replicate ((var_table (build_tables names timing)).map (fun v => v.d)).sum 120 := by
    rw [← hsz]
    rfl
  have hoff : ∀ i v, (var_table (build_tables names timing))[i]? = some v →
      v.s = (((var_table (build_tables names timing)).take i).map (fun v => v.d)).sum := by
    intro i v hv
    rw [var_table_build] at hv ⊢
    have := assign_state_offset _ 0 i v hv
    omega
  have hdis : ∀ (i j : Nat) (vi vj : var_t), i < j → (var_table (build_tables names timing))[i]? = some vi →
      (var_table (build_tables names timing))[j]? = some vj → vi.s + vi.d ≤ vj.s := by
    intro i j vi vj hij hi hj
    rw [hoff i vi hi, hoff j vj hj, List.map_take, List.map_take]
    exact sum_take_le _ i j vi.d hij (by rw [List.getElem?_map, hi]; rfl)
  refine ⟨hstate, ?_, hdis, ?_⟩
  · intro i v hv
    refine ⟨hoff i v hv, ?_⟩
    have hlt : i < (var_table (build_tables names timing)).length :=
      (List.getElem?_eq_some_iff.mp hv).1
    have hle := sum_take_le ((var_table (build_tables names timing)).map (fun v => v.d)) i
      (var_table (build_tables names timing)).length v.d hlt
      (by rw [List.getElem?_map, hv]; rfl)
    rw [← List.map_take, ← hoff i v hv, ← List.map_take, List.take_length] at hle
    rw [hstate]
    simp only [state_slice, List.drop_replicate, List.take_replicate, List.length_replicate]
    omega
  · rw [hstate, var_table_build, assign_state_widths]
    exact slices_flatten _ 0 _ (by omega)

/-! ## The fold loop on sorted records -/

theorem strcmp_eq_of_clean (a b : List Nat) (ha : ∀ c ∈ a, c ≠ 0) (hb : ∀ c ∈ b, c ≠ 0)
    (h : strcmp a b = 0) : a = b := by
  induction a generalizing b with
  | nil =>
    cases b with
    | nil => rfl
    | cons y bs =>
      have := hb y (by simp)
      simp only [strcmp] at h
      omega
  | cons x as ih =>
    have hx := ha x (by simp)
    cases b with
    | nil =>
      simp only [strcmp] at h
      omega
    | cons y bs =>
      simp only [strcmp] at h
      by_cases hxy : x = y
      · subst hxy
        rw [if_pos rfl, if_neg hx] at h
        rw [ih bs (fun c hc => ha c (by simp [hc])) (fun c hc => hb c (by simp [hc])) h]
      · rw [if_neg hxy] at h
        omega

theorem var_of_records_keep (pre : List (List Nat)) (s : List Nat) (v : var_t)
    (h : var_of_records pre v) (hne : record_id s ≠ v.id) : var_of_records (pre ++ [s]) v := by
  obtain ⟨s0, h0, hid, hd, hfirst, hn, hu⟩ := h
  have hlt : v.o < pre.length := (List.getElem?_eq_some_iff.mp h0).1
  refine ⟨s0, ?_, hid, hd, ?_, ?_, hu⟩
  · rw [List.getElem?_append_left hlt]
    exact h0
  · intro j s1 hj h1
    rw [List.getElem?_append_left (by omega)] at h1
    exact hfirst j s1 hj h1
  · rw [hn, List.countP_append]
    simp [hne]

theorem var_of_records_bump (pre : List (List Nat)) (s : List Nat) (v : var_t)
    (h : var_of_records pre v) (heq : record_id s = v.id) :
    var_of_records (pre ++ [s]) { v with n := v.n + 1 } := by
  obtain ⟨s0, h0, hid, hd, hfirst, hn, hu⟩ := h
  have hlt : v.o < pre.length := (List.getElem?_eq_some_iff.mp h0).1
  refine ⟨s0, ?_, hid, hd, ?_, ?_, hu⟩
  · show (pre ++ [s])[v.o]? = some s0
    rw [List.getElem?_append_left hlt]
    exact h0
  · intro j s1 hj h1
    rw [List.getElem?_append_left (by exact lt_trans hj hlt)] at h1
    exact hfirst j s1 hj h1
  · show v.n + 1 = (pre ++ [s]).countP (fun s1 => decide (record_id s1 = v.id))
    rw [hn, List.countP_append]
    simp [heq]

theorem var_of_records_new (pre : List (List Nat)) (s : List Nat)
    (h : ∀ s1 ∈ pre, record_id s1 ≠ record_id s) :
    var_of_records (pre ++ [s]) ⟨record_id s, record_width s, 1, pre.length, 0, 0⟩ := by
  refine ⟨s, ?_, rfl, rfl, ?_, ?_, rfl⟩
  · simp
  · intro j s1 hj h1
    have hj' : j < pre.length := hj
    rw [List.getElem?_append_left hj'] at h1
    exact h s1 (List.getElem?_mem h1)
  · show 1 = (pre ++ [s]).countP (fun s1 => decide (record_id s1 = record_id s))
    rw [List.countP_append]
    have : pre.countP (fun s1 => decide (record_id s1 = record_id s)) = 0 := by
      rw [List.countP_eq_zero]
      intro a ha
      simpa using h a ha
    rw [this]
    simp
theorem fold_step_inv (pre : List (List Nat)) (fs : fold_state) (s : List Nat)
    (hinv : fold_inv pre fs.var)
    (hclean : ∀ s1 ∈ pre ++ [s], ∀ c ∈ record_id s1, c ≠ 0)
    (hle : ∀ s1 ∈ pre, strcmp (record_id s1) (record_id s) ≤ 0) :
    fold_inv (pre ++ [s]) (fold_step fs pre.length s).var := by
  obtain ⟨hpw, hmem, hvars⟩ := hinv
  have hvar_rec : ∀ v ∈ fs.var, ∃ s0 ∈ pre, record_id s0 = v.id := by
    intro v hv
    obtain ⟨s0, h0, hid, -⟩ := hvars v hv
    exact ⟨s0, List.getElem?_mem h0, hid⟩
  have hvar_le : ∀ v ∈ fs.var, strcmp v.id (record_id s) ≤ 0 := by
    intro v hv
    obtain ⟨s0, h0, hid⟩ := hvar_rec v hv
    rw [← hid]
    exact hle s0 h0
  have hvar_clean : ∀ v ∈ fs.var, ∀ c ∈ v.id, c ≠ 0 := by
    intro v hv
    obtain ⟨s0, h0, hid⟩ := hvar_rec v hv
    rw [← hid]
    exact hclean s0 (List.mem_append_left _ h0)
  have hs_clean : ∀ c ∈ record_id s, c ≠ 0 := hclean s (by simp)
  -- the case in which a new entry is appended
  have push : (∀ v ∈ fs.var, strcmp v.id (record_id s) < 0) →
      fold_inv (pre ++ [s])
        (fs.var ++ [⟨record_id s, record_width s, 1, pre.length, 0, 0⟩]) := by
    intro hlt
    have hne : ∀ v ∈ fs.var, record_id s ≠ v.id := by
      intro v hv heq
      have := hlt v hv
      rw [← heq, strcmp_self] at this
      omega
    refine ⟨?_, ?_, ?_⟩
    · rw [List.map_append, List.pairwise_append]
      refine ⟨hpw, by simp, ?_⟩
      intro a ha b hb
      obtain ⟨v, hv, rfl⟩ := List.mem_map.mp ha
      simp only [List.map_cons, List.map_nil, List.mem_singleton] at hb
      rw [hb]
      exact hlt v hv
    · intro s1 hs1
      rw [List.map_append]
      rcases List.mem_append.mp hs1 with h1 | h1
      · exact List.mem_append_left _ (hmem s1 h1)
      · rw [List.mem_singleton.mp h1]
        simp
    · intro v hv
      rcases List.mem_append.mp hv with h1 | h1
      · exact var_of_records_keep pre s v (hvars v h1) (hne v h1)
      · rw [List.mem_singleton.mp h1]
        apply var_of_records_new
        intro s1 hs1 heq
        obtain ⟨v1, hv1, hid1⟩ := List.mem_map.mp (hmem s1 hs1)
        exact hne v1 hv1 (by rw [hid1, heq])
  unfold fold_step
  cases hl : fs.var.getLast? with
  | none =>
    have hnil : fs.var = [] := List.getLast?_eq_none_iff.mp hl
    have := push (by rw [hnil]; intro v hv; cases hv)
    simpa [hnil] using this
  | some last =>
    obtain ⟨ys, hys⟩ := List.getLast?_eq_some_iff.mp hl
    have hlast : last ∈ fs.var := by rw [hys]; simp
    by_cases hne : strcmp last.id (record_id s) ≠ 0
    · simp only [if_pos hne]
      apply push
      intro v hv
      have hvle := hvar_le v hv
      have hnz : strcmp v.id (record_id s) ≠ 0 := by
        intro hz
        have heq := strcmp_eq_of_clean _ _ (hvar_clean v hv) hs_clean hz
        rw [hys] at hv hpw
        rcases List.mem_append.mp hv with h1 | h1
        · rw [List.map_append, List.pairwise_append] at hpw
          have h2 := hpw.2.2 v.id (List.mem_map.mpr ⟨v, h1, rfl⟩) last.id (by simp)
          have h3 := hvar_le last hlast
          rw [heq, strcmp_neg last.id (record_id s)] at h2
          omega
        · rw [List.mem_singleton.mp h1] at hz
          exact hne hz
      omega
    · simp only [if_neg hne]
      have heq : last.id = record_id s :=
        strcmp_eq_of_clean _ _ (hvar_clean last hlast) hs_clean (not_not.mp hne)
      have hdrop : fs.var.dropLast = ys := by rw [hys]; simp
      rw [hdrop]
      have hids : (ys ++ [{ last with n := last.n + 1 }]).map (fun v : var_t => v.id)
          = fs.var.map (fun v => v.id) := by
        rw [hys]; simp
      refine ⟨by rw [hids]; exact hpw, ?_, ?_⟩
      · intro s1 hs1
        rw [hids]
        rcases List.mem_append.mp hs1 with h1 | h1
        · exact hmem s1 h1
        · rw [List.mem_singleton.mp h1, ← heq]
          exact List.mem_map.mpr ⟨last, hlast, rfl⟩
      · intro v hv
        rcases List.mem_append.mp hv with h1 | h1
        · have hv' : v ∈ fs.var := by rw [hys]; exact List.mem_append_left _ h1
          apply var_of_records_keep pre s v (hvars v hv')
          intro hc
          rw [hys, List.map_append, List.pairwise_append] at hpw
          have h2 := hpw.2.2 v.id (List.mem_map.mpr ⟨v, h1, rfl⟩) last.id (by simp)
          rw [heq, hc, strcmp_self] at h2
          omega
        · rw [List.mem_singleton.mp h1]
          exact var_of_records_bump pre s last (hvars last hlast) heq.symm

theorem fold_loop_inv (pre rest : List (List Nat)) (fs : fold_state)
    (hinv : fold_inv pre fs.var)
    (hclean : ∀ s1 ∈ pre ++ rest, ∀ c ∈ record_id s1, c ≠ 0)
    (hsorted : (pre ++ rest).Pairwise
      (fun s1 s2 => strcmp (record_id s1) (record_id s2) ≤ 0)) :
    fold_inv (pre ++ rest) (fold_loop rest pre.length fs).var := by
  induction rest generalizing pre fs with
  | nil => simpa [fold_loop] using hinv
  | cons s rest ih =>
    have hstep := fold_step_inv pre fs s hinv
      (fun s1 h1 => hclean s1 (by
        rcases List.mem_append.mp h1 with h | h
        · exact List.mem_append_left _ h
        · exact List.mem_append_right _ (by rw [List.mem_singleton.mp h]; simp)))
      (fun s1 h1 => (List.pairwise_append.mp hsorted).2.2 s1 h1 s (by simp))
    have := ih (pre ++ [s]) (fold_step fs pre.length s) hstep
      (by simpa using hclean) (by simpa using hsorted)
    simpa [fold_loop] using this

theorem record_id_prefix (id rest : List Nat) (hlen : id.length ≤ 7)
    (hc : ∀ c ∈ id, c ≠ 32 ∧ c ≠ 0) : record_id (id ++ 32 :: rest) = id := by
  have hp : ∀ a ∈ id, (fun c : Nat => c != 32 && c != 0) a = true := by
    intro a ha
    have := hc a ha
    simp [this.1, this.2]
  have hlen' : record_id_len (id ++ 32 :: rest) = id.length := by
    unfold record_id_len ID_SZ_MAX
    rw [List.take_append_eq_append_take, List.take_of_length_le (by omega)]
    obtain ⟨k, hk⟩ : ∃ k, 8 - id.length = k + 1 := ⟨7 - id.length, by omega⟩
    rw [hk, List.take_succ_cons, List.takeWhile_append_of_pos hp]
    simp
  unfold record_id
  rw [hlen', List.take_left]

theorem record_id_of_ok7 (x : var_decl) (h : id_ok7 x.id) : record_id x.record = x.id := by
  unfold var_decl.record
  rw [name_record_eq]
  exact record_id_prefix _ _ h.1 (fun c hc => by have := h.2 c hc; omega)

/-- For declarations with identifiers of at most 7 characters in `0x21..0x7E`
the fold loop ends with its invariant on all sorted records. -/
theorem build_fold_inv (decls : List var_decl) (hid : ∀ x ∈ decls, id_ok7 x.id) :
    fold_inv (qsort_offs (decls.map var_decl.record))
      (fold_loop (qsort_offs (decls.map var_decl.record)) 0 ⟨[], 0, 0, false⟩).var := by
  have hmem : ∀ s ∈ qsort_offs (decls.map var_decl.record), ∃ y ∈ decls, s = y.record := by
    intro s hs
    have := (qsort_offs_perm (decls.map var_decl.record)).mem_iff.mp hs
    obtain ⟨y, hy, rfl⟩ := List.mem_map.mp this
    exact ⟨y, hy, rfl⟩
  have hclean : ∀ s1 ∈ [] ++ qsort_offs (decls.map var_decl.record),
      ∀ c ∈ record_id s1, c ≠ 0 := by
    intro s1 h1 c hc
    obtain ⟨y, hy, rfl⟩ := hmem s1 (by simpa using h1)
    rw [record_id_of_ok7 y (hid y hy)] at hc
    have := (hid y hy).2 c hc
    omega
  have hsorted : ([] ++ qsort_offs (decls.map var_decl.record)).Pairwise
      (fun s1 s2 => strcmp (record_id s1) (record_id s2) ≤ 0) := by
    rw [List.nil_append]
    refine List.Pairwise.imp_of_mem ?_ (qsort_offs_sorted _)
    intro s1 s2 h1 h2 hle
    obtain ⟨y1, hy1, rfl⟩ := hmem s1 h1
    obtain ⟨y2, hy2, rfl⟩ := hmem s2 h2
    rw [record_id_of_ok7 y1 (hid y1 hy1), record_id_of_ok7 y2 (hid y2 hy2)]
    unfold offs_le offs_cmp var_decl.record at hle
    rw [name_record_eq, name_record_eq] at hle
    exact strcmp_record_id _ _ _ _ (fun c hc => by have := (hid y1 hy1).2 c hc; omega)
      (fun c hc => by have := (hid y2 hy2).2 c hc; omega) hle
  have h0 : fold_inv [] (⟨[], 0, 0, false⟩ : fold_state).var := by
    refine ⟨List.Pairwise.nil, ?_, ?_⟩
    · intro s hs
      cases hs
    · intro v hv
      cases hv
  have := fold_loop_inv [] (qsort_offs (decls.map var_decl.record)) ⟨[], 0, 0, false⟩ h0 hclean hsorted
  simpa using this

theorem countP_eq_one_of_nodup (l : List (List Nat)) (a : List Nat) (hn : l.Nodup)
    (ha : a ∈ l) : l.countP (fun b => decide (b = a)) = 1 := by
  induction l with
  | nil => cases ha
  | cons b l ih =>
    rw [List.nodup_cons] at hn
    by_cases hba : b = a
    · subst hba
      have : l.countP (fun c => decide (c = b)) = 0 := by
        rw [List.countP_eq_zero]
        intro c hc
        simp only [decide_eq_true_eq]
        intro hcb
        exact hn.1 (hcb ▸ hc)
      simp [List.countP_cons, this]
    · have hal : a ∈ l := by
        rcases List.mem_cons.mp ha with h | h
        · exact absurd h.symm hba
        · exact h
      simp [List.countP_cons, hba, ih hn.2 hal]

/-- C14. Variable Table is sorted and deduplicated: for a preamble whose
`$var` declarations all have identifiers of at most 7 characters in
`0x21..0x7E`, the identifiers of the built Variable Table are strictly
ascending under `strcmp`; hence no identifier occurs twice, the identifier of
every declaration occurs in the table exactly once, and every identifier in
the table is that of some declaration. -/
theorem var_table_sorted (decls : List var_decl) (timing : List Nat)
    (hid : ∀ x ∈ decls, id_ok7 x.id) :
    ((var_table (build_tables (decls.map var_decl.record) timing)).map
        (fun v => v.id)).Pairwise (fun a b => strcmp a b < 0) ∧
    ((var_table (build_tables (decls.map var_decl.record) timing)).map
        (fun v => v.id)).Nodup ∧
    (∀ x ∈ decls,
      ((var_table (build_tables (decls.map var_decl.record) timing)).map
        (fun v => v.id)).countP (fun a => decide (a = x.id)) = 1) ∧
    (∀ a ∈ (var_table (build_tables (decls.map var_decl.record) timing)).map (fun v => v.id),
      ∃ x ∈ decls, x.id = a) := by
  obtain ⟨hpw, hmem, hvars⟩ := build_fold_inv decls hid
  rw [var_table_build, assign_state_ids]
  have hnodup : ((fold_loop (qsort_offs (decls.map var_decl.record)) 0 ⟨[], 0, 0, false⟩).var.map
      (fun v => v.id)).Nodup := by
    refine List.Pairwise.imp ?_ hpw
    intro a b hab heq
    rw [heq, strcmp_self] at hab
    omega
  refine ⟨hpw, hnodup, ?_, ?_⟩
  · intro x hx
    apply countP_eq_one_of_nodup _ _ hnodup
    rw [← record_id_of_ok7 x (hid x hx)]
    apply hmem
    exact (qsort_offs_perm _).mem_iff.mpr (List.mem_map.mpr ⟨x, hx, rfl⟩)
  · intro a ha
    obtain ⟨v, hv, rfl⟩ := List.mem_map.mp ha
    obtain ⟨s0, h0, hid0, -⟩ := hvars v hv
    have := (qsort_offs_perm (decls.map var_decl.record)).mem_iff.mp (List.getElem?_mem h0)
    obtain ⟨y, hy, rfl⟩ := List.mem_map.mp this
    exact ⟨y, hy, by rw [← hid0, record_id_of_ok7 y (hid y hy)]⟩

/-- Witness of C14: the scenario's declarations. -/
theorem var_table_sorted_witness :
    (∀ x ∈ scenario_decls, id_ok7 x.id) ∧
    ((var_table (build_tables (scenario_decls.map var_decl.record) scenario_timing)).map
        (fun v => v.id)).Pairwise (fun a b => strcmp a b < 0) :=
  ⟨by decide, (var_table_sorted scenario_decls scenario_timing (by decide)).1⟩

/-! ## The width read back from a name record -/

theorem digits_val_dec_digits (fuel n : Nat) (acc tail : List Nat) (h : n < 10 ^ fuel) :
    digits_val (dec_digits fuel n acc ++ tail) 0 = digits_val (acc ++ tail) n := by
  induction fuel generalizing n acc with
  | zero =>
    have : n = 0 := by simpa using h
    subst this
    rfl
  | succ fuel ih =>
    unfold dec_digits
    by_cases hn : n < 10
    · rw [if_pos hn]
      simp only [List.cons_append, digits_val]
      rw [if_pos (by omega)]
      congr 1
      omega
    · rw [if_neg hn]
      rw [ih (n / 10) _ (by rw [pow_succ] at h; omega)]
      simp only [List.cons_append, digits_val]
      rw [if_pos (by omega)]
      congr 1
      omega

theorem dec_digits_head (fuel n : Nat) (acc : List Nat) :
    ∃ c tl, dec_digits (fuel + 1) n acc = c :: tl ∧ 48 ≤ c ∧ c ≤ 57 := by
  induction fuel generalizing n acc with
  | zero =>
    unfold dec_digits
    by_cases hn : n < 10
    · rw [if_pos hn]
      exact ⟨48 + n, acc, rfl, by omega, by omega⟩
    · rw [if_neg hn]
      exact ⟨48 + n % 10, acc, rfl, by omega, by omega⟩
  | succ fuel ih =>
    unfold dec_digits
    by_cases hn : n < 10
    · rw [if_pos hn]
      exact ⟨48 + n, acc, rfl, by omega, by omega⟩
    · rw [if_neg hn]
      exact ih (n / 10) _

/-- The function `atoi` reads back the width that `" %d "` printed. -/
theorem atoi_fmt_width (d : Nat) (nam : List Nat) (hd : d < 2 ^ 31) :
    atoi (fmt_width d ++ nam) = d := by
  obtain ⟨c, tl, hdig, hc1, hc2⟩ := dec_digits_head 19 d []
  have hval := digits_val_dec_digits 20 d [] (32 :: nam) (by omega)
  have hv32 : digits_val ([] ++ 32 :: nam) d = d := by
    simp [digits_val]
  rw [hv32, hdig] at hval
  have hsp : isspace c = false := by
    unfold isspace
    have h1 : ¬ c = 32 := by omega
    have h2 : ¬ (9 ≤ c ∧ c ≤ 13) := by omega
    simp [h1]
    omega
  have hdrop : (fmt_width d ++ nam).dropWhile isspace = c :: (tl ++ 32 :: nam) := by
    have h32 : isspace 32 = true := by decide
    unfold fmt_width
    rw [hdig]
    simp only [List.cons_append, List.append_assoc, List.dropWhile_cons, h32, hsp, if_true,
      Bool.false_eq_true, if_false, List.singleton_append, List.nil_append]
  unfold atoi strtoll
  rw [hdrop]
  have hres : (min ((digits_val (c :: (tl ++ 32 :: nam)) 0 : Nat) : Int) (2 ^ 63 - 1)) = (d : Int) := by
    have : digits_val (c :: (tl ++ 32 :: nam)) 0 = d := by simpa using hval
    rw [this]
    omega
  split
  · rename_i r heq
    simp only [List.cons.injEq] at heq
    omega
  · rename_i r heq
    simp only [List.cons.injEq] at heq
    omega
  · rw [hres]
    unfold to_int32
    omega

theorem record_id_len_prefix (id rest : List Nat) (hlen : id.length ≤ 7)
    (hc : ∀ c ∈ id, c ≠ 32 ∧ c ≠ 0) : record_id_len (id ++ 32 :: rest) = id.length := by
  have hp : ∀ a ∈ id, (fun c : Nat => c != 32 && c != 0) a = true := by
    intro a ha
    have := hc a ha
    simp [this.1, this.2]
  unfold record_id_len ID_SZ_MAX
  rw [List.take_append_eq_append_take, List.take_of_length_le (by omega)]
  obtain ⟨k, hk⟩ : ∃ k, 8 - id.length = k + 1 := ⟨7 - id.length, by omega⟩
  rw [hk, List.take_succ_cons, List.takeWhile_append_of_pos hp]
  simp

theorem record_width_of_ok7 (x : var_decl) (h : id_ok7 x.id) (hd : x.d < 2 ^ 31) :
    record_width x.record = x.d := by
  unfold record_width var_decl.record
  rw [name_record_eq, record_id_len_prefix _ _ h.1 (fun c hc => by have := h.2 c hc; omega),
    List.drop_left]
  have := atoi_fmt_width x.d x.nam hd
  unfold fmt_width at this
  simp only [List.cons_append, List.append_assoc] at this ⊢
  rw [this]
  rfl

/-! ## The width kept for an identifier declared with several widths -/

theorem assign_state_mem (vs : List var_t) (s : Nat) (v : var_t) (hv : v ∈ assign_state vs s) :
    ∃ w ∈ vs, v.id = w.id ∧ v.d = w.d ∧ v.n = w.n ∧ v.o = w.o ∧ v.u = w.u := by
  induction vs generalizing s with
  | nil => cases hv
  | cons a vs ih =>
    simp only [assign_state, List.mem_cons] at hv
    rcases hv with hv | hv
    · exact ⟨a, by simp, by rw [hv], by rw [hv], by rw [hv], by rw [hv], by rw [hv]⟩
    · obtain ⟨w, hw, h⟩ := ih (s + a.d) hv
      exact ⟨w, by simp [hw], h⟩

theorem mem_assign_state (vs : List var_t) (s : Nat) (w : var_t) (hw : w ∈ vs) :
    ∃ v ∈ assign_state vs s, v.id = w.id ∧ v.d = w.d ∧ v.n = w.n ∧ v.o = w.o ∧ v.u = w.u := by
  induction vs generalizing s with
  | nil => cases hw
  | cons a vs ih =>
    rcases List.mem_cons.mp hw with h | h
    · subst h
      exact ⟨{ w with s := s }, by simp [assign_state], rfl, rfl, rfl, rfl, rfl⟩
    · obtain ⟨v, hv, hh⟩ := ih (s + a.d) h
      exact ⟨v, by simp [assign_state, hv], hh⟩

/-- C16 as stated fails: `!` is declared with width 2 and then with width 16,
and the Variable built for `!` has width 16, the width of the second
declaration in the file. -/
theorem width_not_first_in_file :
    (read_preamble mismatch_preamble.length pre_init mismatch_preamble).map
        (fun p => p.1.names) = .ok (mismatch_decls.map var_decl.record) ∧
    (var_table (build_tables (mismatch_decls.map var_decl.record) scenario_timing)).map
        (fun v => (v.id, v.d)) = [(bytes "!", 16)] ∧
    mismatch_decls.head?.map (fun x => x.d) = some 2 := by
  refine ⟨rfl, by decide, by decide⟩

/-- C16 (amended). Width on mismatch: for declarations with identifiers of at
most 7 characters in `0x21..0x7E` and widths below `2^31`, the Variable built
for the identifier of a declaration has the width of that declaration of the
identifier whose name record `<id> <width> <name>` comes first in the sorted
order: the record that `offs_cmp` puts before those of all other declarations
of the identifier. -/
theorem width_of_sorted_first (decls : List var_decl) (timing : List Nat)
    (hid : ∀ x ∈ decls, id_ok7 x.id) (hd : ∀ x ∈ decls, x.d < 2 ^ 31)
    (x : var_decl) (hx : x ∈ decls) :
    ∃ v ∈ var_table (build_tables (decls.map var_decl.record) timing), v.id = x.id ∧
      ∃ y ∈ decls, y.id = x.id ∧ v.d = y.d ∧
        ∀ z ∈ decls, z.id = x.id → offs_le y.record z.record := by
  obtain ⟨hpw, hmem, hvars⟩ := build_fold_inv decls hid
  have hxs : x.record ∈ qsort_offs (decls.map var_decl.record) :=
    (qsort_offs_perm _).mem_iff.mpr (List.mem_map.mpr ⟨x, hx, rfl⟩)
  have hin := hmem x.record hxs
  rw [record_id_of_ok7 x (hid x hx)] at hin
  obtain ⟨w, hw, hwid⟩ := List.mem_map.mp hin
  obtain ⟨v, hv, hvid, hvd, -⟩ := mem_assign_state _ 0 w hw
  obtain ⟨s0, h0, hid0, hd0, hfirst, -⟩ := hvars w hw
  have hs0 := (qsort_offs_perm (decls.map var_decl.record)).mem_iff.mp (List.getElem?_mem h0)
  obtain ⟨y, hy, rfl⟩ := List.mem_map.mp hs0
  rw [record_id_of_ok7 y (hid y hy)] at hid0
  rw [record_width_of_ok7 y (hid y hy) (hd y hy)] at hd0
  refine ⟨v, by rw [var_table_build]; exact hv, by rw [hvid, hwid], y, hy,
    by rw [hid0, hwid], by rw [hvd, hd0], ?_⟩
  intro z hz hzid
  have hzs : z.record ∈ qsort_offs (decls.map var_decl.record) :=
    (qsort_offs_perm _).mem_iff.mpr (List.mem_map.mpr ⟨z, hz, rfl⟩)
  obtain ⟨j, hj⟩ := List.getElem?_of_mem hzs
  obtain ⟨hjlt, hjget⟩ := List.getElem?_eq_some_iff.mp hj
  obtain ⟨holt, hoget⟩ := List.getElem?_eq_some_iff.mp h0
  rcases Nat.lt_trichotomy j w.o with hlt | heq | hgt
  · exfalso
    apply hfirst j z.record hlt hj
    rw [record_id_of_ok7 z (hid z hz), hzid, hwid]
  · subst heq
    rw [hj] at h0
    have hzy : z.record = y.record := Option.some.inj h0
    unfold offs_le offs_cmp
    rw [hzy, strcmp_self]
  · have := (List.pairwise_iff_getElem.mp (qsort_offs_sorted (decls.map var_decl.record)))
      w.o j holt hjlt hgt
    rw [hoget, hjget] at this
    exact this

/-- Witness of C16 (amended): the two declarations of `!`. -/
theorem width_of_sorted_first_witness :
    ((∀ x ∈ mismatch_decls, id_ok7 x.id) ∧ (∀ x ∈ mismatch_decls, x.d < 2 ^ 31) ∧
      (⟨bytes "!", 2, bytes "top.a"⟩ : var_decl) ∈ mismatch_decls) ∧
    ∃ v ∈ var_table (build_tables (mismatch_decls.map var_decl.record) scenario_timing),
      v.id = bytes "!" ∧
      ∃ y ∈ mismatch_decls, y.id = bytes "!" ∧ v.d = y.d ∧
        ∀ z ∈ mismatch_decls, z.id = bytes "!" → offs_le y.record z.record :=
  ⟨⟨by decide, by decide, by decide⟩,
    width_of_sorted_first mismatch_decls scenario_timing (by decide) (by decide)
      ⟨bytes "!", 2, bytes "top.a"⟩ (by decide)⟩

/-! ## The selection of the timing signal -/

theorem takeWhile_append_stop (p : Nat → Bool) (l r : List Nat) (x : Nat) (hx : p x = false) :
    (l ++ x :: r).takeWhile p = l.takeWhile p := by
  induction l with
  | nil => simp [List.takeWhile_cons, hx]
  | cons a l ih =>
    simp only [List.cons_append, List.takeWhile_cons]
    split
    · rw [ih]
    · rfl

theorem new_time_ncyc (env : run_env) (st : vcd_state) : (new_time env st).ncyc = st.ncyc := by
  unfold new_time
  split
  · split <;> cases env.dump_tim <;> rfl
  · rfl

/-- Two declarations whose identifiers agree in their first 8 bytes: the
fold compares the unterminated field of the first with the second, the
`strcmp` runs past the field, and the model stops the run. -/
theorem equal_long_ids_overrun :
    (read_preamble long8_preamble.length pre_init long8_preamble).map (fun p => p.1.names)
      = .ok [bytes "abcdefgh 1 x", bytes "abcdefgh 1 y"] ∧
    (build_tables [bytes "abcdefgh 1 x", bytes "abcdefgh 1 y"] (bytes "y")).id_overrun = true ∧
    read_vcd (long8_preamble ++ bytes "#0\n") (bytes "y") 1 none = .error .id_overrun := by
  refine ⟨rfl, by decide, rfl⟩

/-- A preamble line with 17 tokens: the tokenizer stores the 17th at
`tok[16]`, past the array, and the model stops the run. -/
theorem seventeen_tokens_overrun :
    tokenize (bytes "a b c d e f g h i j k l m n o p\n")
      = some [bytes "a", bytes "b", bytes "c", bytes "d", bytes "e", bytes "f", bytes "g",
          bytes "h", bytes "i", bytes "j", bytes "k", bytes "l", bytes "m", bytes "n",
          bytes "o", bytes "p"] ∧
    tokenize (bytes "a b c d e f g h i j k l m n o p q\n") = none ∧
    read_vcd (bytes "a b c d e f g h i j k l m n o p q\n" ++ scenario_file) scenario_timing 1
      none = .error .tok_overrun := by
  refine ⟨by decide, by decide, rfl⟩

/-- C30. Hash stays in the index: for every identifier string (any bytes, the
empty string included) `id_hash3(id)` is a natural number below `96*96*96`,
the number `ID_HASH_MAX` of entries of `id_hash`. -/
theorem hash_in_index (id : List Nat) :
    0 ≤ (id_hash3 id : Int) ∧ id_hash3 id < 96 * 96 * 96 ∧ ID_HASH_MAX = 96 * 96 * 96 := by
  refine ⟨Int.ofNat_nonneg _, ?_, rfl⟩
  unfold id_hash3
  simp only
  split_ifs <;> omega

theorem id_hash3_take (a : List Nat) : id_hash3 a = id_hash3 (a.take 3) := by
  match a with
  | [] => rfl
  | [_] => rfl
  | [_, _] => rfl
  | x :: y :: z :: r =>
    simp [id_hash3, char_at]

theorem id_hash3_short_inj (a b : List Nat) (ha : ∀ c ∈ a, 0x21 ≤ c ∧ c ≤ 0x7E)
    (hb : ∀ c ∈ b, 0x21 ≤ c ∧ c ≤ 0x7E) (hla : a.length ≤ 3) (hlb : b.length ≤ 3)
    (h : id_hash3 a = id_hash3 b) : a = b := by
  have hzero : id_hash3 [] = 0 := rfl
  cases a with
  | nil =>
    cases b with
    | nil => rfl
    | cons p bs =>
      have hpos := id_hash3_pos (p :: bs) ⟨by simp, hlb, hb⟩
      rw [← h, hzero] at hpos
      omega
  | cons x as =>
    cases b with
    | nil =>
      have hpos := id_hash3_pos (x :: as) ⟨by simp, hla, ha⟩
      rw [h, hzero] at hpos
      omega
    | cons p bs =>
      exact id_hash3_inj _ _ ⟨by simp, hla, ha⟩ ⟨by simp, hlb, hb⟩ h

/-- C27. Hash discriminates exactly the first three characters: two
identifiers made of characters in `0x21..0x7E` have the same `id_hash3`
exactly when their first three characters agree (the whole identifier when it
is shorter), so an identifier of fewer than three characters shares its hash
only with itself, and `id_hash3` is injective on identifiers of at most three
characters. -/
theorem hash_first_three (a b : List Nat) (ha : ∀ c ∈ a, 0x21 ≤ c ∧ c ≤ 0x7E)
    (hb : ∀ c ∈ b, 0x21 ≤ c ∧ c ≤ 0x7E) :
    (id_hash3 a = id_hash3 b ↔ a.take 3 = b.take 3) ∧
    (a.length < 3 → (id_hash3 a = id_hash3 b ↔ a = b)) ∧
    (a.length ≤ 3 → b.length ≤ 3 → id_hash3 a = id_hash3 b → a = b) := by
  have key : id_hash3 a = id_hash3 b ↔ a.take 3 = b.take 3 := by
    constructor
    · intro h
      rw [id_hash3_take a, id_hash3_take b] at h
      exact id_hash3_short_inj _ _ (fun c hc => ha c (List.mem_of_mem_take hc))
        (fun c hc => hb c (List.mem_of_mem_take hc)) (by simp) (by simp) h
    · intro h
      rw [id_hash3_take a, id_hash3_take b, h]
  refine ⟨key, ?_, ?_⟩
  · intro hl
    rw [key, List.take_of_length_le (by omega)]
    constructor
    · intro h
      have hlen : (b.take 3).length = a.length := by rw [← h]
      rw [List.length_take] at hlen
      rw [h, List.take_of_length_le (by omega)]
    · intro h
      rw [← h, List.take_of_length_le (by omega)]
  · intro hla hlb h
    exact id_hash3_short_inj a b ha hb hla hlb h

theorem hash_first_three_witness :
    (id_hash3 (bytes "abcd") = id_hash3 (bytes "abce")
      ↔ (bytes "abcd").take 3 = (bytes "abce").take 3) ∧
    id_hash3 (bytes "abcd") = id_hash3 (bytes "abce") :=
  ⟨(hash_first_three (bytes "abcd") (bytes "abce") (by decide) (by decide)).1, by decide⟩

/-! ## `bin_to_int` -/

theorem to_int64_of_bounds (x : Int) (h0 : 0 ≤ x) (h1 : x < 2 ^ 63) : to_int64 x = x := by
  unfold to_int64
  have h63 : (2 : Int) ^ 63 = 9223372036854775808 := by norm_num
  have h64 : (2 : Int) ^ 64 = 18446744073709551616 := by norm_num
  rw [h63] at h1 ⊢
  rw [h64]
  omega

theorem bin_to_int_loop_snoc (l : List Nat) (c : Nat) (x : Int)
    (hl : ∀ b ∈ l, b = 48 ∨ b = 49) :
    bin_to_int_loop (l ++ [c]) x
      = if c ≠ 48 ∧ c ≠ 49 then -1
        else to_int64 (2 * bin_to_int_loop l x + ((c : Int) - 48)) := by
  induction l generalizing x with
  | nil => rfl
  | cons b l ih =>
    have hb := hl b (by simp)
    have hb1 : ¬(b ≠ 48 ∧ b ≠ 49) := by omega
    rw [List.cons_append, bin_to_int_loop, bin_to_int_loop, if_neg hb1, if_neg hb1]
    exact ih _ (fun b hb => hl b (by simp [hb]))

theorem bin_to_int_loop_bad (l : List Nat) (x : Int) (h : ∃ b ∈ l, b ≠ 48 ∧ b ≠ 49) :
    bin_to_int_loop l x = -1 := by
  induction l generalizing x with
  | nil =>
    obtain ⟨b, hb, _⟩ := h
    cases hb
  | cons c l ih =>
    unfold bin_to_int_loop
    by_cases hc : c ≠ 48 ∧ c ≠ 49
    · rw [if_pos hc]
    · rw [if_neg hc]
      apply ih
      obtain ⟨b, hb, hbad⟩ := h
      rcases List.mem_cons.mp hb with rfl | hb
      · exact absurd hbad hc
      · exact ⟨b, hb, hbad⟩

theorem binary_value_succ (s : List Nat) (d : Nat) :
    binary_value s (d + 1) = 2 * binary_value s d + (char_at s d - 48) := by
  unfold binary_value
  rw [Finset.sum_range_succ, Finset.mul_sum]
  congr 1
  · apply Finset.sum_congr rfl
    intro i hi
    have hi := Finset.mem_range.mp hi
    have : d + 1 - 1 - i = (d - 1 - i) + 1 := by omega
    rw [this, pow_succ]
    ring
  · simp

theorem binary_value_lt (s : List Nat) (d : Nat)
    (h : ∀ i, i < d → char_at s i = 48 ∨ char_at s i = 49) : binary_value s d < 2 ^ d := by
  induction d with
  | zero => simp [binary_value]
  | succ d ih =>
    have h1 := ih (fun i hi => h i (by omega))
    have h2 := h d (by omega)
    rw [binary_value_succ, pow_succ]
    omega

theorem bin_to_int_value (s : List Nat) (d : Nat) (hd : d ≤ 62)
    (h : ∀ i, i < d → char_at s i = 48 ∨ char_at s i = 49) :
    bin_to_int s d = (binary_value s d : Int) := by
  induction d with
  | zero => simp [bin_to_int, bin_to_int_loop, binary_value]
  | succ d ih =>
    have h1 := ih (by omega) (fun i hi => h i (by omega))
    have h2 := h d (by omega)
    have hlt := binary_value_lt s d (fun i hi => h i (by omega))
    have hpow : (2 : Nat) ^ d ≤ 2 ^ 61 := Nat.pow_le_pow_right (by norm_num) (by omega)
    have h61 : (2 : Nat) ^ 61 = 2305843009213693952 := by norm_num
    have h63 : (2 : Int) ^ 63 = 9223372036854775808 := by norm_num
    unfold bin_to_int at h1 ⊢
    rw [List.range_succ, List.map_append, List.map_singleton, bin_to_int_loop_snoc _ _ _ (by
      intro b hb
      obtain ⟨i, hi, rfl⟩ := List.mem_map.mp hb
      exact h i (by have := List.mem_range.mp hi; omega)), h1, binary_value_succ]
    rw [if_neg (by omega)]
    rw [to_int64_of_bounds _ (by omega) (by rw [h63]; omega)]
    rcases h2 with h2 | h2 <;> rw [h2] <;> push_cast <;> omega

/-- C26. Timing value decoding: for `d <= 62`, when the first `d` characters
of `s` are all `0` or `1`, `bin_to_int(s, d)` is the unsigned integer with
`s[0]` as most significant bit, the sum of `bit_i * 2^(d-1-i)`, hence in
`[0, 2^d)`; and for any `d`, when one of the first `d` characters is neither
`0` nor `1`, `bin_to_int(s, d)` is `-1`. -/
theorem bin_to_int_decodes (s : List Nat) (d : Nat) :
    (d ≤ 62 → (∀ i, i < d → char_at s i = 48 ∨ char_at s i = 49) →
      bin_to_int s d = (binary_value s d : Int) ∧ 0 ≤ bin_to_int s d ∧
        bin_to_int s d < 2 ^ d) ∧
    ((∃ i, i < d ∧ char_at s i ≠ 48 ∧ char_at s i ≠ 49) → bin_to_int s d = -1) := by
  constructor
  · intro hd h
    have hv := bin_to_int_value s d hd h
    have hlt := binary_value_lt s d h
    refine ⟨hv, by rw [hv]; exact Int.ofNat_nonneg _, ?_⟩
    rw [hv]
    exact_mod_cast hlt
  · rintro ⟨i, hi, hbad⟩
    unfold bin_to_int
    apply bin_to_int_loop_bad
    exact ⟨char_at s i, List.mem_map.mpr ⟨i, List.mem_range.mpr hi, rfl⟩, hbad⟩

/-! ## The cycle counter -/

theorem new_time_cyc_cases (env : run_env) (st : vcd_state) :
    (st.ncyc ≤ st.cyc ∧ new_time env st = st) ∨
    (st.cyc < st.ncyc ∧ (new_time env st).cyc = st.ncyc) := by
  unfold new_time
  by_cases h : st.ncyc > st.cyc
  · rw [if_pos h]
    refine Or.inr ⟨h, ?_⟩
    cases env.dump_tim <;> rfl
  · rw [if_neg h]
    exact Or.inl ⟨not_lt.mp h, rfl⟩

theorem change_line_cyc (env : run_env) (st st1 : vcd_state) (buf : List Nat)
    (h : change_line env st buf = .ok st1) :
    st.cyc ≤ st1.cyc ∧
    (st1.cyc ≠ st.cyc → st.cyc < st1.ncyc ∧ st1.cyc = st1.ncyc) ∧
    (st1.ncyc ≤ st.cyc → st1.cyc = st.cyc ∧ st1.toggle_buffer = st.toggle_buffer) := by
  have key : ∀ s0 : vcd_state, s0.cyc = st.cyc → s0.toggle_buffer = st.toggle_buffer →
      st1 = new_time env s0 →
      st.cyc ≤ st1.cyc ∧
      (st1.cyc ≠ st.cyc → st.cyc < st1.ncyc ∧ st1.cyc = st1.ncyc) ∧
      (st1.ncyc ≤ st.cyc → st1.cyc = st.cyc ∧ st1.toggle_buffer = st.toggle_buffer) := by
    intro s0 hc hb h1
    have hn := new_time_ncyc env s0
    rcases new_time_cyc_cases env s0 with ⟨hle, heq⟩ | ⟨hlt, heq⟩
    · rw [heq] at h1
      subst h1
      exact ⟨by omega, fun hne => absurd hc hne, fun _ => ⟨hc, hb⟩⟩
    · rw [← h1] at hn heq
      refine ⟨by omega, fun _ => ⟨by omega, by omega⟩, fun hle => by omega⟩
  unfold change_line at h
  split at h
  · cases h
    exact ⟨le_refl _, fun hne => absurd rfl hne, fun _ => ⟨rfl, rfl⟩⟩
  · cases h
    refine key _ ?_ ?_ rfl
    · rfl
    · rfl
  · cases h
    exact ⟨le_refl _, fun hne => absurd rfl hne, fun _ => ⟨rfl, rfl⟩⟩
  · cases h
    exact ⟨le_refl _, fun hne => absurd rfl hne, fun _ => ⟨rfl, rfl⟩⟩
  · cases h
    exact ⟨le_refl _, fun hne => absurd rfl hne, fun _ => ⟨rfl, rfl⟩⟩
  · cases h
  · cases h
    rename_i i bits _
    refine key _ ?_ ?_ rfl
    · rw [(cycle_signal_cyc env i bits _).1, (state_update_cyc i bits st).1]
    · rw [(cycle_signal_cyc env i bits _).2, (state_update_cyc i bits st).2.1]

theorem read_changes_cyc_mono (env : run_env) (lines : List (List Nat)) (st st1 : vcd_state)
    (h : read_changes env st lines = .ok st1) : st.cyc ≤ st1.cyc := by
  induction lines generalizing st with
  | nil =>
    simp only [read_changes] at h
    cases h
    exact le_refl _
  | cons buf rest ih =>
    unfold read_changes at h
    cases hstep : change_line env st buf with
    | error e =>
      rw [hstep] at h
      cases h
    | ok s1 =>
      rw [hstep] at h
      exact le_trans (change_line_cyc env st s1 buf hstep).1 (ih s1 h)

/-- C29. Cycle counter never goes back: `cyc` starts at -1; processing one
line never decreases it; it changes only in a step whose candidate cycle
`ncyc` is strictly greater, and then becomes that candidate; a candidate not
above `cyc` changes neither `cyc` nor the emitted points; and over any
sequence of lines `cyc` never decreases. -/
theorem cycle_never_goes_back (env : run_env) (t : tables) :
    (init_state t).cyc = -1 ∧
    (∀ (st st1 : vcd_state) (buf : List Nat), change_line env st buf = .ok st1 →
      st.cyc ≤ st1.cyc ∧
      (st1.cyc ≠ st.cyc → st.cyc < st1.ncyc ∧ st1.cyc = st1.ncyc) ∧
      (st1.ncyc ≤ st.cyc → st1.cyc = st.cyc ∧ st1.toggle_buffer = st.toggle_buffer)) ∧
    (∀ (pre lines : List (List Nat)) (st st1 : vcd_state),
      read_changes env (init_state t) pre = .ok st → read_changes env st lines = .ok st1 →
      -1 ≤ st.cyc ∧ st.cyc ≤ st1.cyc) :=
  ⟨rfl, fun st st1 buf h => change_line_cyc env st st1 buf h,
    fun pre lines st st1 h1 h2 =>
      ⟨read_changes_cyc_mono env pre (init_state t) st h1,
        read_changes_cyc_mono env lines st st1 h2⟩⟩

/-! ## The composite sort key -/

theorem strcmp_record_sign (a b ta tb : List Nat) (ha : ∀ c ∈ a, 32 < c)
    (hb : ∀ c ∈ b, 32 < c) (hne : a ≠ b) :
    (strcmp (a ++ 32 :: ta) (b ++ 32 :: tb) < 0 ↔ strcmp a b < 0) ∧
    (0 < strcmp (a ++ 32 :: ta) (b ++ 32 :: tb) ↔ 0 < strcmp a b) := by
  induction a generalizing b with
  | nil =>
    cases b with
    | nil => exact absurd rfl hne
    | cons y bs =>
      have hy := hb y (by simp)
      simp only [List.nil_append, List.cons_append, strcmp]
      rw [if_neg (by omega)]
      constructor <;> constructor <;> intro h <;> omega
  | cons x as ih =>
    have hx := ha x (by simp)
    cases b with
    | nil =>
      simp only [List.nil_append, List.cons_append, strcmp]
      rw [if_neg (by omega)]
      constructor <;> constructor <;> intro h <;> omega
    | cons y bs =>
      have hy := hb y (by simp)
      simp only [List.cons_append, strcmp]
      by_cases hxy : x = y
      · subst hxy
        rw [if_pos rfl, if_neg (by omega), if_pos rfl, if_neg (by omega)]
        exact ih bs (fun c hc => ha c (by simp [hc])) (fun c hc => hb c (by simp [hc]))
          (fun h => hne (by rw [h]))
      · rw [if_neg hxy, if_neg hxy]
        exact ⟨Iff.rfl, Iff.rfl⟩

/-- C23 as stated fails: the identifiers `a` and `a\x01` are distinct and hold
no white space, `a` is below `a\x01` in byte-wise order, but the name record of
`a` is above the name record of `a\x01` (a space is above the byte 1). -/
theorem composite_key_control_byte :
    (∀ c ∈ [97], isspace c = false) ∧ (∀ c ∈ [97, 1], isspace c = false) ∧
    strcmp [97] [97, 1] < 0 ∧
    0 < offs_cmp (name_record [97] 1 (bytes "x")) (name_record [97, 1] 1 (bytes "x")) := by
  decide

/-- C23 (amended). Composite sort key respects identifier order: for two name
records whose identifiers are distinct and made of bytes above `0x20` (no
white space and no control character), the comparison `offs_cmp` of the
records has the same sign as the byte-wise comparison of the identifiers; so
the sorted records are in identifier order and the records of one identifier
are contiguous. -/
theorem composite_key_sign (decls : List var_decl) (hid : ∀ x ∈ decls, ∀ c ∈ x.id, 32 < c) :
    (∀ x ∈ decls, ∀ y ∈ decls, x.id ≠ y.id →
      (offs_cmp x.record y.record < 0 ↔ strcmp x.id y.id < 0) ∧
      (0 < offs_cmp x.record y.record ↔ 0 < strcmp x.id y.id)) ∧
    ∃ sorted : List var_decl, sorted.Perm decls ∧
      qsort_offs (decls.map var_decl.record) = sorted.map var_decl.record ∧
      sorted.Pairwise (fun x y => strcmp x.id y.id ≤ 0) ∧
      ∀ (i j k : Nat) (x y z : var_decl), i ≤ j → j ≤ k → sorted[i]? = some x →
        sorted[j]? = some y → sorted[k]? = some z → x.id = z.id → y.id = x.id := by
  have hsign : ∀ x ∈ decls, ∀ y ∈ decls, x.id ≠ y.id →
      (offs_cmp x.record y.record < 0 ↔ strcmp x.id y.id < 0) ∧
      (0 < offs_cmp x.record y.record ↔ 0 < strcmp x.id y.id) := by
    intro x hx y hy hne
    unfold offs_cmp var_decl.record
    rw [name_record_eq, name_record_eq]
    exact strcmp_record_sign _ _ _ _ (hid x hx) (hid y hy) hne
  refine ⟨hsign, decls.insertionSort (fun x y => offs_le x.record y.record),
    List.perm_insertionSort _ _, ?_, ?_⟩
  · unfold qsort_offs
    exact (List.map_insertionSort (fun x y => offs_le x.record y.record) offs_le
      var_decl.record decls (fun a _ b _ => Iff.rfl)).symm
  · have hperm := List.perm_insertionSort (fun x y => offs_le x.record y.record) decls
    have hmem : ∀ x ∈ decls.insertionSort (fun x y => offs_le x.record y.record), x ∈ decls :=
      fun x hx => hperm.mem_iff.mp hx
    have hs : (decls.insertionSort (fun x y => offs_le x.record y.record)).Pairwise
        (fun x y => offs_le x.record y.record) := by
      haveI : IsTotal var_decl (fun x y => offs_le x.record y.record) :=
        ⟨fun x y => by
          unfold offs_le offs_cmp
          have := strcmp_neg x.record y.record
          omega⟩
      haveI : IsTrans var_decl (fun x y => offs_le x.record y.record) :=
        ⟨fun x y z hxy hyz => strcmp_trans _ _ _ hxy hyz⟩
      exact List.sorted_insertionSort _ decls
    have hpw : (decls.insertionSort (fun x y => offs_le x.record y.record)).Pairwise
        (fun x y => strcmp x.id y.id ≤ 0) := by
      refine List.Pairwise.imp_of_mem ?_ hs
      intro x y hx hy hle
      by_cases hxy : x.id = y.id
      · rw [hxy, strcmp_self]
      · have := (hsign x (hmem x hx) y (hmem y hy) hxy).2
        unfold offs_le at hle
        by_contra hcon
        have := this.mpr (by omega)
        omega
    refine ⟨hpw, ?_⟩
    intro i j k x y z hij hjk hx hy hz hxz
    have hle : ∀ (p q : Nat) (u v : var_decl), p ≤ q →
        (decls.insertionSort (fun x y => offs_le x.record y.record))[p]? = some u →
        (decls.insertionSort (fun x y => offs_le x.record y.record))[q]? = some v →
        strcmp u.id v.id ≤ 0 := by
      intro p q u v hpq hu hv
      rcases Nat.lt_or_eq_of_le hpq with hlt | heq
      · obtain ⟨hp, hup⟩ := List.getElem?_eq_some.mp hu
        obtain ⟨hq, hvq⟩ := List.getElem?_eq_some.mp hv
        have := List.pairwise_iff_getElem.mp hpw p q hp hq hlt
        rw [hup, hvq] at this
        exact this
      · subst heq
        rw [hu] at hv
        cases hv
        rw [strcmp_self]
    have h1 := hle i j x y hij hx hy
    have h2 := hle j k y z hjk hy hz
    rw [← hxz] at h2
    have h3 := strcmp_neg x.id y.id
    have hzero : strcmp y.id x.id = 0 := by omega
    exact strcmp_eq_of_clean _ _
      (fun c hc => by have := hid y (hmem y (List.getElem?_mem hy)) c hc; omega)
      (fun c hc => by have := hid x (hmem x (List.getElem?_mem hx)) c hc; omega) hzero

theorem composite_key_sign_witness :
    (∀ x ∈ scenario_decls, ∀ c ∈ x.id, 32 < c) ∧
    ∃ sorted : List var_decl, sorted.Perm scenario_decls ∧
      qsort_offs (scenario_decls.map var_decl.record) = sorted.map var_decl.record ∧
      sorted.Pairwise (fun x y => strcmp x.id y.id ≤ 0) ∧
      ∀ (i j k : Nat) (x y z : var_decl), i ≤ j → j ≤ k → sorted[i]? = some x →
        sorted[j]? = some y → sorted[k]? = some z → x.id = z.id → y.id = x.id :=
  ⟨by decide, (composite_key_sign scenario_decls (by decide)).2⟩

/-! ## The buckets of the identifier index -/

theorem hash_loop_snoc (vs : List var_t) (v : var_t) (i : Nat) (st : Nat × Nat × (Nat → Nat)) :
    hash_loop (vs ++ [v]) i st = hash_step (i + vs.length) v (hash_loop vs i st) := by
  induction vs generalizing i st with
  | nil => rfl
  | cons w vs ih =>
    rw [List.cons_append, hash_loop, hash_loop, ih, List.length_cons]
    congr 1
    omega

theorem hash_step_fst (i : Nat) (v : var_t) (st : Nat × Nat × (Nat → Nat)) :
    (hash_step i v st).1 = id_hash3 v.id ∧ (hash_step i v st).2.1 = i := by
  unfold hash_step
  simp only
  split <;> exact ⟨rfl, rfl⟩

/-- The buckets from the hash of the last variable on hold the position of
the last variable. -/
theorem build_id_hash_last (var : List var_t) (v : var_t) (hv : var.getLast? = some v)
    (h : Nat) (hlo : id_hash3 v.id ≤ h) (hhi : h < ID_HASH_MAX) :
    build_id_hash var h = var.length - 1 := by
  obtain ⟨vs, rfl⟩ : ∃ vs, var = vs ++ [v] := by
    rcases List.eq_nil_or_concat var with rfl | ⟨vs, w, rfl⟩
    · cases hv
    · rw [List.concat_eq_append] at hv
      simp only [List.getLast?_append, List.getLast?_singleton, Option.or_some,
        Option.some.injEq] at hv
      exact ⟨vs, by rw [List.concat_eq_append, hv]⟩
  unfold build_id_hash hash_finish
  rw [hash_loop_snoc]
  have hs := hash_step_fst (0 + vs.length) v (hash_loop vs 0 (0, 0, fun _ => 0))
  rw [hs.1, hs.2, if_pos ⟨hlo, hhi⟩]
  simp

/-- C22 as stated fails: the scenario's table has `var_n = 2`, the hash of its
last variable is below the last bucket, and the last bucket holds 1, the
position of the last variable, not the end position 2. -/
theorem last_bucket_not_var_n :
    (build_tables scenario_names scenario_timing).var_n = 2 ∧
    (∀ v ∈ var_table (build_tables scenario_names scenario_timing),
      id_hash3 v.id < ID_HASH_MAX - 1) ∧
    (build_tables scenario_names scenario_timing).id_hash (ID_HASH_MAX - 1) = 1 := by
  decide

/-- C22 (amended). End of the index: for every non-empty built Variable Table
with `var_n` entries, every bucket whose hash value is at least the hash of
the last Variable holds `var_n - 1`, the position of the last Variable (a
valid position: no bucket holds the end position `var_n`). -/
theorem last_buckets (names : List (List Nat)) (timing : List Nat) (v : var_t)
    (hv : (var_table (build_tables names timing)).getLast? = some v)
    (h : Nat) (hlo : id_hash3 v.id ≤ h) (hhi : h < ID_HASH_MAX) :
    (build_tables names timing).id_hash h = (build_tables names timing).var_n - 1 ∧
    (build_tables names timing).id_hash h < (build_tables names timing).var_n := by
  rw [var_table_build] at hv
  have hne : (assign_state (fold_loop (qsort_offs names) 0 ⟨[], 0, 0, false⟩).var 0).length ≠ 0 := by
    intro h0
    rw [List.length_eq_zero] at h0
    rw [h0] at hv
    cases hv
  have key := build_id_hash_last _ v hv h hlo hhi
  have h1 : (build_tables names timing).id_hash
      = build_id_hash (assign_state (fold_loop (qsort_offs names) 0 ⟨[], 0, 0, false⟩).var 0) := rfl
  have h2 : (build_tables names timing).var_n
      = (assign_state (fold_loop (qsort_offs names) 0 ⟨[], 0, 0, false⟩).var 0).length := rfl
  rw [h1, h2, key]
  exact ⟨rfl, by omega⟩

theorem last_buckets_witness :
    ((var_table (build_tables scenario_names scenario_timing)).getLast?
        = some ⟨bytes "\"", 2, 1, 1, 0, 1⟩ ∧
      id_hash3 (bytes "\"") ≤ 20000 ∧ 20000 < ID_HASH_MAX) ∧
    (build_tables scenario_names scenario_timing).id_hash 20000
      = (build_tables scenario_names scenario_timing).var_n - 1 ∧
    (build_tables scenario_names scenario_timing).id_hash 20000
      < (build_tables scenario_names scenario_timing).var_n :=
  ⟨by decide, last_buckets scenario_names scenario_timing ⟨bytes "\"", 2, 1, 1, 0, 1⟩
    (by decide) 20000 (by decide) (by decide)⟩

/-- C21 (the code at the failing input). With the identifiers `abcd` and
`abce` declared the table has two entries and `var[0]` (`abcd`) is the first
Variable whose hash is at least the hash of `abcd`, but the bucket of that
hash holds position 1: it is a valid position, yet past the first Variable
with that hash. -/
theorem bucket_past_first_match :
    (var_table (build_tables long_id_names scenario_timing)).map (fun v => v.id)
      = [bytes "abcd", bytes "abce"] ∧
    (build_tables long_id_names scenario_timing).var_n = 2 ∧
    (var_table (build_tables long_id_names scenario_timing)).findIdx
      (fun v => decide (id_hash3 (bytes "abcd") ≤ id_hash3 v.id)) = 0 ∧
    (build_tables long_id_names scenario_timing).id_hash (id_hash3 (bytes "abcd")) = 1 := by
  decide

/-! ## The alias counts -/

theorem assign_state_counts (vs : List var_t) (s : Nat) :
    (assign_state vs s).map (fun v => v.n) = vs.map (fun v => v.n) := by
  induction vs generalizing s with
  | nil => rfl
  | cons v vs ih => simp [assign_state, ih]

theorem fold_step_count (fs : fold_state) (i : Nat) (s : List Nat) :
    ((fold_step fs i s).var.map (fun v => v.n)).sum = (fs.var.map (fun v => v.n)).sum + 1 := by
  unfold fold_step
  cases hl : fs.var.getLast? with
  | none => simp
  | some last =>
    simp only
    split
    · simp
    · have hsplit : fs.var = fs.var.dropLast ++ [last] := by
        rcases List.eq_nil_or_concat fs.var with h0 | ⟨vs, w, hw⟩
        · rw [h0] at hl
          cases hl
        · rw [hw, List.concat_eq_append] at hl ⊢
          simp only [List.getLast?_append, List.getLast?_singleton, Option.or_some,
            Option.some.injEq] at hl
          rw [List.dropLast_concat, hl]
      conv_rhs => rw [hsplit]
      simp only [List.map_append, List.sum_append, List.map_cons, List.map_nil, List.sum_cons,
        List.sum_nil]
      omega

theorem fold_loop_count (rest : List (List Nat)) (i : Nat) (fs : fold_state) :
    ((fold_loop rest i fs).var.map (fun v => v.n)).sum
      = (fs.var.map (fun v => v.n)).sum + rest.length := by
  induction rest generalizing i fs with
  | nil => simp [fold_loop]
  | cons s rest ih =>
    rw [fold_loop, ih, fold_step_count, List.length_cons]
    omega

/-- The alias counts of the table add up to the number of name records,
whatever the records. -/
theorem alias_count_sum (names : List (List Nat)) (timing : List Nat) :
    ((var_table (build_tables names timing)).map (fun v => v.n)).sum = names.length := by
  rw [var_table_build, assign_state_counts, fold_loop_count]
  simp [qsort_offs]

/-- C24 as stated fails: the only declaration carries the identifier
`abcdefghi`; the Variable built for it has the identifier `abcdefgh` (the
first 8 bytes) and alias count 1, while no declaration carries the
identifier `abcdefgh`. -/
theorem alias_count_long_identifier :
    (read_preamble long9_preamble.length pre_init long9_preamble).map (fun p => p.1.names)
      = .ok (long9_decls.map var_decl.record) ∧
    (var_table (build_tables (long9_decls.map var_decl.record) scenario_timing)).map
      (fun v => (v.id, v.n)) = [(bytes "abcdefgh", 1)] ∧
    long9_decls.countP (fun x => decide (x.id = bytes "abcdefgh")) = 0 := by
  refine ⟨rfl, by decide, by decide⟩

/-- C24 (amended). Alias counting: for every preamble whose identifiers are
at most 7 characters in `0x21..0x7E`, each Variable's alias count `n` equals
the number of declarations that carry the Variable's identifier, and the
alias counts of the table add up to the number of name records. -/
theorem alias_count (decls : List var_decl) (timing : List Nat)
    (hid : ∀ x ∈ decls, id_ok7 x.id) :
    (∀ v ∈ var_table (build_tables (decls.map var_decl.record) timing),
      v.n = decls.countP (fun x => decide (x.id = v.id))) ∧
    ((var_table (build_tables (decls.map var_decl.record) timing)).map (fun v => v.n)).sum
      = decls.length := by
  refine ⟨?_, by rw [alias_count_sum, List.length_map]⟩
  intro v hv
  rw [var_table_build] at hv
  obtain ⟨w, hw, hid1, _, hn, _, _⟩ := assign_state_mem _ _ v hv
  obtain ⟨_, _, hvars⟩ := build_fold_inv decls hid
  obtain ⟨_, _, _, _, _, hcount, _⟩ := hvars w hw
  rw [hn, hcount, (qsort_offs_perm _).countP_eq, List.countP_map, hid1]
  apply List.countP_congr
  intro x hx
  simp only [Function.comp, decide_eq_true_eq]
  rw [record_id_of_ok7 x (hid x hx)]

theorem alias_count_witness :
    (∀ x ∈ mismatch_decls, id_ok7 x.id) ∧
    (∀ v ∈ var_table (build_tables (mismatch_decls.map var_decl.record) scenario_timing),
      v.n = mismatch_decls.countP (fun x => decide (x.id = v.id))) ∧
    (var_table (build_tables (mismatch_decls.map var_decl.record) scenario_timing)).map
      (fun v => v.n) = [2] :=
  ⟨by decide, (alias_count mismatch_decls scenario_timing (by decide)).1, by decide⟩

/-! ## The state of every variable -/

theorem find_id_loop_static (id : List Nat) (vs ws : List var_t) (i : Nat)
    (h : vs.map (fun v => v.id) = ws.map (fun v => v.id)) :
    find_id_loop id vs i = find_id_loop id ws i := by
  induction vs generalizing ws i with
  | nil =>
    cases ws with
    | nil => rfl
    | cons w ws => simp at h
  | cons v vs ih =>
    cases ws with
    | nil => simp at h
    | cons w ws =>
      simp only [List.map_cons, List.cons.injEq] at h
      obtain ⟨h1, h2⟩ := h
      rw [find_id_loop, find_id_loop, h1, ih ws (i + 1) h2]

theorem key_getElem? (var var1 : List var_t) (h : var.map layout_key = var1.map layout_key)
    (i : Nat) (v : var_t) (hv : var[i]? = some v) :
    ∃ w, var1[i]? = some w ∧ w.id = v.id ∧ w.d = v.d ∧ w.s = v.s := by
  have h1 := congrArg (fun l => l[i]?) h
  simp only [List.getElem?_map, hv, Option.map_some'] at h1
  cases hw : var1[i]? with
  | none =>
    rw [hw] at h1
    cases h1
  | some w =>
    rw [hw] at h1
    simp only [Option.map_some', Option.some.injEq, layout_key, Prod.mk.injEq] at h1
    exact ⟨w, rfl, h1.1.symm, h1.2.1.symm, h1.2.2.symm⟩

theorem key_getD (var var1 : List var_t) (h : var.map layout_key = var1.map layout_key)
    (i : Nat) : (var.getD i var_zero).d = (var1.getD i var_zero).d := by
  rw [List.getD_eq_getElem?_getD, List.getD_eq_getElem?_getD]
  cases hv : var[i]? with
  | none =>
    have hlen : var.length = var1.length := by
      have := congrArg List.length h
      simpa using this
    have h1 : var1[i]? = none := by
      rw [List.getElem?_eq_none_iff] at hv ⊢
      omega
    rw [h1]
  | some v =>
    obtain ⟨w, hw, _, hd, _⟩ := key_getElem? var var1 h i v hv
    rw [hw]
    exact hd.symm

theorem classify_record_static (var var1 : List var_t) (id_hash : Nat → Nat)
    (bits r : List Nat) (h : var.map layout_key = var1.map layout_key) :
    classify_record var id_hash bits r = classify_record var1 id_hash bits r := by
  have hid : var.map (fun v => v.id) = var1.map (fun v => v.id) := by
    have := congrArg (List.map Prod.fst) h
    simpa [List.map_map, layout_key, Function.comp] using this
  have hfind : find_id var id_hash (change_id r) = find_id var1 id_hash (change_id r) := by
    unfold find_id find_id_scan
    rw [find_id_loop_static (change_id r) (var.drop _) (var1.drop _) _ (by
      rw [List.map_drop, List.map_drop, hid])]
  unfold classify_record
  rw [hfind]
  cases find_id var1 id_hash (change_id r) with
  | found i =>
    simp only
    rw [key_getD var var1 h i]
  | not_found => rfl
  | out_of_bounds i => rfl

theorem classify_static (var var1 : List var_t) (id_hash : Nat → Nat) (buf : List Nat)
    (h : var.map layout_key = var1.map layout_key) :
    classify var id_hash buf = classify var1 id_hash buf := by
  unfold classify
  simp only [classify_record_static var var1 id_hash _ _ h]

theorem bump_u_static (var : List var_t) (j : Nat) :
    (bump_u var j).map layout_key = var.map layout_key := by
  apply List.ext_getElem?
  intro i
  unfold bump_u
  rw [List.getElem?_map, List.getElem?_map, List.getElem?_modify]
  cases var[i]? with
  | none => rfl
  | some v =>
    simp only [Option.map_eq_map, Option.map_some', Option.some.injEq]
    split <;> rfl

theorem bump_u_at (var : List var_t) (j : Nat) (v : var_t) (hv : var[j]? = some v) :
    (bump_u var j)[j]? = some { v with u := v.u + 1 } := by
  unfold bump_u
  rw [List.getElem?_modify_eq, hv]
  rfl

theorem bump_u_other (var : List var_t) (i j : Nat) (h : j ≠ i) :
    (bump_u var j)[i]? = var[i]? := by
  unfold bump_u
  exact List.getElem?_modify_ne _ _ h

theorem state_update_arena (j : Nat) (bits : List Nat) (st : vcd_state)
    (hd : bits.length = (st.var.getD j var_zero).d)
    (hin : (st.var.getD j var_zero).s + (st.var.getD j var_zero).d ≤ st.state.length) :
    (state_update j bits st).var = bump_u st.var j ∧
    (state_update j bits st).state
      = st.state.take (st.var.getD j var_zero).s ++ bits ++
          st.state.drop ((st.var.getD j var_zero).s + (st.var.getD j var_zero).d) := by
  obtain ⟨hsplit, hpre, hmid⟩ := arena_split st.state _ _ hin
  by_cases hu : (st.var.getD j var_zero).u > 0
  · have hloop := hamming_loop_spec bits ((st.state.drop (st.var.getD j var_zero).s).take
      (st.var.getD j var_zero).d) (st.state.take (st.var.getD j var_zero).s)
      (st.state.drop ((st.var.getD j var_zero).s + (st.var.getD j var_zero).d)) 0
      (by rw [hmid, hd])
    rw [← hsplit, hpre] at hloop
    rw [state_update_of_pos j bits st hu]
    exact ⟨rfl, by simp only [hloop]⟩
  · have hcpy := memcpy_spec bits ((st.state.drop (st.var.getD j var_zero).s).take
      (st.var.getD j var_zero).d) (st.state.take (st.var.getD j var_zero).s)
      (st.state.drop ((st.var.getD j var_zero).s + (st.var.getD j var_zero).d))
      (by rw [hmid, hd])
    rw [← hsplit, hpre] at hcpy
    rw [state_update_of_zero j bits st hu]
    exact ⟨rfl, by simp only [hcpy]⟩

/-- Writing `bits` over the part `mid` of the arena leaves a slice that does
not overlap `mid` as it was. -/
theorem slice_frame (pre mid bits post : List Nat) (w : var_t)
    (hlen : bits.length = mid.length)
    (hdis : mid.length = 0 ∨ w.s + w.d ≤ pre.length ∨ pre.length + mid.length ≤ w.s) :
    state_slice (pre ++ bits ++ post) w = state_slice (pre ++ mid ++ post) w := by
  rcases hdis with h0 | h1 | h2
  · have hm : mid = [] := List.length_eq_zero.mp h0
    have hb : bits = [] := List.length_eq_zero.mp (by omega)
    rw [hm, hb]
  · unfold state_slice
    rw [List.append_assoc, List.append_assoc, List.drop_append_of_le_length (by omega),
      List.drop_append_of_le_length (by omega),
      List.take_append_of_le_length (by rw [List.length_drop]; omega),
      List.take_append_of_le_length (by rw [List.length_drop]; omega)]
  · unfold state_slice
    have e1 : (pre ++ bits ++ post).drop w.s = post.drop (w.s - (pre.length + mid.length)) := by
      rw [List.drop_append_eq_append_drop,
        List.drop_eq_nil_of_le (by rw [List.length_append]; omega), List.nil_append,
        List.length_append, hlen]
    have e2 : (pre ++ mid ++ post).drop w.s = post.drop (w.s - (pre.length + mid.length)) := by
      rw [List.drop_append_eq_append_drop,
        List.drop_eq_nil_of_le (by rw [List.length_append]; omega), List.nil_append,
        List.length_append]
    rw [e1, e2]

theorem line_bits_none (var : List var_t) (id_hash : Nat → Nat) (i : Nat) (buf : List Nat)
    (h : ∀ j bits, classify var id_hash buf ≠ .value_change j bits) :
    line_bits var id_hash i buf = none := by
  unfold line_bits
  split
  · rename_i j bits hc
    exact absurd hc (h j bits)
  · rfl

/-- What one line of the change loop does to the entry `i` of `var` and to its
state slice. -/
theorem change_line_state (env : run_env) (var0 : List var_t) (st st1 : vcd_state)
    (buf : List Nat)
    (hkey : st.var.map layout_key = var0.map layout_key)
    (hdis : slices_disjoint var0)
    (harena : ∀ v ∈ var0, v.s + v.d ≤ st.state.length)
    (hstep : change_line env st buf = .ok st1) :
    st1.var.map layout_key = var0.map layout_key ∧ st1.state.length = st.state.length ∧
    ∀ i v, st.var[i]? = some v →
      ∃ v1, st1.var[i]? = some v1 ∧ v1.d = v.d ∧
        (line_bits var0 env.id_hash i buf = none →
          v1.u = v.u ∧ state_slice st1.state v1 = state_slice st.state v) ∧
        (∀ bits, line_bits var0 env.id_hash i buf = some bits →
          v1.u = v.u + 1 ∧ state_slice st1.state v1 = bits) := by
  have hcl : classify st.var env.id_hash buf = classify var0 env.id_hash buf :=
    classify_static _ _ _ _ hkey
  have hsame : ∀ s1 : vcd_state, s1.var = st.var → s1.state = st.state →
      (∀ j bits, classify var0 env.id_hash buf ≠ .value_change j bits) →
      s1.var.map layout_key = var0.map layout_key ∧ s1.state.length = st.state.length ∧
      ∀ i v, st.var[i]? = some v →
        ∃ v1, s1.var[i]? = some v1 ∧ v1.d = v.d ∧
          (line_bits var0 env.id_hash i buf = none →
            v1.u = v.u ∧ state_slice s1.state v1 = state_slice st.state v) ∧
          (∀ bits, line_bits var0 env.id_hash i buf = some bits →
            v1.u = v.u + 1 ∧ state_slice s1.state v1 = bits) := by
    intro s1 hv hs hno
    rw [hv, hs]
    refine ⟨hkey, rfl, ?_⟩
    intro i v hiv
    refine ⟨v, hiv, rfl, fun _ => ⟨rfl, rfl⟩, ?_⟩
    intro bits hb
    rw [line_bits_none var0 env.id_hash i buf hno] at hb
    cases hb
  unfold change_line at hstep
  rw [hcl] at hstep
  cases hc : classify var0 env.id_hash buf with
  | blank =>
    rw [hc] at hstep
    cases hstep
    exact hsame st rfl rfl (by rw [hc]; intro j bits h; cases h)
  | time_marker t =>
    rw [hc] at hstep
    cases hstep
    exact hsame _ (new_time_var_state env _).1 (new_time_var_state env _).2
      (by rw [hc]; intro j bits h; cases h)
  | format_error =>
    rw [hc] at hstep
    cases hstep
    exact hsame st rfl rfl (by rw [hc]; intro j bits h; cases h)
  | id_not_found id =>
    rw [hc] at hstep
    cases hstep
    exact hsame st rfl rfl (by rw [hc]; intro j bits h; cases h)
  | wrong_dimension k =>
    rw [hc] at hstep
    cases hstep
    exact hsame st rfl rfl (by rw [hc]; intro j bits h; cases h)
  | undefined_read k =>
    rw [hc] at hstep
    cases hstep
  | value_change j bits =>
    rw [hc] at hstep
    cases hstep
    rw [← hcl] at hc
    obtain ⟨hj, hd⟩ := classify_value_change _ _ _ _ _ hc
    rw [hcl] at hc
    obtain ⟨vj, hvj⟩ : ∃ vj, st.var[j]? = some vj := ⟨st.var[j], List.getElem?_eq_getElem hj⟩
    have hgetD : st.var.getD j var_zero = vj := by
      rw [List.getD_eq_getElem?_getD, hvj]
      rfl
    rw [hgetD] at hd
    obtain ⟨wj, hwj, _, hwjd, hwjs⟩ := key_getElem? _ _ hkey j vj hvj
    have hin : vj.s + vj.d ≤ st.state.length := by
      have := harena wj (List.getElem?_mem hwj)
      omega
    obtain ⟨hvar, hstate⟩ := state_update_arena j bits st (by rw [hgetD]; exact hd)
      (by rw [hgetD]; exact hin)
    rw [hgetD] at hstate
    obtain ⟨hsplit, hpre, hmid⟩ := arena_split st.state vj.s vj.d hin
    have hv1 : (new_time env (cycle_signal env j bits (state_update j bits st))).var
        = bump_u st.var j := by
      rw [(new_time_var_state env _).1, (cycle_signal_var_state env j bits _).1, hvar]
    have hs1 : (new_time env (cycle_signal env j bits (state_update j bits st))).state
        = st.state.take vj.s ++ bits ++ st.state.drop (vj.s + vj.d) := by
      rw [(new_time_var_state env _).2, (cycle_signal_var_state env j bits _).2, hstate]
    rw [hv1, hs1]
    refine ⟨by rw [bump_u_static]; exact hkey, ?_, ?_⟩
    · rw [List.length_append, List.length_append, List.length_take, List.length_drop]
      omega
    · intro i v hiv
      by_cases hji : j = i
      · subst hji
        rw [hvj] at hiv
        cases hiv
        refine ⟨{ vj with u := vj.u + 1 }, bump_u_at _ _ _ hvj, rfl, ?_, ?_⟩
        · intro hnone
          simp [line_bits, hc] at hnone
        · intro b hb
          simp only [line_bits, hc, if_true, Option.some.injEq] at hb
          subst hb
          exact ⟨rfl, slice_of_split _ _ _ { vj with u := vj.u + 1 } hpre.symm hd.symm⟩
      · refine ⟨v, by rw [bump_u_other _ _ _ hji]; exact hiv, rfl, ?_, ?_⟩
        · intro _
          refine ⟨rfl, ?_⟩
          obtain ⟨wi, hwi, _, hwid, hwis⟩ := key_getElem? _ _ hkey i v hiv
          have hd0 := hdis i j wi wj (fun h => hji h.symm) hwi hwj
          have hfr := slice_frame (st.state.take vj.s) ((st.state.drop vj.s).take vj.d) bits
            (st.state.drop (vj.s + vj.d)) v (by rw [hmid, hd]) (by
              rw [hmid, hpre]
              omega)
          rw [← hsplit] at hfr
          exact hfr
        · intro b hb
          simp [line_bits, hc, hji] at hb

theorem accepted_bits_snoc (var : List var_t) (id_hash : Nat → Nat) (i : Nat)
    (hist : List (List Nat)) (buf : List Nat) :
    accepted_bits var id_hash i (hist ++ [buf])
      = accepted_bits var id_hash i hist ++ (line_bits var id_hash i buf).toList := by
  unfold accepted_bits
  rw [List.filterMap_append]
  cases h : line_bits var id_hash i buf with
  | none => simp [List.filterMap_cons, h]
  | some b => simp [List.filterMap_cons, h]

/-- The invariant of the change loop on the entries of `var` and their state
slices, from any state that satisfies it for the lines `hist` read so far. -/
theorem read_changes_state (env : run_env) (var0 : List var_t) (hdis : slices_disjoint var0)
    (lines hist : List (List Nat)) (st st1 : vcd_state)
    (hkey : st.var.map layout_key = var0.map layout_key)
    (harena : ∀ v ∈ var0, v.s + v.d ≤ st.state.length)
    (hinv : ∀ i v, st.var[i]? = some v →
      v.u = (accepted_bits var0 env.id_hash i hist).length ∧
      state_slice st.state v
        = ((accepted_bits var0 env.id_hash i hist).getLast?).getD (List.replicate v.d 120))
    (hrun : read_changes env st lines = .ok st1) :
    st1.var.map layout_key = var0.map layout_key ∧
    ∀ i v, st1.var[i]? = some v →
      v.u = (accepted_bits var0 env.id_hash i (hist ++ lines)).length ∧
      state_slice st1.state v
        = ((accepted_bits var0 env.id_hash i (hist ++ lines)).getLast?).getD
            (List.replicate v.d 120) := by
  induction lines generalizing st hist with
  | nil =>
    cases hrun
    rw [List.append_nil]
    exact ⟨hkey, hinv⟩
  | cons buf rest ih =>
    simp only [read_changes] at hrun
    cases hl : change_line env st buf with
    | error e =>
      rw [hl] at hrun
      cases hrun
    | ok s1 =>
      rw [hl] at hrun
      obtain ⟨hkey1, hlen1, hstep⟩ := change_line_state env var0 st s1 buf hkey hdis harena hl
      have h1 := ih (hist ++ [buf]) s1 hkey1 (by rw [hlen1]; exact harena) (by
        intro i v1 hv1
        have hlen : s1.var.length = st.var.length := by
          have a := congrArg List.length hkey1
          have b := congrArg List.length hkey
          simp only [List.length_map] at a b
          omega
        have hi : i < st.var.length := by
          rw [← hlen]
          exact (List.getElem?_eq_some.mp hv1).1
        obtain ⟨w, hw1, hwd, hnone, hsome⟩ := hstep i st.var[i] (List.getElem?_eq_getElem hi)
        rw [hv1] at hw1
        cases hw1
        obtain ⟨hu, hsl⟩ := hinv i st.var[i] (List.getElem?_eq_getElem hi)
        rw [accepted_bits_snoc]
        cases hb : line_bits var0 env.id_hash i buf with
        | none =>
          obtain ⟨h2, h3⟩ := hnone hb
          simp only [Option.toList, List.append_nil]
          rw [h2, h3, hwd]
          exact ⟨hu, hsl⟩
        | some b =>
          obtain ⟨h2, h3⟩ := hsome b hb
          simp only [Option.toList, List.length_append, List.length_singleton,
            List.getLast?_concat, Option.getD_some]
          rw [h2, h3, hu]
          exact ⟨rfl, rfl⟩) hrun
      rw [List.append_assoc, List.singleton_append] at h1
      exact h1

theorem fold_step_u (fs : fold_state) (i : Nat) (s : List Nat)
    (h : ∀ v ∈ fs.var, v.u = 0) : ∀ v ∈ (fold_step fs i s).var, v.u = 0 := by
  unfold fold_step
  cases hl : fs.var.getLast? with
  | none =>
    intro v hv
    simp only [List.mem_append, List.mem_singleton] at hv
    rcases hv with hv | hv
    · exact h v hv
    · rw [hv]
  | some last =>
    have hlast : last ∈ fs.var := List.mem_of_getLast?_eq_some hl
    simp only
    split
    · intro v hv
      simp only [List.mem_append, List.mem_singleton] at hv
      rcases hv with hv | hv
      · exact h v hv
      · rw [hv]
    · intro v hv
      simp only [List.mem_append, List.mem_singleton] at hv
      rcases hv with hv | hv
      · exact h v (List.mem_of_mem_dropLast hv)
      · rw [hv]
        exact h last hlast

theorem fold_loop_u (rest : List (List Nat)) (i : Nat) (fs : fold_state)
    (h : ∀ v ∈ fs.var, v.u = 0) : ∀ v ∈ (fold_loop rest i fs).var, v.u = 0 := by
  induction rest generalizing i fs with
  | nil => simpa [fold_loop] using h
  | cons s rest ih => exact ih (i + 1) (fold_step fs i s) (fold_step_u fs i s h)

theorem tables_var (names : List (List Nat)) (timing : List Nat) :
    (build_tables names timing).var
      = var_table (build_tables names timing) ++
        List.replicate (names.length - (var_table (build_tables names timing)).length)
          var_zero := by
  rw [var_table_build]
  rfl

theorem tables_u (names : List (List Nat)) (timing : List Nat) :
    ∀ v ∈ (build_tables names timing).var, v.u = 0 := by
  intro v hv
  rw [tables_var, List.mem_append] at hv
  rcases hv with hv | hv
  · rw [var_table_build] at hv
    obtain ⟨w, hw, _, _, _, _, hu⟩ := assign_state_mem _ _ v hv
    rw [hu]
    exact fold_loop_u _ 0 ⟨[], 0, 0, false⟩ (by intro v hv; cases hv) w hw
  · rw [(List.mem_replicate.mp hv).2]
    rfl

theorem tables_disjoint (names : List (List Nat)) (timing : List Nat) :
    slices_disjoint (build_tables names timing).var := by
  have hoff : ∀ i v, (var_table (build_tables names timing))[i]? = some v →
      v.s = (((var_table (build_tables names timing)).map (fun v => v.d)).take i).sum := by
    intro i v hv
    rw [var_table_build] at hv ⊢
    have := assign_state_offset _ 0 i v hv
    rw [List.map_take] at this
    omega
  have hlt : ∀ (i j : Nat) (vi vj : var_t), i < j →
      (var_table (build_tables names timing))[i]? = some vi →
      (var_table (build_tables names timing))[j]? = some vj → vi.s + vi.d ≤ vj.s := by
    intro i j vi vj hij hi hj
    rw [hoff i vi hi, hoff j vj hj]
    exact sum_take_le _ i j vi.d hij (by rw [List.getElem?_map, hi]; rfl)
  have hzero : ∀ (i : Nat) (v : var_t), (build_tables names timing).var[i]? = some v →
      (var_table (build_tables names timing))[i]? = some v ∨ v = var_zero := by
    intro i v hv
    rw [tables_var] at hv
    by_cases hi : i < (var_table (build_tables names timing)).length
    · rw [List.getElem?_append_left hi] at hv
      exact Or.inl hv
    · rw [List.getElem?_append_right (by omega)] at hv
      exact Or.inr (List.mem_replicate.mp (List.getElem?_mem hv)).2
  intro i j vi vj hij hi hj
  rcases hzero j vj hj with hj1 | hj0
  · rcases hzero i vi hi with hi1 | hi0
    · rcases Nat.lt_or_gt_of_ne hij with h | h
      · exact Or.inr (Or.inl (hlt i j vi vj h hi1 hj1))
      · exact Or.inr (Or.inr (hlt j i vj vi h hj1 hi1))
    · rw [hi0]
      exact Or.inr (Or.inl (Nat.zero_le _))
  · rw [hj0]
    exact Or.inl rfl

theorem line_bits_binary (var : List var_t) (id_hash : Nat → Nat) (i : Nat)
    (buf bits : List Nat) (h : line_bits var id_hash i buf = some bits) :
    bits.length = (var.getD i var_zero).d ∧ ∀ c ∈ bits, c = 48 ∨ c = 49 := by
  unfold line_bits at h
  split at h
  · rename_i j b hc
    split at h
    · rename_i hji
      cases h
      subst hji
      refine ⟨(classify_value_change _ _ _ _ _ hc).2, ?_⟩
      unfold classify at hc
      simp only at hc
      split_ifs at hc with h1 h2 h3 h4
      · rw [(classify_record_value_change _ _ _ _ _ _ hc).1.symm]
        intro c hc1
        rw [List.mem_singleton] at hc1
        rw [hc1]
        exact h3
      · rw [(classify_record_value_change _ _ _ _ _ _ hc).1.symm]
        intro c hc1
        have := List.mem_takeWhile_imp hc1
        simpa using this
    · cases h
  · cases h

/-- C28. State invariant: after the change loop has processed any lines from
the initial state (tables built from any name records), for every entry of
`var` the update count `u` is the number of value-change records the loop
accepted for that entry; if that number is 0 the entry's state slice is all
`x`, and otherwise it is the bits of the last accepted record for the entry,
which are as many as the width and all `0` or `1` (records accepted for other
entries do not show in it). -/
theorem state_invariant (names : List (List Nat)) (timing : List Nat) (thresh : Int)
    (dump_tim : Option (List Int)) (lines : List (List Nat)) (st : vcd_state)
    (hrun : read_changes (env_of (build_tables names timing) thresh dump_tim)
      (init_state (build_tables names timing)) lines = .ok st)
    (i : Nat) (v : var_t) (hv : st.var[i]? = some v) :
    v.u = (accepted_bits (build_tables names timing).var (build_tables names timing).id_hash
      i lines).length ∧
    (accepted_bits (build_tables names timing).var (build_tables names timing).id_hash
        i lines = [] → state_slice st.state v = List.replicate v.d 120) ∧
    (∀ bits, (accepted_bits (build_tables names timing).var
        (build_tables names timing).id_hash i lines).getLast? = some bits →
      state_slice st.state v = bits ∧ bits.length = v.d ∧ ∀ c ∈ bits, c = 48 ∨ c = 49) := by
  have harena := slices_in_arena_init names timing
  have hinit : ∀ i v, (init_state (build_tables names timing)).var[i]? = some v →
      v.u = (accepted_bits (build_tables names timing).var
        (env_of (build_tables names timing) thresh dump_tim).id_hash i []).length ∧
      state_slice (init_state (build_tables names timing)).state v
        = ((accepted_bits (build_tables names timing).var
            (env_of (build_tables names timing) thresh dump_tim).id_hash i []).getLast?).getD
              (List.replicate v.d 120) := by
    intro i v hiv
    have hmem : v ∈ (build_tables names timing).var := List.getElem?_mem hiv
    refine ⟨tables_u names timing v hmem, ?_⟩
    have hin := harena v hmem
    simp only [init_state, List.length_replicate] at hin
    simp only [accepted_bits, List.filterMap_nil, List.getLast?_nil, Option.getD_none,
      state_slice, init_state, List.drop_replicate, List.take_replicate]
    congr 1
    omega
  obtain ⟨hkey, hfin⟩ := read_changes_state (env_of (build_tables names timing) thresh dump_tim)
    (build_tables names timing).var (tables_disjoint names timing) lines []
    (init_state (build_tables names timing)) st rfl harena hinit hrun
  rw [List.nil_append] at hfin
  obtain ⟨hu, hsl⟩ := hfin i v hv
  refine ⟨hu, ?_, ?_⟩
  · intro hnil
    have hnil1 : accepted_bits (build_tables names timing).var
        (env_of (build_tables names timing) thresh dump_tim).id_hash i lines = [] := hnil
    rw [hsl, hnil1]
    rfl
  · intro bits hlast
    have hlast1 : (accepted_bits (build_tables names timing).var
        (env_of (build_tables names timing) thresh dump_tim).id_hash i lines).getLast?
          = some bits := hlast
    rw [hsl, hlast1]
    refine ⟨rfl, ?_⟩
    have hmem := List.mem_of_getLast?_eq_some hlast
    unfold accepted_bits at hmem
    obtain ⟨buf, _, hbuf⟩ := List.mem_filterMap.mp hmem
    obtain ⟨hlen, hbin⟩ := line_bits_binary _ _ _ _ _ hbuf
    refine ⟨?_, hbin⟩
    rw [hlen, ← key_getD st.var (build_tables names timing).var hkey i,
      List.getD_eq_getElem?_getD, hv]
    rfl

theorem state_invariant_witness :
    (read_changes (env_of (build_tables scenario_names scenario_timing) 1 none)
        (init_state (build_tables scenario_names scenario_timing)) scenario_lines_to_10
        = .ok scenario_state_at_10 ∧
      scenario_state_at_10.var[1]? = some ⟨bytes "\"", 2, 1, 1, 2, 1⟩) ∧
    (2 = (accepted_bits (build_tables scenario_names scenario_timing).var
      (build_tables scenario_names scenario_timing).id_hash 1 scenario_lines_to_10).length) ∧
    state_slice scenario_state_at_10.state ⟨bytes "\"", 2, 1, 1, 2, 1⟩ = bytes "11" :=
  ⟨⟨rfl, by decide⟩,
    (state_invariant scenario_names scenario_timing 1 none scenario_lines_to_10
      scenario_state_at_10 rfl 1 ⟨bytes "\"", 2, 1, 1, 2, 1⟩ (by decide)).1, by decide⟩

/-! ## The qualified names of the preamble -/

theorem clean_token_spec (t : List Nat) (h : clean_token t = true) :
    t ≠ [] ∧ ∀ c ∈ t, c ≠ 0 ∧ isspace c = false := by
  unfold clean_token at h
  simp only [Bool.and_eq_true, Bool.not_eq_true', List.isEmpty_eq_false, List.all_eq_true,
    bne_iff_ne, ne_eq] at h
  exact ⟨h.1, fun c hc => h.2 c hc⟩

theorem blank_run_spec (s : List Nat) (h : blank_run s = true) :
    ∀ c ∈ s, (c ≠ 0 ∧ isspace c = true) ∧ c ≠ 10 := by
  intro c hc
  unfold blank_run at h
  rw [List.all_eq_true] at h
  have hc1 := h c hc
  simp only [Bool.and_eq_true, bne_iff_ne, ne_eq] at hc1
  refine ⟨⟨?_, hc1.1⟩, hc1.2⟩
  intro h0
  rw [h0] at hc1
  exact absurd hc1.1 (by decide)

theorem tokenize_loop_blank (b r : List Nat) (n : Nat)
    (hb : ∀ c ∈ b, c ≠ 0 ∧ isspace c = true) :
    tokenize_loop (b ++ r) true n = tokenize_loop r true n := by
  induction b with
  | nil => rfl
  | cons c b ih =>
    have hc := hb c (by simp)
    rw [List.cons_append, tokenize_loop, if_neg hc.1, if_pos hc.2]
    exact ih (fun c hc => hb c (by simp [hc]))

theorem tokenize_loop_skip (u r : List Nat) (w n : Nat)
    (hu : ∀ c ∈ u, c ≠ 0 ∧ isspace c = false) (hw : isspace w = true) :
    tokenize_loop (u ++ w :: r) false n = tokenize_loop r true n := by
  have hw0 : w ≠ 0 := by
    intro h
    rw [h] at hw
    exact absurd hw (by decide)
  induction u with
  | nil =>
    rw [List.nil_append, tokenize_loop, if_neg hw0, if_pos hw]
  | cons c u ih =>
    have hc := hu c (by simp)
    rw [List.cons_append, tokenize_loop, if_neg hc.1, if_neg (by rw [hc.2]; decide)]
    simp only [Bool.false_eq_true, if_false]
    exact ih (fun c hc => hu c (by simp [hc]))

theorem span_token_clean (t r : List Nat) (w : Nat)
    (ht : ∀ c ∈ t, c ≠ 0 ∧ isspace c = false) (hw : isspace w = true) :
    span_token (t ++ w :: r) = t := by
  unfold span_token
  rw [takeWhile_append_stop _ _ _ _ (by simp [hw])]
  rw [List.takeWhile_eq_self_iff]
  intro c hc
  have := ht c hc
  simp [this.1, this.2]

theorem tokenize_loop_token (t r : List Nat) (w n : Nat) (hne : t ≠ [])
    (ht : ∀ c ∈ t, c ≠ 0 ∧ isspace c = false) (hw : isspace w = true)
    (hn : n + 1 ≤ TOKEN_MAX) :
    tokenize_loop (t ++ w :: r) true n
      = (tokenize_loop r true (n + 1)).map (fun toks => t :: toks) := by
  cases t with
  | nil => exact absurd rfl hne
  | cons c u =>
    have hc := ht c (by simp)
    have hspan := span_token_clean (c :: u) r w ht hw
    rw [List.cons_append] at hspan ⊢
    rw [tokenize_loop, if_neg hc.1, if_neg (by rw [hc.2]; decide), if_pos rfl,
      if_neg (by omega), hspan,
      tokenize_loop_skip u r w (n + 1) (fun c hc => ht c (by simp [hc])) hw]

/-- The tokenizer on tokens written with white space between them and at
least one byte of white space after the last: it stores exactly the tokens. -/
theorem tokenize_loop_weave (toks : List (List Nat)) (seps : List (List Nat)) (tl : List Nat)
    (n : Nat) (hclean : ∀ t ∈ toks, clean_token t = true)
    (hseps : ∀ s ∈ seps, s ≠ [] ∧ ∀ c ∈ s, c ≠ 0 ∧ isspace c = true)
    (htl : tl ≠ [] ∧ ∀ c ∈ tl, c ≠ 0 ∧ isspace c = true)
    (hn : n + toks.length ≤ TOKEN_MAX) :
    tokenize_loop (weave toks seps ++ tl) true n = some toks := by
  induction toks generalizing seps n with
  | nil =>
    have h := tokenize_loop_blank tl [] n htl.2
    rw [List.append_nil] at h
    rw [weave, List.nil_append, h]
    rfl
  | cons t ts ih =>
    obtain ⟨hne, ht⟩ := clean_token_spec t (hclean t (by simp))
    simp only [List.length_cons] at hn
    cases ts with
    | nil =>
      obtain ⟨w, r, hwr⟩ := List.exists_cons_of_ne_nil htl.1
      subst hwr
      have h := tokenize_loop_blank r [] (n + 1) (fun c hc => htl.2 c (by simp [hc]))
      rw [List.append_nil] at h
      rw [weave, tokenize_loop_token t r w n hne ht (htl.2 w (by simp)).2 (by omega), h]
      rfl
    | cons u us =>
      have hsep : seps.headD [32] ≠ [] ∧
          ∀ c ∈ seps.headD [32], c ≠ 0 ∧ isspace c = true := by
        cases seps with
        | nil =>
          refine ⟨by simp, ?_⟩
          intro c hc
          simp only [List.headD_nil, List.mem_singleton] at hc
          subst hc
          decide
        | cons s ss => exact hseps s (by simp)
      obtain ⟨w, r, hwr⟩ := List.exists_cons_of_ne_nil hsep.1
      rw [hwr] at hsep
      rw [weave, hwr, List.append_assoc, List.append_assoc, List.cons_append,
        tokenize_loop_token t _ w n hne ht (hsep.2 w (by simp)).2 (by omega),
        tokenize_loop_blank r _ (n + 1) (fun c hc => hsep.2 c (by simp [hc])),
        ih seps.tail (n + 1) (fun t ht => hclean t (by simp [ht]))
          (fun s hs => hseps s (List.mem_of_mem_tail hs)) (by
            simp only [List.length_cons] at hn ⊢
            omega)]
      rfl

theorem weave_no_newline (toks : List (List Nat)) (seps : List (List Nat))
    (hclean : ∀ t ∈ toks, clean_token t = true)
    (hseps : ∀ s ∈ seps, ∀ c ∈ s, c ≠ 10) : ∀ c ∈ weave toks seps, c ≠ 10 := by
  induction toks generalizing seps with
  | nil =>
    intro c hc
    cases hc
  | cons t ts ih =>
    have ht := (clean_token_spec t (hclean t (by simp))).2
    have hct : ∀ c ∈ t, c ≠ 10 := by
      intro c hc h10
      have := (ht c hc).2
      rw [h10] at this
      exact absurd this (by decide)
    cases ts with
    | nil =>
      rw [weave]
      exact hct
    | cons u us =>
      rw [weave]
      intro c hc
      rw [List.mem_append, List.mem_append] at hc
      rcases hc with (hc | hc) | hc
      · exact hct c hc
      · cases seps with
        | nil =>
          simp only [List.headD_nil, List.mem_singleton] at hc
          rw [hc]
          decide
        | cons s ss => exact hseps s (by simp) c hc
      · exact ih seps.tail (fun t ht => hclean t (by simp [ht]))
          (fun s hs => hseps s (List.mem_of_mem_tail hs)) c hc

theorem line_fits_spec (lay : line_layout) (toks : List (List Nat))
    (h : line_fits lay toks = true) :
    (∀ c ∈ lay.lead, (c ≠ 0 ∧ isspace c = true) ∧ c ≠ 10) ∧
    (∀ s ∈ lay.seps, s ≠ [] ∧ ∀ c ∈ s, (c ≠ 0 ∧ isspace c = true) ∧ c ≠ 10) ∧
    (∀ c ∈ lay.trail, (c ≠ 0 ∧ isspace c = true) ∧ c ≠ 10) ∧
    (∀ t ∈ toks, clean_token t = true) ∧ toks.length ≤ TOKEN_MAX ∧
    (line_text lay toks).length < LINE_SZ_MAX := by
  unfold line_fits line_layout.ok at h
  simp only [Bool.and_eq_true, decide_eq_true_eq, List.all_eq_true, Bool.not_eq_true',
    List.isEmpty_eq_false] at h
  obtain ⟨⟨⟨⟨⟨hlead, hseps⟩, htrail⟩, hclean⟩, hn⟩, hlen⟩ := h
  exact ⟨blank_run_spec _ hlead,
    fun s hs => ⟨by
      have := (hseps s hs).1
      intro h0
      rw [h0] at this
      exact absurd this (by decide), blank_run_spec _ (hseps s hs).2⟩,
    blank_run_spec _ htrail, hclean, hn, hlen⟩

/-- The tokenizer on the text of a line that fits the reader stores the tokens
of the line, whatever its layout. -/
theorem tokenize_line (lay : line_layout) (toks : List (List Nat))
    (hfit : line_fits lay toks = true) : tokenize (line_text lay toks) = some toks := by
  obtain ⟨hlead, hseps, htrail, hclean, hn, _⟩ := line_fits_spec lay toks hfit
  unfold tokenize line_text
  rw [List.append_assoc, List.append_assoc,
    tokenize_loop_blank lay.lead _ 0 (fun c hc => (hlead c hc).1)]
  refine tokenize_loop_weave toks lay.seps (lay.trail ++ [10]) 0 hclean
    (fun s hs => ⟨(hseps s hs).1, fun c hc => ((hseps s hs).2 c hc).1⟩) ⟨by simp, ?_⟩ (by omega)
  intro c hc
  rw [List.mem_append, List.mem_singleton] at hc
  rcases hc with hc | hc
  · exact (htrail c hc).1
  · rw [hc]
    decide

theorem weave_plain (toks : List (List Nat)) : weave toks [] = join_tokens toks := by
  induction toks with
  | nil => rfl
  | cons t ts ih =>
    cases ts with
    | nil => rfl
    | cons u us =>
      rw [weave, join_tokens, List.tail_nil, ih]
      simp

theorem line_text_plain (toks : List (List Nat)) :
    line_text plain_layout toks = join_tokens toks ++ [10] := by
  unfold line_text plain_layout
  simp only [List.nil_append, List.append_nil, weave_plain]

theorem fgets_aux_line (k : Nat) (body rest : List Nat) (hk : body.length < k)
    (hb : ∀ c ∈ body, c ≠ 10) :
    fgets_aux k (body ++ 10 :: rest) = (body ++ [10], rest) := by
  induction body generalizing k with
  | nil =>
    cases k with
    | zero => simp at hk
    | succ k => simp [fgets_aux]
  | cons c body ih =>
    cases k with
    | zero => simp at hk
    | succ k =>
      have hc := hb c (by simp)
      simp only [List.length_cons] at hk
      rw [List.cons_append, fgets_aux, if_neg hc,
        ih k (by omega) (fun c hc => hb c (by simp [hc]))]
      rfl

theorem fgets_line (body rest : List Nat) (hk : body.length + 1 < LINE_SZ_MAX)
    (hb : ∀ c ∈ body, c ≠ 10) :
    fgets LINE_SZ_MAX (body ++ 10 :: rest) = some (body ++ [10], rest) := by
  unfold fgets
  cases hf : body ++ 10 :: rest with
  | nil =>
    cases body <;> simp at hf
  | cons c fp =>
    simp only
    rw [← hf, fgets_aux_line _ body rest (by omega) hb]

/-- The call `fgets(buf, sizeof(buf), fp)` on the text of a line that fits the
reader delivers the whole line. -/
theorem fgets_line_text (lay : line_layout) (toks : List (List Nat)) (rest : List Nat)
    (hfit : line_fits lay toks = true) :
    fgets LINE_SZ_MAX (line_text lay toks ++ rest) = some (line_text lay toks, rest) := by
  obtain ⟨hlead, hseps, htrail, hclean, _, hlen⟩ := line_fits_spec lay toks hfit
  have h := fgets_line (lay.lead ++ weave toks lay.seps ++ lay.trail) rest (by
    unfold line_text at hlen
    simp only [List.length_append, List.length_singleton] at hlen ⊢
    omega) (by
    intro c hc
    rw [List.mem_append, List.mem_append] at hc
    rcases hc with (hc | hc) | hc
    · exact (hlead c hc).2
    · exact weave_no_newline toks lay.seps hclean
        (fun s hs c hc => ((hseps s hs).2 c hc).2) c hc
    · exact (htrail c hc).2)
  unfold line_text
  rw [List.append_assoc _ [10] rest]
  exact h

theorem preamble_line_of_tokens (st : pre_state) (buf : List Nat) (toks : List (List Nat))
    (ht : tokenize buf = some toks) : preamble_line st buf = preamble_tokens st toks := by
  unfold preamble_line
  rw [ht]

theorem scope_path_append (open_scopes : List (List Nat)) (name : List Nat) :
    scope_path (open_scopes ++ [name]) = scope_path open_scopes ++ name ++ [46] := by
  simp [scope_path, List.append_assoc]

theorem preamble_tokens_scope (st : pre_state) (open_scopes : List (List Nat))
    (kind name : List Nat) (hinv : pre_inv st open_scopes)
    (hlim : (pre_item.scope kind name).limits open_scopes = true) :
    ∃ st1, preamble_tokens st (pre_item.scope kind name).tokens = .ok (some st1) ∧
      pre_inv st1 (open_scopes ++ [name]) ∧ st1.names = st.names := by
  obtain ⟨hscope, hnam, hlen⟩ := hinv
  simp only [pre_item.limits, Bool.and_eq_true, decide_eq_true_eq] at hlim
  have h1 : ¬ strcmp (bytes "$scope") (bytes "$enddefinitions") = 0 := by decide
  have h2 : strcmp (bytes "$scope") (bytes "$scope") = 0 := by decide
  unfold preamble_tokens
  simp only [pre_item.tokens, List.length_cons, List.length_nil, List.getD_cons_zero,
    List.getD_cons_succ, h1, h2, and_false, and_true, if_false]
  rw [if_pos (by omega), if_neg (by rw [hscope]; unfold SCOPE_MAX at *; omega),
    if_neg (by rw [hnam]; omega)]
  refine ⟨_, rfl, ⟨?_, ?_, ?_⟩, rfl⟩
  · simp [hscope]
  · simp only [hnam, scope_path_append]
  · intro i hi
    simp only [List.length_append, List.length_singleton] at hi
    simp only
    by_cases hi1 : i = st.scope
    · rw [if_pos hi1, hi1, hscope, List.getD_eq_getElem?_getD,
        List.getElem?_append_right (le_refl _)]
      simp
    · rw [if_neg hi1, hlen i (by omega), List.getD_eq_getElem?_getD, List.getD_eq_getElem?_getD,
        List.getElem?_append_left (by omega)]

theorem preamble_tokens_upscope (st : pre_state) (open_scopes : List (List Nat))
    (hinv : pre_inv st open_scopes) :
    ∃ st1, preamble_tokens st pre_item.upscope.tokens = .ok (some st1) ∧
      pre_inv st1 open_scopes.dropLast ∧ st1.names = st.names := by
  obtain ⟨hscope, hnam, hlen⟩ := hinv
  have h1 : ¬ strcmp (bytes "$upscope") (bytes "$enddefinitions") = 0 := by decide
  have h2 : ¬ strcmp (bytes "$upscope") (bytes "$scope") = 0 := by decide
  have h3 : strcmp (bytes "$upscope") (bytes "$upscope") = 0 := by decide
  unfold preamble_tokens
  simp only [pre_item.tokens, List.length_cons, List.length_nil, List.getD_cons_zero,
    List.getD_cons_succ, h1, h2, h3, and_false, and_true, if_false]
  rw [if_pos (by omega)]
  rcases List.eq_nil_or_concat open_scopes with h0 | ⟨s, last, hs⟩
  · rw [h0] at hscope hnam hlen ⊢
    rw [if_neg (by rw [hscope]; simp)]
    exact ⟨st, rfl, ⟨hscope, hnam, hlen⟩, rfl⟩
  · rw [List.concat_eq_append] at hs
    rw [hs] at hscope hnam hlen ⊢
    rw [List.length_append, List.length_singleton] at hscope
    rw [if_pos (by omega)]
    refine ⟨_, rfl, ⟨?_, ?_, ?_⟩, rfl⟩
    · simp [hscope]
    · have hl := hlen s.length (by simp)
      rw [List.getD_eq_getElem?_getD, List.getElem?_append_right (le_refl _)] at hl
      simp only [Nat.sub_self, List.getElem?_cons_zero, Option.getD_some] at hl
      simp only [hscope, Nat.add_sub_cancel, hl, hnam, scope_path_append,
        List.dropLast_concat, List.length_append, List.length_singleton]
      rw [List.append_assoc]
      exact List.take_left' (by omega)
    · intro i hi
      simp only [List.dropLast_concat] at hi ⊢
      have := hlen i (by simp; omega)
      rw [this, List.getD_eq_getElem?_getD, List.getD_eq_getElem?_getD,
        List.getElem?_append_left hi]

theorem preamble_tokens_var (st : pre_state) (open_scopes : List (List Nat))
    (type width id short : List Nat) (more : List (List Nat))
    (hinv : pre_inv st open_scopes)
    (hlim : (pre_item.var type width id short more).limits open_scopes = true) :
    ∃ st1, preamble_tokens st (pre_item.var type width id short more).tokens
        = .ok (some st1) ∧ pre_inv st1 open_scopes ∧
      st1.names = st.names ++
        [name_record id (atoi width).toNat (qualified_name open_scopes short more)] := by
  obtain ⟨hscope, hnam, hlen⟩ := hinv
  simp only [pre_item.limits, decide_eq_true_eq] at hlim
  have h1 : ¬ strcmp (bytes "$var") (bytes "$enddefinitions") = 0 := by decide
  have h2 : ¬ strcmp (bytes "$var") (bytes "$scope") = 0 := by decide
  have h3 : ¬ strcmp (bytes "$var") (bytes "$upscope") = 0 := by decide
  have h4 : strcmp (bytes "$var") (bytes "$var") = 0 := by decide
  unfold preamble_tokens
  cases more with
  | nil =>
    simp only [pre_item.tokens, List.nil_append, List.length_cons, List.length_nil,
      List.getD_cons_zero, List.getD_cons_succ, h1, h2, h3, h4, and_false, and_true, if_false]
    simp only [List.headD_nil, List.length_nil, Nat.add_zero] at hlim
    rw [if_pos (by omega), if_neg (by rw [hnam]; omega),
      if_neg (by unfold ID_SZ_MAX; omega)]
    refine ⟨_, rfl, ⟨hscope, hnam, hlen⟩, ?_⟩
    simp [qualified_name, hnam]
  | cons m ms =>
    simp only [pre_item.tokens, List.cons_append, List.length_cons, List.length_append,
      List.length_nil, List.getD_cons_zero, List.getD_cons_succ, h1, h2, h3, h4, and_false,
      and_true, if_false]
    simp only [List.headD_cons] at hlim
    rw [if_pos (by omega), if_neg (by rw [hnam]; omega),
      if_pos (by unfold ID_SZ_MAX; omega), if_neg (by rw [hnam]; omega)]
    refine ⟨_, rfl, ⟨hscope, hnam, hlen⟩, ?_⟩
    simp [qualified_name, hnam]

/-- A line that is none of the four kinds leaves the state of the preamble
loop as it is. -/
theorem preamble_tokens_other (st : pre_state) (toks : List (List Nat))
    (h : no_keyword toks = true) : preamble_tokens st toks = .ok (some st) := by
  unfold no_keyword at h
  simp only [Bool.and_eq_true, Bool.not_eq_true', Bool.and_eq_false_iff, decide_eq_false_iff_not,
    List.headD_eq_head?_getD] at h
  obtain ⟨⟨⟨h1, h2⟩, h3⟩, h4⟩ := h
  unfold preamble_tokens
  simp only [List.getD_eq_getElem?_getD, List.head?_eq_getElem?] at h1 h2 h3 h4 ⊢
  rw [if_neg (by tauto), if_neg (by tauto), if_neg (by tauto), if_neg (by tauto)]

theorem expected_names_cons (it : pre_item) (rest : List pre_item)
    (open_scopes : List (List Nat)) :
    expected_names (it :: rest) open_scopes
      = expected_names [it] open_scopes ++ expected_names rest (it.next open_scopes) := by
  cases it <;> rfl

theorem preamble_tokens_item (st : pre_state) (open_scopes : List (List Nat)) (it : pre_item)
    (hinv : pre_inv st open_scopes) (hlim : it.limits open_scopes = true) :
    ∃ st1, preamble_tokens st it.tokens = .ok (some st1) ∧
      pre_inv st1 (it.next open_scopes) ∧
      st1.names = st.names ++ expected_names [it] open_scopes := by
  cases it with
  | scope kind name =>
    obtain ⟨st1, h1, h2, h3⟩ := preamble_tokens_scope st open_scopes kind name hinv hlim
    exact ⟨st1, h1, h2, by rw [h3]; simp [expected_names]⟩
  | upscope =>
    obtain ⟨st1, h1, h2, h3⟩ := preamble_tokens_upscope st open_scopes hinv
    exact ⟨st1, h1, h2, by rw [h3]; simp [expected_names]⟩
  | var type width id short more =>
    obtain ⟨st1, h1, h2, h3⟩ :=
      preamble_tokens_var st open_scopes type width id short more hinv hlim
    exact ⟨st1, h1, h2, by rw [h3]; simp [expected_names]⟩
  | other toks =>
    exact ⟨st, preamble_tokens_other st toks hlim, hinv, by simp [expected_names]⟩

theorem preamble_tokens_enddefinitions (st : pre_state) (more : List (List Nat)) :
    preamble_tokens st (bytes "$enddefinitions" :: more) = .ok none := by
  have h1 : strcmp (bytes "$enddefinitions") (bytes "$enddefinitions") = 0 := by decide
  unfold preamble_tokens
  simp only [List.length_cons, List.getD_cons_zero, h1, and_true]
  rw [if_pos (by omega)]

/-- The preamble loop on the text of the laid-out `lines` followed by any
text: after the lines it goes on from a state that agrees with the open
scopes and holds the name records the specification expects. -/
theorem read_preamble_laid (lines : List (line_layout × pre_item))
    (open_scopes : List (List Nat)) (st : pre_state) (hinv : pre_inv st open_scopes)
    (hlim : laid_limits lines open_scopes = true) :
    ∃ st1, pre_inv st1 (scopes_after (lines.map Prod.snd) open_scopes) ∧
      st1.names = st.names ++ expected_names (lines.map Prod.snd) open_scopes ∧
      ∀ (rest : List Nat) (fuel : Nat), lines.length ≤ fuel →
        read_preamble fuel st (laid_text lines ++ rest)
          = read_preamble (fuel - lines.length) st1 rest := by
  induction lines generalizing open_scopes st with
  | nil => exact ⟨st, hinv, by simp [expected_names], fun rest fuel _ => rfl⟩
  | cons l lines ih =>
    obtain ⟨lay, it⟩ := l
    simp only [laid_limits, Bool.and_eq_true] at hlim
    obtain ⟨⟨hfit, hitem⟩, hrest⟩ := hlim
    obtain ⟨s1, hs1, hinv1, hnames1⟩ := preamble_tokens_item st open_scopes it hinv hitem
    obtain ⟨s2, hinv2, hnames2, hs2⟩ := ih (it.next open_scopes) s1 hinv1 hrest
    refine ⟨s2, hinv2, ?_, ?_⟩
    · rw [hnames2, hnames1, List.append_assoc, List.map_cons, ← expected_names_cons]
    · intro rest fuel hfuel
      cases fuel with
      | zero => simp at hfuel
      | succ fuel =>
        simp only [laid_text, List.append_assoc, read_preamble,
          fgets_line_text lay it.tokens _ hfit,
          preamble_line_of_tokens st _ _ (tokenize_line lay it.tokens hfit), hs1,
          List.length_cons, Nat.add_sub_add_right]
        exact hs2 rest fuel (by simp only [List.length_cons] at hfuel; omega)

theorem preamble_text_laid (items : List pre_item) :
    preamble_text items = laid_text (items.map (fun it => (plain_layout, it))) := by
  induction items with
  | nil => rfl
  | cons it rest ih =>
    simp only [preamble_text, List.map_cons, laid_text, line_text_plain, ih,
      List.append_assoc, List.singleton_append]

theorem within_limits_laid (items : List pre_item) (open_scopes : List (List Nat))
    (h : within_limits items open_scopes = true) :
    laid_limits (items.map (fun it => (plain_layout, it))) open_scopes = true := by
  induction items generalizing open_scopes with
  | nil => rfl
  | cons it rest ih =>
    simp only [within_limits, Bool.and_eq_true, decide_eq_true_eq] at h
    obtain ⟨⟨⟨⟨hclean, hn⟩, hline⟩, hitem⟩, hrest⟩ := h
    simp only [List.map_cons, laid_limits, line_fits, Bool.and_eq_true, decide_eq_true_eq,
      line_text_plain, List.length_append, List.length_singleton]
    exact ⟨⟨⟨⟨⟨rfl, hclean⟩, hn⟩, hline⟩, hitem⟩, ih _ hrest⟩

theorem map_snd_plain (items : List pre_item) :
    (items.map (fun it => (plain_layout, it))).map Prod.snd = items := by
  induction items with
  | nil => rfl
  | cons it rest ih => simp only [List.map_cons, ih]

theorem preamble_text_length (items : List pre_item) :
    items.length ≤ (preamble_text items).length := by
  induction items with
  | nil => simp [preamble_text]
  | cons it rest ih =>
    simp only [preamble_text, List.length_cons, List.length_append]
    omega

/-- The preamble loop on the text of `items` followed by any text: after the
lines of `items` it goes on from a state that agrees with the open scopes. -/
theorem read_preamble_prefix (items : List pre_item) (open_scopes : List (List Nat))
    (st : pre_state) (hinv : pre_inv st open_scopes)
    (hlim : within_limits items open_scopes = true) :
    ∃ st1, pre_inv st1 (scopes_after items open_scopes) ∧
      ∀ (rest : List Nat) (fuel : Nat), items.length ≤ fuel →
        read_preamble fuel st (preamble_text items ++ rest)
          = read_preamble (fuel - items.length) st1 rest := by
  obtain ⟨st1, h1, _, h3⟩ := read_preamble_laid (items.map (fun it => (plain_layout, it)))
    open_scopes st hinv (within_limits_laid items open_scopes hlim)
  rw [map_snd_plain] at h1
  refine ⟨st1, h1, ?_⟩
  intro rest fuel hfuel
  have := h3 rest fuel (by rw [List.length_map]; exact hfuel)
  rw [List.length_map, ← preamble_text_laid] at this
  exact this

/-- A `$scope` line read with `scope <= SCOPE_MAX` and room for the name is
accepted, and stores the length of the name at position `scope`. -/
theorem scope_line_store (st : pre_state) (kind name : List Nat) (buf : List Nat)
    (ht : tokenize buf = some (pre_item.scope kind name).tokens)
    (hscope : st.scope ≤ SCOPE_MAX)
    (hlen : st.nam.length + name.length + 1 < LINE_SZ_MAX) :
    scope_store st buf = some st.scope ∧
    ∃ st1, preamble_line st buf = .ok (some st1) ∧ st1.scope = st.scope + 1 ∧
      st1.len st.scope = name.length := by
  have h1 : ¬ strcmp (bytes "$scope") (bytes "$enddefinitions") = 0 := by decide
  have h2 : strcmp (bytes "$scope") (bytes "$scope") = 0 := by decide
  constructor
  · unfold scope_store
    simp only [ht, pre_item.tokens, List.length_cons, List.length_nil, List.getD_cons_zero,
      List.getD_cons_succ, h1, h2, and_false, and_true, if_false]
    rw [if_pos (by omega), if_neg (by omega), if_neg (by omega)]
  · rw [preamble_line_of_tokens st buf _ ht]
    unfold preamble_tokens
    simp only [pre_item.tokens, List.length_cons, List.length_nil, List.getD_cons_zero,
      List.getD_cons_succ, h1, h2, and_false, and_true, if_false]
    rw [if_pos (by omega), if_neg (by omega), if_neg (by omega)]
    exact ⟨_, rfl, rfl, by simp⟩

theorem preamble_line_enddefinitions (st : pre_state) :
    preamble_line st (bytes "$enddefinitions $end\n") = .ok none := by
  have ht : tokenize (bytes "$enddefinitions $end\n")
      = some [bytes "$enddefinitions", bytes "$end"] := by decide
  rw [preamble_line_of_tokens st _ _ ht, preamble_tokens_enddefinitions]

theorem read_preamble_nil (fuel : Nat) (st : pre_state) :
    read_preamble fuel st [] = .ok (st, []) := by
  cases fuel <;> rfl

/-- C31 (the code at the failing input). After 100 nested `$scope` lines the
preamble loop is at `scope = 100`; the next `$scope` line passes the test
`scope > SCOPE_MAX`, is not a fatal error, and stores its name length at
position 100 of `len`, which is not below `SCOPE_MAX = 100`, the number of
entries of `len`; the run goes on to `$enddefinitions` with `scope = 101`. -/
theorem scope_store_past_array :
    ∃ st st1,
      read_preamble (preamble_text (nested_scopes 100)).length pre_init
        (preamble_text (nested_scopes 100)) = .ok (st, []) ∧
      st.scope = 100 ∧
      scope_store st (bytes "$scope module s $end\n") = some 100 ∧
      ¬ (100 < SCOPE_MAX) ∧
      preamble_line st (bytes "$scope module s $end\n") = .ok (some st1) ∧
      st1.scope = 101 ∧
      read_preamble
        (preamble_text (nested_scopes 100) ++
          (bytes "$scope module s $end\n" ++ bytes "$enddefinitions $end\n")).length pre_init
        (preamble_text (nested_scopes 100) ++
          (bytes "$scope module s $end\n" ++ bytes "$enddefinitions $end\n"))
        = .ok (st1, []) := by
  have hinit : pre_inv pre_init [] := ⟨rfl, rfl, fun i hi => by simp at hi⟩
  have hlim : within_limits (nested_scopes 100) [] = true := by decide
  have hlen100 := preamble_text_length (nested_scopes 100)
  have hn100 : (nested_scopes 100).length = 100 := by simp [nested_scopes]
  obtain ⟨st, hinv, hrun⟩ := read_preamble_prefix (nested_scopes 100) [] pre_init hinit hlim
  obtain ⟨hscope, hnam, _⟩ := hinv
  have hopen : (scopes_after (nested_scopes 100) []).length = 100 := by decide
  have hpath : (scope_path (scopes_after (nested_scopes 100) [])).length = 200 := by decide
  rw [hopen] at hscope
  have ht : tokenize (bytes "$scope module s $end\n")
      = some (pre_item.scope (bytes "module") (bytes "s")).tokens := by decide
  obtain ⟨hstore, st1, hline, hscope1, _⟩ := scope_line_store st (bytes "module") (bytes "s")
    (bytes "$scope module s $end\n") ht (by rw [hscope]; decide) (by
      rw [hnam, hpath]
      decide)
  refine ⟨st, st1, ?_, hscope, by rw [hstore, hscope], by decide, hline,
    by rw [hscope1, hscope], ?_⟩
  · have := hrun [] (preamble_text (nested_scopes 100)).length hlen100
    rw [List.append_nil] at this
    rw [this, read_preamble_nil]
  · rw [hrun _ _ (by rw [List.length_append]; omega)]
    obtain ⟨m, hm⟩ : ∃ m, (preamble_text (nested_scopes 100) ++
        (bytes "$scope module s $end\n" ++ bytes "$enddefinitions $end\n")).length
          - (nested_scopes 100).length = m + 2 := by
      have h1 : (bytes "$scope module s $end\n" ++ bytes "$enddefinitions $end\n").length
          = 42 := by decide
      refine ⟨(preamble_text (nested_scopes 100)).length + 42 - 100 - 2, ?_⟩
      rw [List.length_append, h1, hn100]
      omega
    rw [hm]
    have hf1 : fgets LINE_SZ_MAX (bytes "$scope module s $end\n" ++
          bytes "$enddefinitions $end\n")
        = some (bytes "$scope module s $end\n", bytes "$enddefinitions $end\n") := by decide
    have hf2 : fgets LINE_SZ_MAX (bytes "$enddefinitions $end\n")
        = some (bytes "$enddefinitions $end\n", []) := by decide
    simp only [read_preamble, hf1, hline, hf2, preamble_line_enddefinitions]

/-! ## Rejected lines of a trace file -/

/-- A vector record whose bit run fills `chg`: in the scenario the line `b`
with 64 bits is delivered as 65 bytes, the pointer `r` is at the terminator in
the last byte of the 66, and the scan for the end of the identifier goes on
past it; the model stops the run there. -/
theorem long_vector_line_overruns :
    fgets 66 (long_vector_line ++ bytes "#10\n")
      = some (bytes "b" ++ List.replicate 64 48, bytes " \"\n" ++ bytes "#10\n") ∧
    scan_start (bytes "b" ++ List.replicate 64 48) = some 65 ∧
    scan_overrun 66 (bytes "b" ++ List.replicate 64 48) = true ∧
    read_vcd (scenario_preamble ++ bytes "#0\n" ++ long_vector_line ++ bytes "#10\n")
      scenario_timing 1 none = .error .chg_overrun := by
  refine ⟨by decide, by decide, by decide, rfl⟩

end ReadVcd
